import Mathlib

/-!
Verification of the potxkit package / relationship-graph engine.

The Python sources are shallowly embedded: part names and path strings are
lists of characters (`Name`), part payloads are structured values, the
order-preserving dict of `OOXMLPackage` is an association list paired with
the explicit `_order` list, and fallible code returns `Except`.
-/

set_option maxHeartbeats 1000000

abbrev Name := List Char

/-- One path component of `posixpath.split`-style processing: everything
after the last slash (the embedding of `posixpath.basename`). -/
def basename (p : Name) : Name :=
  (p.reverse.takeWhile (fun c => c ≠ '/')).reverse

/-- Embedding of `posixpath.dirname`: the part before the last slash, with
trailing slashes stripped unless the head consists only of slashes. -/
def dirname (p : Name) : Name :=
  let rev := p.reverse
  let baseRev := rev.takeWhile (fun c => c ≠ '/')
  let headRev := rev.drop baseRev.length
  if headRev = [] then []
  else if headRev.all (fun c => c = '/') then headRev.reverse
  else (headRev.dropWhile (fun c => c = '/')).reverse

/-- One step of `posixpath.join`: absolute second component resets, a
component is appended with a separating slash unless the accumulator is
empty or already ends with a slash. -/
def join2 (a b : Name) : Name :=
  if b.head? = some '/' then b
  else if a = [] ∨ a.getLast? = some '/' then a ++ b
  else a ++ '/' :: b

/-- Embedding of `str.removesuffix`. -/
def removesuffix (s suf : Name) : Name :=
  if suf ≠ [] ∧ suf.isSuffixOf s then s.take (s.length - suf.length) else s

/-- Embedding of `str.removeprefix` (called dropPre to keep identifiers plain). -/
def dropPre (s pre : Name) : Name :=
  if pre.isPrefixOf s then s.drop pre.length else s

/-- Embedding of `_strip_leading_slash` from rels.py (also
`OOXMLPackage._normalize_name`): remove one leading slash. -/
def stripLeadingSlash (p : Name) : Name :=
  match p with
  | c :: t => if c = '/' then t else c :: t
  | [] => []

/-- The root sidecar name, the literal in rels.py. -/
def relsRoot : Name := "_rels/.rels".data

/-- The sidecar directory component, the literal in rels.py. -/
def relsSeg : Name := "_rels".data

/-- The sidecar filename suffix, the literal in rels.py. -/
def relsSuf : Name := ".rels".data

/-- Embedding of `rels_part_for` from rels.py. -/
def rels_part_for (source_part : Name) : Name :=
  let source := stripLeadingSlash source_part
  if source = [] then relsRoot
  else
    let source_dir := dirname source
    let source_base := basename source
    join2 (join2 source_dir relsSeg) (source_base ++ relsSuf)

/-- Embedding of `source_part_for` from rels.py. -/
def source_part_for (rels_part : Name) : Name :=
  let rels := stripLeadingSlash rels_part
  if rels = relsRoot then []
  else
    let rels_dir := dirname rels
    let source_dir := dirname rels_dir
    let source_base := removesuffix (basename rels) relsSuf
    join2 source_dir source_base

/-- Splitting a character list at every slash, the embedding of
`str.split` with separator `/`. -/
def splitSlash : Name → List Name
  | [] => [[]]
  | c :: t =>
    let r := splitSlash t
    if c = '/' then [] :: r
    else
      match r with
      | [] => [[c]]
      | s :: rest => (c :: s) :: rest

/-- A part name is normalized when it is empty (the root) or none of its
slash-separated segments is empty: no leading or trailing slash and no
repeated slash. -/
def NormalizedName (p : Name) : Prop :=
  p = [] ∨ ∀ s ∈ splitSlash p, s ≠ []

instance (p : Name) : Decidable (NormalizedName p) := by
  unfold NormalizedName; infer_instance

theorem splitSlash_ne_nil (p : Name) : splitSlash p ≠ [] := by
  induction p with
  | nil => simp [splitSlash]
  | cons c t ih =>
    simp only [splitSlash]
    by_cases hc : c = '/'
    · simp [hc]
    · simp only [if_neg hc]
      cases hs : splitSlash t with
      | nil => simp
      | cons s rest => simp

theorem splitSlash_cons_slash (t : Name) :
    splitSlash ('/' :: t) = [] :: splitSlash t := by
  simp [splitSlash]

theorem splitSlash_cons_ne (c : Char) (t : Name) (hc : c ≠ '/') :
    splitSlash (c :: t) =
      (c :: (splitSlash t).headI) :: (splitSlash t).tail := by
  simp only [splitSlash, if_neg hc]
  cases hs : splitSlash t with
  | nil => exact absurd hs (splitSlash_ne_nil t)
  | cons s rest => simp

theorem splitSlash_append (x y : Name) :
    splitSlash (x ++ '/' :: y) = splitSlash x ++ splitSlash y := by
  induction x with
  | nil => simp [splitSlash]
  | cons c t ih =>
    by_cases hc : c = '/'
    · subst hc
      simp only [List.cons_append, splitSlash_cons_slash, ih, List.cons_append]
    · simp only [List.cons_append, splitSlash_cons_ne c _ hc, ih]
      cases hs : splitSlash t with
      | nil => exact absurd hs (splitSlash_ne_nil t)
      | cons s rest => simp

theorem splitSlash_no_slash (p : Name) (h : '/' ∉ p) : splitSlash p = [p] := by
  induction p with
  | nil => rfl
  | cons c t ih =>
    have hc : c ≠ '/' := fun hc => h (hc ▸ List.mem_cons_self c t)
    have ht : '/' ∉ t := fun hm => h (List.mem_cons_of_mem c hm)
    rw [splitSlash_cons_ne c t hc, ih ht]
    simp

theorem takeWhile_append_all {p : Char → Bool} (l₁ l₂ : List Char)
    (h : ∀ a ∈ l₁, p a) :
    (l₁ ++ l₂).takeWhile p = l₁ ++ l₂.takeWhile p :=
  List.takeWhile_append_of_pos h

theorem basename_no_slash (p : Name) (h : '/' ∉ p) : basename p = p := by
  unfold basename
  rw [List.takeWhile_eq_self_iff.2, List.reverse_reverse]
  intro a ha
  have : a ∈ p := List.mem_reverse.1 ha
  simp only [ne_eq, decide_eq_true_eq]
  intro hEq
  exact h (hEq ▸ this)

theorem basename_append (d b : Name) (hb : '/' ∉ b) :
    basename (d ++ '/' :: b) = b := by
  unfold basename
  have hrev : (d ++ '/' :: b).reverse = b.reverse ++ '/' :: d.reverse := by
    simp
  rw [hrev, takeWhile_append_all, List.takeWhile_cons_of_neg]
  · simp [List.takeWhile_nil]
  · simp
  · intro a ha
    have : a ∈ b := List.mem_reverse.1 ha
    simp only [ne_eq, decide_eq_true_eq]
    intro hEq
    exact hb (hEq ▸ this)

theorem dirname_no_slash (p : Name) (h : '/' ∉ p) : dirname p = [] := by
  unfold dirname
  have hbase : p.reverse.takeWhile (fun c => c ≠ '/') = p.reverse := by
    rw [List.takeWhile_eq_self_iff.2]
    intro a ha
    have : a ∈ p := List.mem_reverse.1 ha
    simp only [ne_eq, decide_eq_true_eq]
    intro hEq
    exact h (hEq ▸ this)
  dsimp only
  rw [hbase, List.drop_length]
  simp

theorem dirname_append (d b : Name) (hb : '/' ∉ b) (hd : d ≠ [])
    (hdl : d.getLast? ≠ some '/') :
    dirname (d ++ '/' :: b) = d := by
  unfold dirname
  have hrev : (d ++ '/' :: b).reverse = b.reverse ++ '/' :: d.reverse := by
    simp
  have hbase : (b.reverse ++ '/' :: d.reverse).takeWhile (fun c => c ≠ '/') =
      b.reverse := by
    rw [takeWhile_append_all, List.takeWhile_cons_of_neg]
    · simp [List.takeWhile_nil]
    · simp
    · intro a ha
      have : a ∈ b := List.mem_reverse.1 ha
      simp only [ne_eq, decide_eq_true_eq]
      intro hEq
      exact hb (hEq ▸ this)
  have hdrop : (b.reverse ++ '/' :: d.reverse).drop b.reverse.length =
      '/' :: d.reverse := List.drop_left _ _
  simp only [hrev, hbase, hdrop]
  have hne : ('/' :: d.reverse : List Char) ≠ [] := by simp
  rw [if_neg hne]
  obtain ⟨h1, t1, hd1⟩ : ∃ h1 t1, d.reverse = h1 :: t1 := by
    cases hdr : d.reverse with
    | nil => exact absurd (by simpa using hdr) hd
    | cons h1 t1 => exact ⟨h1, t1, rfl⟩
  have hh1 : h1 ≠ '/' := by
    intro hEq
    apply hdl
    have : d.reverse.head? = some h1 := by rw [hd1]; rfl
    rw [List.head?_reverse] at this
    rw [this, hEq]
  have hnall : ¬ ('/' :: d.reverse).all (fun c => c = '/') = true := by
    intro hall
    have hmem : h1 ∈ ('/' :: d.reverse) := by rw [hd1]; simp
    exact hh1 (by simpa using List.all_eq_true.1 hall h1 hmem)
  rw [if_neg hnall]
  rw [List.dropWhile_cons_of_pos (by simp), hd1,
    List.dropWhile_cons_of_neg (by simpa using hh1)]
  rw [← hd1, List.reverse_reverse]

theorem join2_nil_left (x : Name) : join2 [] x = x := by
  unfold join2
  split
  · rfl
  · rw [if_pos (Or.inl rfl)]; simp

theorem join2_sep (a x : Name) (ha : a ≠ []) (hla : a.getLast? ≠ some '/')
    (hx : x.head? ≠ some '/') : join2 a x = a ++ '/' :: x := by
  unfold join2
  rw [if_neg hx, if_neg (not_or.2 ⟨ha, hla⟩)]

theorem last_slash_decomp (p : Name) :
    '/' ∉ p ∨ ∃ d b, p = d ++ '/' :: b ∧ '/' ∉ b := by
  induction p with
  | nil => exact Or.inl (by simp)
  | cons c t ih =>
    by_cases hm : '/' ∈ t
    · rcases ih with hnt | ⟨d, b, hdb, hb⟩
      · exact absurd hm hnt
      · exact Or.inr ⟨c :: d, b, by rw [hdb]; rfl, hb⟩
    · by_cases hc : c = '/'
      · exact Or.inr ⟨[], t, by rw [hc]; rfl, hm⟩
      · refine Or.inl ?_
        intro hmem
        rcases List.mem_cons.1 hmem with h | h
        · exact hc h.symm
        · exact hm h

/-- Every nonempty normalized name is either a single slash-free nonempty
segment, or decomposes at its last slash into a nonempty head (not ending
or starting with a slash) and a nonempty slash-free tail segment. -/
theorem normalized_decomp (p : Name) (hn : NormalizedName p) (hne : p ≠ []) :
    ('/' ∉ p) ∨
    ∃ d b, p = d ++ '/' :: b ∧ '/' ∉ b ∧ b ≠ [] ∧ d ≠ [] ∧
      d.getLast? ≠ some '/' ∧ d.head? ≠ some '/' := by
  have hseg : ∀ s ∈ splitSlash p, s ≠ [] := hn.resolve_left hne
  rcases last_slash_decomp p with hns | ⟨d, b, hdb, hb⟩
  · exact Or.inl hns
  · refine Or.inr ⟨d, b, hdb, hb, ?_, ?_, ?_, ?_⟩
    · apply hseg
      rw [hdb, splitSlash_append, splitSlash_no_slash b hb]
      simp
    · intro hdnil
      apply hseg []
      · rw [hdb, hdnil, splitSlash_append]
        simp [splitSlash]
      · rfl
    · intro hlast
      obtain ⟨d', hd'⟩ : ∃ d', d = d' ++ ['/'] := by
        have hdne : d ≠ [] := by
          intro hdnil
          rw [hdnil] at hlast
          simp at hlast
        obtain ⟨d', a, ha⟩ := List.eq_nil_or_concat d |>.resolve_left hdne
        rw [List.concat_eq_append] at ha
        rw [ha, List.getLast?_concat] at hlast
        cases hlast
        exact ⟨d', ha⟩
      apply hseg []
      · rw [hdb, hd', List.append_assoc, List.singleton_append,
          splitSlash_append, splitSlash_cons_slash]
        simp
      · rfl
    · intro hhead
      obtain ⟨t, ht⟩ : ∃ t, d = '/' :: t := by
        cases hd : d with
        | nil => rw [hd] at hhead; simp at hhead
        | cons x xs =>
          rw [hd] at hhead
          simp only [List.head?_cons, Option.some.injEq] at hhead
          exact ⟨xs, by rw [hhead]⟩
      apply hseg []
      · rw [hdb, ht, List.cons_append, splitSlash_cons_slash]
        simp
      · rfl

theorem getLast?_append_right (l₁ l₂ : List Char) (h : l₂ ≠ []) :
    (l₁ ++ l₂).getLast? = l₂.getLast? := by
  induction l₂ using List.reverseRecOn with
  | nil => exact absurd rfl h
  | append_singleton t a _ =>
    rw [← List.append_assoc, List.getLast?_concat, List.getLast?_concat]

theorem removesuffix_append (b s : Name) (hs : s ≠ []) :
    removesuffix (b ++ s) s = b := by
  unfold removesuffix
  rw [if_pos ⟨hs, List.isSuffixOf_iff_suffix.2 (List.suffix_append b s)⟩]
  rw [List.length_append, Nat.add_sub_cancel, List.take_left]

theorem rels_part_for_single (b : Name) (hb : '/' ∉ b) (hbne : b ≠ []) :
    rels_part_for b = relsSeg ++ '/' :: (b ++ relsSuf) := by
  unfold rels_part_for
  have hstrip : stripLeadingSlash b = b := by
    cases hbc : b with
    | nil => rfl
    | cons c t =>
      have hc : c ≠ '/' := fun h => hb (by rw [hbc, h]; simp)
      simp [stripLeadingSlash, hc]
  rw [hstrip, if_neg hbne]
  dsimp only
  rw [dirname_no_slash b hb, basename_no_slash b hb, join2_nil_left]
  rw [join2_sep]
  · decide
  · decide
  · cases hbc : b with
    | nil => exact absurd hbc hbne
    | cons c t =>
      have hc : c ≠ '/' := fun h => hb (by rw [hbc, h]; simp)
      simp [hc]

theorem rels_part_for_two (d b : Name) (hb : '/' ∉ b) (hbne : b ≠ [])
    (hd : d ≠ []) (hdl : d.getLast? ≠ some '/') (hdh : d.head? ≠ some '/') :
    rels_part_for (d ++ '/' :: b) =
      (d ++ '/' :: relsSeg) ++ '/' :: (b ++ relsSuf) := by
  unfold rels_part_for
  have hstrip : stripLeadingSlash (d ++ '/' :: b) = d ++ '/' :: b := by
    cases hdc : d with
    | nil => exact absurd hdc hd
    | cons c t =>
      have hc : c ≠ '/' := by
        intro h
        rw [hdc] at hdh
        simp [h] at hdh
      simp [stripLeadingSlash, hc]
  rw [hstrip, if_neg (by simp)]
  dsimp only
  rw [dirname_append d b hb hd hdl, basename_append d b hb]
  rw [join2_sep d _ hd hdl (by decide)]
  rw [join2_sep]
  · simp
  · rw [getLast?_append_right]
    · decide
    · simp
  · cases hbc : b with
    | nil => exact absurd hbc hbne
    | cons c t =>
      have hc : c ≠ '/' := fun h => hb (by rw [hbc, h]; simp)
      simp [hc]

theorem stripLeadingSlash_of_head (p : Name) (h : p.head? ≠ some '/') :
    stripLeadingSlash p = p := by
  cases p with
  | nil => rfl
  | cons c t =>
    have hc : c ≠ '/' := by
      intro hEq
      exact h (by rw [hEq]; rfl)
    simp [stripLeadingSlash, hc]

theorem no_slash_append_relsSuf (b : Name) (hb : '/' ∉ b) :
    '/' ∉ b ++ relsSuf := by
  intro hmem
  rcases List.mem_append.1 hmem with h | h
  · exact hb h
  · revert h
    decide

theorem source_part_for_single (b : Name) (hb : '/' ∉ b) (hbne : b ≠ []) :
    source_part_for (relsSeg ++ '/' :: (b ++ relsSuf)) = b := by
  unfold source_part_for
  have hhead : (relsSeg ++ '/' :: (b ++ relsSuf)).head? ≠ some '/' := by
    rw [List.head?_append_of_ne_nil _ (by decide)]
    decide
  rw [stripLeadingSlash_of_head _ hhead]
  have hner : relsSeg ++ '/' :: (b ++ relsSuf) ≠ relsRoot := by
    intro h
    have hlen := congrArg List.length h
    simp only [List.length_append, List.length_cons] at hlen
    have h1 : relsSeg.length = 5 := by decide
    have h2 : relsSuf.length = 5 := by decide
    have h3 : relsRoot.length = 11 := by decide
    have h4 : 1 ≤ b.length := List.length_pos.2 hbne
    omega
  rw [if_neg hner]
  dsimp only
  rw [basename_append _ _ (no_slash_append_relsSuf b hb)]
  rw [dirname_append _ _ (no_slash_append_relsSuf b hb) (by decide) (by decide)]
  have hdd : dirname relsSeg = [] := by decide
  rw [hdd, removesuffix_append b relsSuf (by decide), join2_nil_left]

theorem source_part_for_two (d b : Name) (hb : '/' ∉ b) (hbne : b ≠ [])
    (hd : d ≠ []) (hdl : d.getLast? ≠ some '/') (hdh : d.head? ≠ some '/') :
    source_part_for ((d ++ '/' :: relsSeg) ++ '/' :: (b ++ relsSuf)) =
      d ++ '/' :: b := by
  unfold source_part_for
  have hhead : ((d ++ '/' :: relsSeg) ++ '/' :: (b ++ relsSuf)).head? ≠
      some '/' := by
    obtain ⟨c, t, hct⟩ : ∃ c t, d = c :: t := by
      cases hdc : d with
      | nil => exact absurd hdc hd
      | cons c t => exact ⟨c, t, rfl⟩
    have hc : c ≠ '/' := by
      intro hEq
      rw [hct, hEq] at hdh
      exact hdh rfl
    rw [hct]
    simpa using hc
  rw [stripLeadingSlash_of_head _ hhead]
  have hner : (d ++ '/' :: relsSeg) ++ '/' :: (b ++ relsSuf) ≠ relsRoot := by
    intro h
    have hlen := congrArg List.length h
    simp only [List.length_append, List.length_cons] at hlen
    have h1 : relsSeg.length = 5 := by decide
    have h2 : relsSuf.length = 5 := by decide
    have h3 : relsRoot.length = 11 := by decide
    have h4 : 1 ≤ b.length := List.length_pos.2 hbne
    have h5 : 1 ≤ d.length := List.length_pos.2 hd
    omega
  rw [if_neg hner]
  dsimp only
  have hdl2 : (d ++ '/' :: relsSeg).getLast? ≠ some '/' := by
    rw [getLast?_append_right _ _ (by decide)]
    decide
  rw [basename_append _ _ (no_slash_append_relsSuf b hb)]
  rw [dirname_append _ _ (no_slash_append_relsSuf b hb) (by simp) hdl2]
  rw [dirname_append d relsSeg (by decide) hd hdl]
  rw [removesuffix_append b relsSuf (by decide)]
  rw [join2_sep d b hd hdl]
  cases hbc : b with
  | nil => exact absurd hbc hbne
  | cons c t =>
    have hc : c ≠ '/' := fun h => hb (by rw [hbc, h]; simp)
    simpa using hc

theorem sidecar_roundtrip (p : Name) (hn : NormalizedName p) :
    source_part_for (rels_part_for p) = p := by
  by_cases hne : p = []
  · subst hne
    decide
  · rcases normalized_decomp p hn hne with hns | ⟨d, b, hdb, hb, hbne, hd, hdl, hdh⟩
    · rw [rels_part_for_single p hns hne, source_part_for_single p hns hne]
    · subst hdb
      rw [rels_part_for_two d b hb hbne hd hdl hdh,
        source_part_for_two d b hb hbne hd hdl hdh]

/-- C10: sidecar naming is invertible. For every normalized part path `p`
(POSIX-style, no leading slash), `source_part_for (rels_part_for p) = p`;
the root part (the empty path) maps to the sidecar `_rels/.rels` and back;
consequently `rels_part_for` is injective on normalized part paths. -/
theorem C10_sidecar_naming_invertible (p : Name) (hn : NormalizedName p) :
    source_part_for (rels_part_for p) = p ∧
    rels_part_for [] = relsRoot ∧
    source_part_for relsRoot = [] ∧
    (∀ q : Name, NormalizedName q → rels_part_for p = rels_part_for q → p = q) := by
  refine ⟨sidecar_roundtrip p hn, by decide, by decide, ?_⟩
  intro q hq hEq
  have h1 := sidecar_roundtrip p hn
  have h2 := sidecar_roundtrip q hq
  rw [← h1, ← h2, hEq]

/-- C10 witness: the invertibility theorem applied at the concrete slide
part path `ppt/slides/slide1.xml`. -/
theorem C10_sidecar_naming_invertible_witness :
    source_part_for (rels_part_for ("ppt/slides/slide1.xml".data)) =
      "ppt/slides/slide1.xml".data :=
  (C10_sidecar_naming_invertible ("ppt/slides/slide1.xml".data)
    (by decide)).1

/-! ### PartStore: embedding of `OOXMLPackage` from package.py

`_parts` is the insertion-ordered dict (an association list with unique
keys kept in dict order, replacement in place), `_order` is the explicit
order list. Part payloads are an arbitrary type so the container theorems
hold for opaque bytes. -/

/-- Python-dict insertion: replace in place if the key exists, else append
at the end. -/
def dictInsert {α : Type} (l : List (Name × α)) (k : Name) (v : α) :
    List (Name × α) :=
  match l with
  | [] => [(k, v)]
  | (k1, v1) :: t =>
    if k1 = k then (k, v) :: t else (k1, v1) :: dictInsert t k v

/-- Python-dict lookup: the first (for unique keys, the only) binding. -/
def alookup {α : Type} (l : List (Name × α)) (k : Name) : Option α :=
  match l with
  | [] => none
  | (k1, v1) :: t => if k1 = k then some v1 else alookup t k

/-- Embedding of `OOXMLPackage`: `parts` is `_parts`, `order` is `_order`. -/
structure Pkg (α : Type) where
  parts : List (Name × α)
  order : List Name
deriving DecidableEq

/-- Embedding of `zin.read(name)` on a zip archive modelled as a list of
(name, data) entries: by-name lookup resolves to the last entry bearing
the name, as `zipfile` keeps the last info per name. -/
def zipRead {α : Type} (ar : List (Name × α)) (n : Name) : Option α :=
  (ar.reverse.find? (fun q => q.1 = n)).map (fun q => q.2)

/-- Embedding of `OOXMLPackage._load`: walk the archive entries in order,
append each filename to `_order` and store the by-name read bytes. -/
def loadPkg {α : Type} (ar : List (Name × α)) : Pkg α :=
  ar.foldl
    (fun pkg e =>
      match zipRead ar e.1 with
      | some d => { order := pkg.order ++ [e.1], parts := dictInsert pkg.parts e.1 d }
      | none => pkg)
    ⟨[], []⟩

/-- Embedding of `OOXMLPackage.list_parts` (the dict key view). -/
def list_parts {α : Type} (pkg : Pkg α) : List Name :=
  pkg.parts.map (fun e => e.1)

/-- Embedding of `OOXMLPackage.has_part`. -/
def has_part {α : Type} (pkg : Pkg α) (n : Name) : Bool :=
  (alookup pkg.parts (stripLeadingSlash n)).isSome

/-- Embedding of `OOXMLPackage.read_part` (raises `KeyError` when absent). -/
def read_part {α : Type} (pkg : Pkg α) (n : Name) : Option α :=
  alookup pkg.parts (stripLeadingSlash n)

/-- Embedding of `OOXMLPackage.write_part`: a fresh key is appended to
`_order`; the dict upserts. -/
def write_part {α : Type} (pkg : Pkg α) (n : Name) (d : α) : Pkg α :=
  let k := stripLeadingSlash n
  if (alookup pkg.parts k).isSome then
    { pkg with parts := dictInsert pkg.parts k d }
  else
    { order := pkg.order ++ [k], parts := dictInsert pkg.parts k d }

/-- Embedding of `OOXMLPackage.delete_part`: drop the dict entry and every
occurrence in `_order`. -/
def delete_part {α : Type} (pkg : Pkg α) (n : Name) : Pkg α :=
  let k := stripLeadingSlash n
  { parts := pkg.parts.filter (fun e => ¬ e.1 = k),
    order := pkg.order.filter (fun o => ¬ o = k) }

/-- Embedding of `OOXMLPackage.iter_parts`: order entries still present. -/
def iter_parts {α : Type} (pkg : Pkg α) : List (Name × α) :=
  pkg.order.filterMap (fun n => (alookup pkg.parts n).map (fun d => (n, d)))

/-- Embedding of `OOXMLPackage.save_bytes`: pack `iter_parts` first, then
any dict entry whose name was not written (dead under the invariant that
every stored name occurs in `_order`, kept for fidelity). -/
def save_bytes {α : Type} (pkg : Pkg α) : List (Name × α) :=
  let first := iter_parts pkg
  let written := first.map (fun e => e.1)
  first ++ pkg.parts.filter (fun e => ¬ e.1 ∈ written)

theorem alookup_dictInsert_self {α : Type} (l : List (Name × α)) (k : Name)
    (v : α) : alookup (dictInsert l k v) k = some v := by
  induction l with
  | nil => simp [dictInsert, alookup]
  | cons e t ih =>
    obtain ⟨k1, v1⟩ := e
    by_cases hk : k1 = k
    · simp [dictInsert, hk, alookup]
    · simp [dictInsert, hk, alookup, ih]

theorem alookup_dictInsert_ne {α : Type} (l : List (Name × α)) (k k2 : Name)
    (v : α) (h : k ≠ k2) :
    alookup (dictInsert l k v) k2 = alookup l k2 := by
  induction l with
  | nil => simp [dictInsert, alookup, h]
  | cons e t ih =>
    obtain ⟨k1, v1⟩ := e
    by_cases hk : k1 = k
    · subst hk
      simp [dictInsert, alookup, h]
    · simp [dictInsert, hk, alookup, ih]

theorem dictInsert_absent {α : Type} (l : List (Name × α)) (k : Name) (v : α)
    (h : alookup l k = none) : dictInsert l k v = l ++ [(k, v)] := by
  induction l with
  | nil => rfl
  | cons e t ih =>
    obtain ⟨k1, v1⟩ := e
    by_cases hk : k1 = k
    · rw [alookup, if_pos hk] at h
      cases h
    · rw [alookup, if_neg hk] at h
      simp [dictInsert, hk, ih h]

theorem alookup_append_left {α : Type} (l1 l2 : List (Name × α)) (k : Name)
    (h : alookup l1 k = none) : alookup (l1 ++ l2) k = alookup l2 k := by
  induction l1 with
  | nil => rfl
  | cons e t ih =>
    obtain ⟨k1, v1⟩ := e
    by_cases hk : k1 = k
    · rw [alookup, if_pos hk] at h
      cases h
    · rw [alookup, if_neg hk] at h
      simp [alookup, hk, ih h]

theorem alookup_isSome_iff {α : Type} (l : List (Name × α)) (n : Name) :
    (alookup l n).isSome ↔ n ∈ l.map (fun e => e.1) := by
  induction l with
  | nil => simp [alookup]
  | cons e t ih =>
    obtain ⟨k1, v1⟩ := e
    rw [List.map_cons, alookup]
    by_cases hk : k1 = n
    · subst hk
      rw [if_pos rfl]
      exact iff_of_true rfl (List.mem_cons_self k1 _)
    · rw [if_neg hk, ih]
      constructor
      · exact fun h => List.mem_cons_of_mem k1 h
      · intro h
        rcases List.mem_cons.1 h with h1 | h1
        · exact absurd h1.symm hk
        · exact h1

theorem alookup_filter_ne {α : Type} (l : List (Name × α)) (k : Name) :
    alookup (l.filter (fun e => ¬ e.1 = k)) k = none := by
  induction l with
  | nil => rfl
  | cons e t ih =>
    obtain ⟨k1, v1⟩ := e
    rw [List.filter_cons]
    by_cases hk : k1 = k
    · rw [if_neg (by simp [hk])]
      exact ih
    · rw [if_pos (by simp [hk])]
      rw [alookup, if_neg hk]
      exact ih

theorem map_fst_filter_ne {α : Type} (l : List (Name × α)) (k : Name) :
    (l.filter (fun e => ¬ e.1 = k)).map (fun e => e.1) =
      (l.map (fun e => e.1)).filter (fun o => ¬ o = k) := by
  induction l with
  | nil => rfl
  | cons e t ih =>
    obtain ⟨k1, v1⟩ := e
    rw [List.map_cons, List.filter_cons, List.filter_cons]
    by_cases hk : k1 = k
    · rw [if_neg (by simp [hk]), if_neg (by simp [hk])]
      exact ih
    · rw [if_pos (by simp [hk]), if_pos (by simp [hk]), List.map_cons, ih]

theorem dictInsert_map_fst_present {α : Type} (l : List (Name × α)) (k : Name)
    (v : α) (h : (alookup l k).isSome) :
    (dictInsert l k v).map (fun e => e.1) = l.map (fun e => e.1) := by
  induction l with
  | nil => simp [alookup] at h
  | cons e t ih =>
    obtain ⟨k1, v1⟩ := e
    by_cases hk : k1 = k
    · subst hk
      simp [dictInsert]
    · rw [alookup, if_neg hk] at h
      simp [dictInsert, hk, ih h]

theorem filterMap_congr_mem {β γ : Type} (l : List β) (f g : β → Option γ)
    (h : ∀ a ∈ l, f a = g a) : l.filterMap f = l.filterMap g := by
  induction l with
  | nil => rfl
  | cons a t ih =>
    rw [List.filterMap_cons, List.filterMap_cons,
      h a (List.mem_cons_self a t), ih (fun b hb => h b (List.mem_cons_of_mem a hb))]

theorem filterMap_alookup_self {α : Type} (l : List (Name × α))
    (hnd : (l.map (fun e => e.1)).Nodup) :
    (l.map (fun e => e.1)).filterMap
      (fun n => (alookup l n).map (fun d => (n, d))) = l := by
  induction l with
  | nil => rfl
  | cons e t ih =>
    obtain ⟨k, v⟩ := e
    simp only [List.map_cons] at hnd ⊢
    have hk : k ∉ t.map (fun e => e.1) := (List.nodup_cons.1 hnd).1
    have hnd2 := (List.nodup_cons.1 hnd).2
    rw [List.filterMap_cons]
    have hself : alookup ((k, v) :: t) k = some v := by
      rw [alookup, if_pos rfl]
    rw [hself]
    simp only [Option.map_some']
    have hcongr : (t.map (fun e => e.1)).filterMap
        (fun n => (alookup ((k, v) :: t) n).map (fun d => (n, d))) =
        (t.map (fun e => e.1)).filterMap
        (fun n => (alookup t n).map (fun d => (n, d))) := by
      apply filterMap_congr_mem
      intro n hn
      have hne : k ≠ n := fun h => hk (h ▸ hn)
      rw [alookup, if_neg hne]
    rw [hcongr, ih hnd2]

/-- Well-formedness of a `Pkg`: `_order` lists exactly the dict keys in
dict order, with no duplicates. Holds after loading a duplicate-free
archive and is preserved by `write_part` and `delete_part`. -/
def PkgWF {α : Type} (pkg : Pkg α) : Prop :=
  pkg.order = pkg.parts.map (fun e => e.1) ∧ pkg.order.Nodup

theorem iter_parts_of_wf {α : Type} (pkg : Pkg α) (h : PkgWF pkg) :
    iter_parts pkg = pkg.parts := by
  obtain ⟨h1, h2⟩ := h
  unfold iter_parts
  rw [h1]
  exact filterMap_alookup_self pkg.parts (h1 ▸ h2)

theorem save_bytes_of_wf {α : Type} (pkg : Pkg α) (h : PkgWF pkg) :
    save_bytes pkg = pkg.parts := by
  unfold save_bytes
  rw [iter_parts_of_wf pkg h]
  dsimp only
  have hfil : pkg.parts.filter
      (fun e => ¬ e.1 ∈ pkg.parts.map (fun e => e.1)) = [] := by
    rw [List.filter_eq_nil_iff]
    intro e he
    simp only [decide_eq_true_eq]
    exact not_not_intro (List.mem_map.2 ⟨e, he, rfl⟩)
  rw [hfil, List.append_nil]

theorem zipRead_eq_alookup {α : Type} (ar : List (Name × α))
    (hnd : (ar.map (fun e => e.1)).Nodup) (n : Name) :
    zipRead ar n = alookup ar n := by
  induction ar with
  | nil => rfl
  | cons a t ih =>
    obtain ⟨k, v⟩ := a
    rw [List.map_cons] at hnd
    have hk : k ∉ t.map (fun e => e.1) := (List.nodup_cons.1 hnd).1
    have hnd2 := (List.nodup_cons.1 hnd).2
    unfold zipRead
    rw [List.reverse_cons, List.find?_append]
    by_cases hkn : k = n
    · subst hkn
      have hnone : t.reverse.find? (fun q => decide (q.1 = k)) = none := by
        rw [List.find?_eq_none]
        intro x hx
        simp only [decide_eq_true_eq]
        intro hEq
        exact hk (List.mem_map.2 ⟨x, List.mem_reverse.1 hx, hEq⟩)
      rw [hnone, Option.none_or]
      rw [List.find?_cons_of_pos _ (by simp)]
      rw [alookup, if_pos rfl]
      rfl
    · have hsingle : List.find? (fun q => decide (q.1 = n)) [(k, v)] = none := by
        rw [List.find?_eq_none]
        intro x hx
        simp only [List.mem_singleton] at hx
        subst hx
        simp only [decide_eq_true_eq]
        exact hkn
      rw [hsingle, Option.or_none]
      rw [alookup, if_neg hkn, ← ih hnd2]
      rfl

theorem loadPkg_aux {α : Type} (ar : List (Name × α)) (l : List (Name × α))
    (pkg : Pkg α)
    (hz : ∀ e ∈ l, zipRead ar e.1 = some e.2)
    (habs : ∀ e ∈ l, alookup pkg.parts e.1 = none)
    (hnd : (l.map (fun e => e.1)).Nodup) :
    l.foldl
      (fun pkg e =>
        match zipRead ar e.1 with
        | some d => { order := pkg.order ++ [e.1],
                      parts := dictInsert pkg.parts e.1 d }
        | none => pkg)
      pkg =
      ⟨pkg.parts ++ l, pkg.order ++ l.map (fun e => e.1)⟩ := by
  induction l generalizing pkg with
  | nil =>
    simp only [List.foldl_nil, List.map_nil, List.append_nil]
  | cons e t ih =>
    obtain ⟨k, v⟩ := e
    rw [List.foldl_cons]
    rw [hz (k, v) (List.mem_cons_self _ _)]
    rw [List.map_cons] at hnd
    have hk : k ∉ t.map (fun q => q.1) := (List.nodup_cons.1 hnd).1
    have hnd2 := (List.nodup_cons.1 hnd).2
    have hthis : dictInsert pkg.parts k v = pkg.parts ++ [(k, v)] :=
      dictInsert_absent pkg.parts k v (habs (k, v) (List.mem_cons_self _ _))
    rw [ih _ (fun q hq => hz q (List.mem_cons_of_mem _ hq)) ?_ hnd2]
    · dsimp only
      rw [hthis]
      simp [List.append_assoc]
    · intro q hq
      dsimp only
      rw [hthis]
      have h1 : alookup pkg.parts q.1 = none :=
        habs q (List.mem_cons_of_mem _ hq)
      rw [alookup_append_left _ _ _ h1]
      have hne : k ≠ q.1 := by
        intro hEq
        exact hk (List.mem_map.2 ⟨q, hq, hEq.symm⟩)
      rw [alookup, if_neg hne]
      rfl

theorem loadPkg_eq {α : Type} (ar : List (Name × α))
    (hnd : (ar.map (fun e => e.1)).Nodup) :
    loadPkg ar = ⟨ar, ar.map (fun e => e.1)⟩ := by
  unfold loadPkg
  rw [loadPkg_aux ar ar ⟨[], []⟩ ?_ ?_ hnd]
  · simp
  · intro e he
    rw [zipRead_eq_alookup ar hnd]
    induction ar with
    | nil => cases he
    | cons a t ihh =>
      obtain ⟨k, v⟩ := a
      rcases List.mem_cons.1 he with h1 | h1
      · subst h1
        rw [alookup, if_pos rfl]
      · rw [List.map_cons] at hnd
        have hk : k ∉ t.map (fun q => q.1) := (List.nodup_cons.1 hnd).1
        have hne : k ≠ e.1 := by
          intro hEq
          exact hk (List.mem_map.2 ⟨e, h1, hEq.symm⟩)
        rw [alookup, if_neg hne]
        exact ihh (List.nodup_cons.1 hnd).2 h1
  · intro e _
    rfl

theorem loadPkg_wf {α : Type} (ar : List (Name × α))
    (hnd : (ar.map (fun e => e.1)).Nodup) : PkgWF (loadPkg ar) := by
  rw [loadPkg_eq ar hnd]
  exact ⟨rfl, hnd⟩

/-- C5: load/save round-trip. For every archive whose entry names are
duplicate-free, loading it into the part store and saving immediately,
with no intervening writes or deletes, reproduces the archive exactly:
in particular the set of part names and the per-part bytes are unchanged. -/
theorem C5_load_save_roundtrip {α : Type} (ar : List (Name × α))
    (hnd : (ar.map (fun e => e.1)).Nodup) :
    save_bytes (loadPkg ar) = ar := by
  rw [save_bytes_of_wf _ (loadPkg_wf ar hnd), loadPkg_eq ar hnd]

/-- C5 witness: the round-trip theorem applied to a concrete two-part
archive. -/
theorem C5_load_save_roundtrip_witness :
    save_bytes (loadPkg [("[Content_Types].xml".data, 0),
      ("ppt/presentation.xml".data, 1)]) =
      [("[Content_Types].xml".data, 0), ("ppt/presentation.xml".data, 1)] :=
  C5_load_save_roundtrip _ (by decide)

/-- A part-store mutation: `write_part` or `delete_part`. -/
inductive POp (α : Type) where
  | writeOp (n : Name) (d : α)
  | delOp (n : Name)

/-- Apply one mutation to a store. -/
def applyOp {α : Type} (pkg : Pkg α) : POp α → Pkg α
  | POp.writeOp n d => write_part pkg n d
  | POp.delOp n => delete_part pkg n

/-- Apply a sequence of mutations left to right. -/
def applyOps {α : Type} (pkg : Pkg α) (ops : List (POp α)) : Pkg α :=
  ops.foldl applyOp pkg

theorem write_part_wf {α : Type} (pkg : Pkg α) (h : PkgWF pkg) (n : Name)
    (d : α) : PkgWF (write_part pkg n d) := by
  obtain ⟨h1, h2⟩ := h
  unfold write_part
  by_cases hp : (alookup pkg.parts (stripLeadingSlash n)).isSome
  · rw [if_pos hp]
    exact ⟨h1.trans (dictInsert_map_fst_present _ _ d hp).symm, h2⟩
  · rw [if_neg hp]
    have hnone : alookup pkg.parts (stripLeadingSlash n) = none :=
      Option.not_isSome_iff_eq_none.1 hp
    have habs : dictInsert pkg.parts (stripLeadingSlash n) d =
        pkg.parts ++ [(stripLeadingSlash n, d)] :=
      dictInsert_absent _ _ _ hnone
    constructor
    · dsimp only
      rw [habs, List.map_append, h1]
      rfl
    · dsimp only
      rw [List.nodup_append]
      refine ⟨h2, List.nodup_singleton _, ?_⟩
      intro a ha hb
      rw [List.mem_singleton] at hb
      subst hb
      rw [h1] at ha
      exact hp ((alookup_isSome_iff _ _).2 ha)

theorem delete_part_wf {α : Type} (pkg : Pkg α) (h : PkgWF pkg) (n : Name) :
    PkgWF (delete_part pkg n) := by
  obtain ⟨h1, h2⟩ := h
  unfold delete_part
  constructor
  · dsimp only
    rw [map_fst_filter_ne, h1]
  · exact List.Nodup.filter _ h2

theorem applyOps_wf {α : Type} (pkg : Pkg α) (h : PkgWF pkg)
    (ops : List (POp α)) : PkgWF (applyOps pkg ops) := by
  induction ops generalizing pkg with
  | nil => exact h
  | cons op t ih =>
    unfold applyOps
    rw [List.foldl_cons]
    apply ih
    cases op with
    | writeOp n d => exact write_part_wf pkg h n d
    | delOp n => exact delete_part_wf pkg h n

/-- C6: after any sequence of writes and deletes on a store loaded from a
duplicate-free archive, `save_bytes` packs exactly the currently-present
parts, each exactly once, in recorded insertion order (a name is
registered once, on first introduction); and deleting then recreating a
present part moves its name to the end of the order, so it is saved at
the end of the archive, not at its original position. -/
theorem C6_save_packs_current_parts {α : Type} (ar : List (Name × α))
    (ops : List (POp α)) (hnd : (ar.map (fun e => e.1)).Nodup) :
    save_bytes (applyOps (loadPkg ar) ops) =
        (applyOps (loadPkg ar) ops).parts ∧
    (save_bytes (applyOps (loadPkg ar) ops)).map (fun e => e.1) =
        (applyOps (loadPkg ar) ops).order ∧
    (applyOps (loadPkg ar) ops).order.Nodup ∧
    (∀ n, n ∈ (applyOps (loadPkg ar) ops).order ↔
        (alookup (applyOps (loadPkg ar) ops).parts n).isSome) ∧
    (∀ p d, (alookup (applyOps (loadPkg ar) ops).parts
          (stripLeadingSlash p)).isSome →
      (write_part (delete_part (applyOps (loadPkg ar) ops) p) p d).order =
        (applyOps (loadPkg ar) ops).order.filter
            (fun o => ¬ o = stripLeadingSlash p) ++
          [stripLeadingSlash p]) := by
  have hwf : PkgWF (applyOps (loadPkg ar) ops) :=
    applyOps_wf _ (loadPkg_wf ar hnd) ops
  obtain ⟨h1, h2⟩ := hwf
  refine ⟨save_bytes_of_wf _ ⟨h1, h2⟩, ?_, h2, ?_, ?_⟩
  · rw [save_bytes_of_wf _ ⟨h1, h2⟩, h1]
  · intro n
    rw [h1, alookup_isSome_iff]
  · intro p d _
    unfold write_part
    have hnone : alookup (delete_part (applyOps (loadPkg ar) ops) p).parts
        (stripLeadingSlash p) = none := by
      unfold delete_part
      exact alookup_filter_ne _ _
    rw [if_neg (by rw [hnone]; exact Bool.false_ne_true)]
    rfl

/-- C6 witness: the exactness theorem applied to a concrete archive with a
delete-then-recreate sequence. -/
theorem C6_save_packs_current_parts_witness :
    save_bytes (applyOps (loadPkg [("a.xml".data, 0), ("b.xml".data, 1)])
        [POp.delOp ("a.xml".data), POp.writeOp ("a.xml".data) 2]) =
      (applyOps (loadPkg [("a.xml".data, 0), ("b.xml".data, 1)])
        [POp.delOp ("a.xml".data), POp.writeOp ("a.xml".data) 2]).parts :=
  (C6_save_packs_current_parts [("a.xml".data, 0), ("b.xml".data, 1)]
    [POp.delOp ("a.xml".data), POp.writeOp ("a.xml".data) 2] (by decide)).1

/-! ### Numeric helpers: decimal rendering and parsing of `str(n)`/`int(s)` -/

/-- The decimal digit character for a value below ten. -/
def digitChar : Nat → Char
  | 0 => '0'
  | 1 => '1'
  | 2 => '2'
  | 3 => '3'
  | 4 => '4'
  | 5 => '5'
  | 6 => '6'
  | 7 => '7'
  | 8 => '8'
  | _ => '9'

/-- Fuel-bounded decimal rendering; the fuel `n + 1` always suffices. -/
def natDigitsAux : Nat → Nat → List Char
  | 0, _ => []
  | fuel + 1, n =>
    if n < 10 then [digitChar n]
    else natDigitsAux fuel (n / 10) ++ [digitChar (n % 10)]

/-- Embedding of Python `str(n)` for a natural number. -/
def natDigits (n : Nat) : Name := natDigitsAux (n + 1) n

/-- Embedding of Python `int(s)` on a digit string. -/
def parseNat (l : Name) : Nat :=
  l.foldl (fun a c => a * 10 + (c.toNat - 48)) 0

/-- Decimal digit test for one character. -/
def isDigitChar (c : Char) : Bool := '0' ≤ c ∧ c ≤ '9'

/-- Embedding of Python `str.isdigit` (ASCII digits). -/
def isdigitName (l : Name) : Bool := decide (l ≠ []) && l.all isDigitChar

theorem digitChar_toNat (n : Nat) (h : n < 10) :
    (digitChar n).toNat = 48 + n := by
  interval_cases n <;> decide

theorem parseNat_from (a : Nat) (l : List Char) (c : Char) :
    (l ++ [c]).foldl (fun a c => a * 10 + (c.toNat - 48)) a =
      (l.foldl (fun a c => a * 10 + (c.toNat - 48)) a) * 10 + (c.toNat - 48) := by
  rw [List.foldl_append]
  rfl

theorem parseNat_natDigitsAux (fuel n : Nat) (h : n < fuel) :
    ∀ a, (natDigitsAux fuel n).foldl (fun a c => a * 10 + (c.toNat - 48)) a =
      a * 10 ^ (natDigitsAux fuel n).length + n := by
  induction fuel generalizing n with
  | zero => omega
  | succ f ih =>
    intro a
    by_cases h10 : n < 10
    · rw [natDigitsAux, if_pos h10]
      simp only [List.foldl_cons, List.foldl_nil, List.length_cons,
        List.length_nil, pow_one]
      rw [digitChar_toNat n h10]
      omega
    · rw [natDigitsAux, if_neg h10]
      have hd : n / 10 < f := by omega
      rw [parseNat_from, ih (n / 10) hd a]
      rw [digitChar_toNat (n % 10) (Nat.mod_lt n (by omega))]
      rw [List.length_append, List.length_singleton]
      rw [pow_add, pow_one]
      have : n % 10 + 48 - 48 = n % 10 := by omega
      ring_nf
      omega

theorem parseNat_natDigits (n : Nat) : parseNat (natDigits n) = n := by
  unfold parseNat natDigits
  rw [parseNat_natDigitsAux (n + 1) n (Nat.lt_succ_self n) 0]
  simp

theorem natDigits_injective (m n : Nat) (h : natDigits m = natDigits n) :
    m = n := by
  have := parseNat_natDigits m
  rw [h, parseNat_natDigits n] at this
  exact this.symm

/-- The `rId` prefix literal. -/
def ridPre : Name := "rId".data

/-- The relationship id `rId<i>`. -/
def ridName (i : Nat) : Name := ridPre ++ natDigits i

theorem ridName_injective (m n : Nat) (h : ridName m = ridName n) : m = n :=
  natDigits_injective m n (List.append_cancel_left h)

/-- Fuel-bounded embedding of the `while f"rId{index}" in existing` loop of
`_next_rid`; the fuel `len + 1` always suffices (see `nextRidAux_spec`). -/
def nextRidAux : Nat → Nat → List Name → Nat
  | 0, i, _ => i
  | fuel + 1, i, ids => if ridName i ∈ ids then nextRidAux fuel (i + 1) ids else i

/-- Embedding of `_next_rid` from rels.py (identical helper in
layout_ops.py): the smallest unused id of the form `rId<N>`, `N ≥ 1`. -/
def next_rid (rels : List Name) : Name :=
  ridName (nextRidAux (rels.length + 1) 1 rels)

theorem nextRidAux_spec (fuel i : Nat) (ids : List Name)
    (hex : ∃ j, i ≤ j ∧ j < i + fuel ∧ ridName j ∉ ids) :
    ridName (nextRidAux fuel i ids) ∉ ids ∧ i ≤ nextRidAux fuel i ids ∧
      ∀ m, i ≤ m → m < nextRidAux fuel i ids → ridName m ∈ ids := by
  induction fuel generalizing i with
  | zero =>
    obtain ⟨j, h1, h2, _⟩ := hex
    omega
  | succ f ih =>
    rw [nextRidAux]
    by_cases hi : ridName i ∈ ids
    · rw [if_pos hi]
      obtain ⟨j, h1, h2, h3⟩ := hex
      have hji : j ≠ i := fun hEq => h3 (hEq ▸ hi)
      obtain ⟨hn, hge, hmin⟩ := ih (i + 1) ⟨j, by omega, by omega, h3⟩
      refine ⟨hn, by omega, ?_⟩
      intro m hm1 hm2
      by_cases hmi : m = i
      · exact hmi ▸ hi
      · exact hmin m (by omega) hm2
    · rw [if_neg hi]
      exact ⟨hi, Nat.le_refl i,
        fun m hm1 hm2 => absurd (Nat.lt_of_le_of_lt hm1 hm2) (Nat.lt_irrefl i)⟩

theorem exists_free_rid (ids : List Name) :
    ∃ j, 1 ≤ j ∧ j < 1 + (ids.length + 1) ∧ ridName j ∉ ids := by
  by_contra hall
  push_neg at hall
  have hsub : (List.range' 1 (ids.length + 1)).map ridName ⊆ ids := by
    intro x hx
    obtain ⟨j, hj, hjx⟩ := List.mem_map.1 hx
    rw [List.mem_range'] at hj
    exact hjx ▸ hall j (by omega) (by omega)
  have hnd : ((List.range' 1 (ids.length + 1)).map ridName).Nodup := by
    refine List.Nodup.map ?_ (List.nodup_range' 1 (ids.length + 1))
    intro a b hab
    exact ridName_injective a b hab
  have hlen := (hnd.subperm hsub).length_le
  simp at hlen

/-- The smallest-free-id property of `_next_rid` over a list of existing
ids: the returned index is at least 1, unused, and every smaller positive
index is used. -/
theorem next_rid_spec (ids : List Name) :
    ridName (nextRidAux (ids.length + 1) 1 ids) ∉ ids ∧
      1 ≤ nextRidAux (ids.length + 1) 1 ids ∧
      ∀ m, 1 ≤ m → m < nextRidAux (ids.length + 1) 1 ids →
        ridName m ∈ ids :=
  nextRidAux_spec (ids.length + 1) 1 ids (exists_free_rid ids)

/-! ### Part payloads: the structured contents of the XML parts -/

/-- Embedding of the `Relationship` dataclass from rels.py. -/
structure Relationship where
  id : Name
  type : Name
  target : Name
  target_mode : Option Name
deriving DecidableEq

/-- One `Default` or `Override` child of `[Content_Types].xml`, in document
order. -/
inductive CTEntry where
  | dflt (ext mime : Name)
  | ovr (part mime : Name)
deriving DecidableEq

/-- One `p:sldLayoutId` element: its `id` attribute and `r:id` attribute,
either possibly absent. -/
structure SldLayoutId where
  idAttr : Option Name
  rid : Option Name
deriving DecidableEq

/-- A slide-master document: the optional `p:sldLayoutIdLst` child and an
opaque tag for the rest of the tree. -/
structure MasterDoc where
  layoutIds : Option (List SldLayoutId)
  payload : Nat
deriving DecidableEq

/-- A slide document: the optional `p:cSld` body (opaque) and the set of
relationship ids referenced by `r:embed`/`r:link`/`r:id` attributes
anywhere in the document (what `_slide_embed_ids` collects). -/
structure SlideDoc where
  cSld : Option Nat
  embedIds : List Name
deriving DecidableEq

/-- A slide-layout document: its `name` attribute, optional `p:cSld` body
(opaque) and an opaque tag for the rest. -/
structure LayoutDoc where
  nameAttr : Option Name
  cSld : Option Nat
  payload : Nat
deriving DecidableEq

/-- The structured payload of a part: relationship sidecars, the
presentation part (its `p:sldId` list as `r:id` attributes), masters,
slides, layouts, the content-type registry, or opaque bytes. -/
inductive PartData where
  | relsD (rels : List Relationship)
  | presD (sldIds : List (Option Name))
  | masterD (doc : MasterDoc)
  | slideD (doc : SlideDoc)
  | layoutD (doc : LayoutDoc)
  | ctD (entries : List CTEntry)
  | blobD (tag : Nat)
deriving DecidableEq

/-- A package of structured parts. -/
abbrev PPkg := Pkg PartData

/-- The error kinds raised by the embedded code: `KeyError` on a missing
part, the out-of-range / not-found / inconsistent `ValueError`s, the
missing-slide-relationships `ValueError`, XML parse failures, and
missing-cSld failures. -/
inductive PErr where
  | keyErr
  | outOfRange
  | notFound
  | missingRels
  | inconsistent
  | parseErr
  | badXml
deriving DecidableEq

/-- `pkg.read_part` as the raising read. -/
def read_partE (pkg : PPkg) (n : Name) : Except PErr PartData :=
  match read_part pkg n with
  | some d => Except.ok d
  | none => Except.error PErr.keyErr

/-- Embedding of `parse_relationships` from rels.py: a sidecar payload
yields its relationship list, anything else is a parse failure. -/
def parse_relationships (d : PartData) : Except PErr (List Relationship) :=
  match d with
  | PartData.relsD l => Except.ok l
  | _ => Except.error PErr.parseErr

/-- `serialize_relationships` writes `TargetMode` only when truthy, so an
empty-string mode is dropped on the wire. -/
def normTargetMode (r : Relationship) : Relationship :=
  { r with target_mode := match r.target_mode with
      | some [] => none
      | m => m }

/-- Embedding of `serialize_relationships` from rels.py. -/
def serialize_relationships (l : List Relationship) : PartData :=
  PartData.relsD (l.map normTargetMode)

/-- Embedding of `get_relationships` from rels.py. -/
def get_relationships (pkg : PPkg) (source_part : Name) :
    Except PErr (List Relationship) :=
  if has_part pkg (rels_part_for source_part) then
    (read_partE pkg (rels_part_for source_part)).bind parse_relationships
  else
    Except.ok []

/-- Embedding of `write_relationships` from rels.py. -/
def write_relationships (pkg : PPkg) (source_part : Name)
    (relationships : List Relationship) : PPkg :=
  write_part pkg (rels_part_for source_part)
    (serialize_relationships relationships)

/-- Embedding of `ensure_relationship` from rels.py. -/
def ensure_relationship (pkg : PPkg) (source_part rel_type target : Name) :
    Except PErr (Relationship × PPkg) := do
  let relationships ← get_relationships pkg source_part
  match relationships.find?
      (fun rel => rel.type = rel_type ∧ rel.target = target) with
  | some rel => Except.ok (rel, pkg)
  | none =>
    let new_rel : Relationship :=
      ⟨next_rid (relationships.map (fun r => r.id)), rel_type, target, none⟩
    Except.ok (new_rel,
      write_relationships pkg source_part (relationships ++ [new_rel]))

/-! ### Content types: embedding of content_types.py -/

/-- The registry part name literal. -/
def ctName : Name := "[Content_Types].xml".data

/-- Embedding of `_normalize_part_name`: ensure one leading slash. -/
def normalize_part_name (p : Name) : Name :=
  if p.head? = some '/' then p else '/' :: p

/-- Whether an Override child for the given absolute part path exists. -/
def ct_has_override (entries : List CTEntry) (part : Name) : Bool :=
  entries.any (fun e =>
    match e with
    | CTEntry.ovr q _ => q = part
    | CTEntry.dflt _ _ => false)

/-- Whether a Default child for the given literal extension exists. -/
def ct_has_default (entries : List CTEntry) (ext : Name) : Bool :=
  entries.any (fun e =>
    match e with
    | CTEntry.dflt q _ => q = ext
    | CTEntry.ovr _ _ => false)

/-- Read and parse the `[Content_Types].xml` part. -/
def read_ct (pkg : PPkg) : Except PErr (List CTEntry) :=
  (read_partE pkg ctName).bind fun d =>
    match d with
    | PartData.ctD e => Except.ok e
    | _ => Except.error PErr.parseErr

/-- Embedding of the module-level `ensure_override` from content_types.py:
`KeyError` when the registry part is missing; no-op returning `false` when
an Override with that (normalized) path exists; otherwise append one
Override child and persist. -/
def ensure_override (pkg : PPkg) (part_name content_type : Name) :
    Except PErr (Bool × PPkg) :=
  if has_part pkg ctName then do
    let entries ← read_ct pkg
    let part := normalize_part_name part_name
    if ct_has_override entries part then
      Except.ok (false, pkg)
    else
      Except.ok (true, write_part pkg ctName
        (PartData.ctD (entries ++ [CTEntry.ovr part content_type])))
  else
    Except.error PErr.keyErr

/-- Embedding of the module-level `remove_override` from content_types.py:
`false` without error when the registry part is missing; otherwise drop
every matching Override child and persist when something was dropped. -/
def remove_override (pkg : PPkg) (part_name : Name) :
    Except PErr (Bool × PPkg) :=
  if has_part pkg ctName then do
    let entries ← read_ct pkg
    let part := normalize_part_name part_name
    let kept := entries.filter (fun e =>
      match e with
      | CTEntry.ovr q _ => ¬ q = part
      | CTEntry.dflt _ _ => true)
    if ct_has_override entries part then
      Except.ok (true, write_part pkg ctName (PartData.ctD kept))
    else
      Except.ok (false, pkg)
  else
    Except.ok (false, pkg)

/-- Lower-casing of a name, the embedding of `str.lower` on ASCII. -/
def lowerName (s : Name) : Name := s.map Char.toLower

/-- Embedding of `_ensure_default_element` combined with `ensure_default`
from content_types.py: the query extension is lower-cased and stripped of
leading dots, then compared literally with each stored `Extension`
attribute; a miss appends one Default child and persists. -/
def ensure_default (pkg : PPkg) (extension content_type : Name) :
    Except PErr (Bool × PPkg) :=
  if has_part pkg ctName then do
    let entries ← read_ct pkg
    let ext := (lowerName extension).dropWhile (fun c => c = '.')
    if ct_has_default entries ext then
      Except.ok (false, pkg)
    else
      Except.ok (true, write_part pkg ctName
        (PartData.ctD (entries ++ [CTEntry.dflt ext content_type])))
  else
    Except.error PErr.keyErr

/-- Embedding of `has_override` from content_types.py. -/
def has_override (pkg : PPkg) (part_name : Name) : Except PErr Bool :=
  if has_part pkg ctName then do
    let entries ← read_ct pkg
    Except.ok (ct_has_override entries (normalize_part_name part_name))
  else
    Except.ok false

theorem except_bind_ok {ε α β : Type} (x : α) (f : α → Except ε β) :
    (Except.ok x : Except ε α) >>= f = f x := rfl

instance {ε α : Type} [DecidableEq ε] [DecidableEq α] :
    DecidableEq (Except ε α) := fun x y =>
  match x, y with
  | Except.ok a, Except.ok b =>
    if h : a = b then isTrue (by rw [h])
    else isFalse (fun hEq => h (Except.ok.inj hEq))
  | Except.error a, Except.error b =>
    if h : a = b then isTrue (by rw [h])
    else isFalse (fun hEq => h (Except.error.inj hEq))
  | Except.ok _, Except.error _ => isFalse (fun hEq => Except.noConfusion hEq)
  | Except.error _, Except.ok _ => isFalse (fun hEq => Except.noConfusion hEq)

theorem read_ct_of_read {pkg : PPkg} {entries : List CTEntry}
    (hread : read_part pkg ctName = some (PartData.ctD entries)) :
    read_ct pkg = Except.ok entries := by
  unfold read_ct read_partE
  rw [hread]
  rfl

theorem has_part_of_read {pkg : PPkg} {n : Name} {d : PartData}
    (hread : read_part pkg n = some d) : has_part pkg n = true := by
  unfold has_part
  unfold read_part at hread
  rw [hread]
  rfl

/-- The concrete registry for the C3 counterexample: one Default entry
whose stored extension is upper-case `PNG`. -/
def pkgC3 : PPkg :=
  { parts := [(ctName,
      PartData.ctD [CTEntry.dflt ("PNG".data) ("image/png".data)])],
    order := [ctName] }

/-- C3 counterexample: the claim says `ensureDefault` matches existing
Default entries case-insensitively, so on a registry holding a Default for
`PNG` a call with `png` should return `false` and add nothing; the code
lower-cases only the query and compares it literally with the stored
extension, so the call returns `true` and appends a second Default entry
for the same extension. -/
theorem C3_ensure_default_counterexample :
    ensure_default pkgC3 ("png".data) ("image/png".data) =
      Except.ok (true,
        { parts := [(ctName, PartData.ctD
            [CTEntry.dflt ("PNG".data) ("image/png".data),
             CTEntry.dflt ("png".data) ("image/png".data)])],
          order := [ctName] }) := by
  decide

/-- C3 (amended): `ensureDefault` is case-insensitive and dot-stripping in
its query only: the query extension is lower-cased and its leading dots
removed, then compared literally with the stored `Extension` attributes.
Whenever some stored Default entry's extension equals that normalized
query (in particular, for a lower-case stored entry and any case variant
of the query, with or without leading dots), the call returns `false`,
changes nothing, and adds no second Default entry. -/
theorem C3_ensure_default_query_normalized (pkg : PPkg)
    (entries : List CTEntry) (q mime e m : Name)
    (hread : read_part pkg ctName = some (PartData.ctD entries))
    (he : (lowerName q).dropWhile (fun c => c = '.') = e)
    (hmem : CTEntry.dflt e m ∈ entries) :
    ensure_default pkg q mime = Except.ok (false, pkg) := by
  unfold ensure_default
  rw [if_pos (has_part_of_read hread)]
  rw [read_ct_of_read hread, except_bind_ok]
  dsimp only
  rw [he]
  have htrue : ct_has_default entries e = true := by
    unfold ct_has_default
    rw [List.any_eq_true]
    exact ⟨CTEntry.dflt e m, hmem, by simp⟩
  rw [if_pos htrue]

/-- C3 witness: the amended theorem applied to a registry with a
lower-case `png` Default and the query `.PNG`. -/
theorem C3_ensure_default_query_normalized_witness :
    ensure_default
      { parts := [(ctName,
          PartData.ctD [CTEntry.dflt ("png".data) ("image/png".data)])],
        order := [ctName] }
      (".PNG".data) ("image/png".data) =
      Except.ok (false,
        { parts := [(ctName,
            PartData.ctD [CTEntry.dflt ("png".data) ("image/png".data)])],
          order := [ctName] }) :=
  C3_ensure_default_query_normalized
    { parts := [(ctName,
        PartData.ctD [CTEntry.dflt ("png".data) ("image/png".data)])],
      order := [ctName] }
    [CTEntry.dflt ("png".data) ("image/png".data)]
    (".PNG".data) ("image/png".data) ("png".data) ("image/png".data)
    (by decide) (by decide) (by decide)

theorem read_write_self {α : Type} (pkg : Pkg α) (n : Name) (d : α) :
    read_part (write_part pkg n d) n = some d := by
  unfold read_part write_part
  dsimp only
  by_cases h : (alookup pkg.parts (stripLeadingSlash n)).isSome
  · rw [if_pos h]
    exact alookup_dictInsert_self _ _ _
  · rw [if_neg h]
    exact alookup_dictInsert_self _ _ _

theorem find?_congr_mem {β : Type} (l : List β) (p q : β → Bool)
    (h : ∀ a ∈ l, p a = q a) : l.find? p = l.find? q := by
  induction l with
  | nil => rfl
  | cons a t ih =>
    rw [List.find?_cons, List.find?_cons, h a (List.mem_cons_self a t),
      ih (fun b hb => h b (List.mem_cons_of_mem a hb))]

theorem normTargetMode_type (r : Relationship) :
    (normTargetMode r).type = r.type := rfl

theorem normTargetMode_target (r : Relationship) :
    (normTargetMode r).target = r.target := rfl


theorem ensure_relationship_found (pkg : PPkg)
    (source rel_type target : Name) (rels : List Relationship)
    (r : Relationship)
    (hget : get_relationships pkg source = Except.ok rels)
    (hfind : rels.find?
      (fun rel => rel.type = rel_type ∧ rel.target = target) = some r) :
    ensure_relationship pkg source rel_type target = Except.ok (r, pkg) := by
  unfold ensure_relationship
  rw [hget, except_bind_ok]
  dsimp only
  rw [hfind]

theorem ensure_relationship_fresh (pkg : PPkg)
    (source rel_type target : Name) (rels : List Relationship)
    (hget : get_relationships pkg source = Except.ok rels)
    (hnone : rels.find?
      (fun rel => rel.type = rel_type ∧ rel.target = target) = none) :
    ensure_relationship pkg source rel_type target =
      Except.ok
        (Relationship.mk (next_rid (rels.map (fun r => r.id)))
          rel_type target none,
        write_relationships pkg source
          (rels ++ [Relationship.mk (next_rid (rels.map (fun r => r.id)))
            rel_type target none])) := by
  unfold ensure_relationship
  rw [hget, except_bind_ok]
  dsimp only
  rw [hnone]

theorem ensure_relationship_after (pkg2 : PPkg)
    (source rel_type target : Name) (rels : List Relationship)
    (nr : Relationship)
    (hid : nr.type = rel_type)
    (htg : nr.target = target)
    (hmode : nr.target_mode = none)
    (hread2 : read_part pkg2 (rels_part_for source) =
      some (serialize_relationships (rels ++ [nr])))
    (hnone : rels.find?
      (fun rel => rel.type = rel_type ∧ rel.target = target) = none) :
    ensure_relationship pkg2 source rel_type target =
      Except.ok (nr, pkg2) := by
  have hget2 : get_relationships pkg2 source =
      Except.ok ((rels ++ [nr]).map normTargetMode) := by
    unfold get_relationships
    rw [if_pos (has_part_of_read hread2)]
    unfold read_partE
    rw [hread2]
    rfl
  unfold ensure_relationship
  rw [hget2, except_bind_ok]
  dsimp only
  have hnorm : normTargetMode nr = nr := by
    obtain ⟨i, tp, tg, m⟩ := nr
    have hm : m = none := hmode
    subst hm
    rfl
  have hfind2 : ((rels ++ [nr]).map normTargetMode).find?
      (fun rel => rel.type = rel_type ∧ rel.target = target) =
      some nr := by
    rw [List.find?_map]
    have hcongr : (rels ++ [nr]).find?
        ((fun rel => decide (rel.type = rel_type ∧ rel.target = target)) ∘
          normTargetMode) =
        (rels ++ [nr]).find?
        (fun rel => rel.type = rel_type ∧ rel.target = target) := by
      apply find?_congr_mem
      intro a _
      rfl
    rw [hcongr, List.find?_append, hnone, Option.none_or]
    rw [List.find?_cons_of_pos _ (by simp [hid, htg])]
    rw [Option.map_some', hnorm]
  rw [hfind2]

/-- C4: `ensure` on the relationship graph is idempotent and allocates
minimally. If the source part's sidecar already holds a relationship with
the given (type, target), `ensure_relationship` returns the first such
relationship and leaves the package unchanged, so a repeated call returns
the same relationship with the relationship count unchanged. Otherwise it
appends one new relationship whose id is `rId<N>` for the smallest `N ≥ 1`
not already used in that sidecar, persists the sidecar immediately, and a
second call with the same arguments returns that relationship and changes
nothing. -/
theorem C4_ensure_relationship_idempotent_minimal (pkg : PPkg)
    (source rel_type target : Name) (rels : List Relationship)
    (hget : get_relationships pkg source = Except.ok rels) :
    (∀ r, rels.find?
        (fun rel => rel.type = rel_type ∧ rel.target = target) = some r →
      ensure_relationship pkg source rel_type target =
        Except.ok (r, pkg)) ∧
    (rels.find?
        (fun rel => rel.type = rel_type ∧ rel.target = target) = none →
      ∃ N pkg2,
        ensure_relationship pkg source rel_type target =
          Except.ok (Relationship.mk (ridName N) rel_type target none,
            pkg2) ∧
        ridName N ∉ rels.map (fun r => r.id) ∧
        1 ≤ N ∧
        (∀ m, 1 ≤ m → m < N → ridName m ∈ rels.map (fun r => r.id)) ∧
        read_part pkg2 (rels_part_for source) =
          some (serialize_relationships
            (rels ++ [Relationship.mk (ridName N) rel_type target none])) ∧
        ensure_relationship pkg2 source rel_type target =
          Except.ok (Relationship.mk (ridName N) rel_type target none,
            pkg2)) := by
  constructor
  · intro r hfind
    exact ensure_relationship_found pkg source rel_type target rels r hget
      hfind
  · intro hnone
    have hN : next_rid (rels.map (fun r => r.id)) =
        ridName (nextRidAux ((rels.map (fun r => r.id)).length + 1) 1
          (rels.map (fun r => r.id))) := rfl
    refine ⟨nextRidAux ((rels.map (fun r => r.id)).length + 1) 1
        (rels.map (fun r => r.id)),
      write_relationships pkg source
        (rels ++ [Relationship.mk (next_rid (rels.map (fun r => r.id)))
          rel_type target none]),
      ?_, ?_, ?_, ?_, ?_, ?_⟩
    · rw [← hN]
      exact ensure_relationship_fresh pkg source rel_type target rels hget
        hnone
    · exact (next_rid_spec (rels.map (fun r => r.id))).1
    · exact (next_rid_spec (rels.map (fun r => r.id))).2.1
    · exact (next_rid_spec (rels.map (fun r => r.id))).2.2
    · rw [← hN]
      unfold write_relationships
      exact read_write_self _ _ _
    · rw [← hN]
      apply ensure_relationship_after _ source rel_type target rels _
        rfl rfl rfl _ hnone
      unfold write_relationships
      exact read_write_self _ _ _

/-- The concrete package for the C4 witness: one slide sidecar holding a
single relationship. -/
def pkgC4 : PPkg :=
  { parts := [(("ppt/slides/_rels/slide1.xml.rels".data),
      PartData.relsD [Relationship.mk ("rId1".data) ("t0".data)
        ("x.xml".data) none])],
    order := [("ppt/slides/_rels/slide1.xml.rels".data)] }

/-- C4 witness: the idempotent branch of the theorem applied to `pkgC4`,
whose sidecar already holds the requested (type, target). -/
theorem C4_ensure_relationship_witness :
    ensure_relationship pkgC4 ("ppt/slides/slide1.xml".data)
      ("t0".data) ("x.xml".data) =
      Except.ok (Relationship.mk ("rId1".data) ("t0".data)
        ("x.xml".data) none, pkgC4) :=
  (C4_ensure_relationship_idempotent_minimal pkgC4
    ("ppt/slides/slide1.xml".data) ("t0".data) ("x.xml".data)
    [Relationship.mk ("rId1".data) ("t0".data) ("x.xml".data) none]
    (by decide)).1
    (Relationship.mk ("rId1".data) ("t0".data) ("x.xml".data) none)
    (by decide)

/-! ### posixpath.normpath / posixpath.relpath and name sorting -/

/-- Join a component list with slashes. -/
def intercalateSlash : List Name → Name
  | [] => []
  | [s] => s
  | s :: rest => s ++ '/' :: intercalateSlash rest

/-- One step of the `normpath` component scan, on a reversed accumulator.
`dotdot` handling follows posixpath: `..` pops a previous component, is
kept when the path is relative and nothing was accumulated or the previous
component is itself `..`, and is dropped at an absolute root. -/
def normStep (isl : Bool) (acc : List Name) (comp : Name) : List Name :=
  if comp = [] ∨ comp = (".".data) then acc
  else if comp ≠ ("..".data) then comp :: acc
  else
    match acc with
    | [] => if isl then acc else comp :: acc
    | top :: rest => if top = ("..".data) then comp :: acc else rest

/-- Embedding of `posixpath.normpath`. Leading-slash multiplicity follows
posixpath: two slashes are preserved, one and three or more collapse. -/
def normpath (p : Name) : Name :=
  if p = [] then ".".data
  else
    let isl : Nat :=
      if ("/".data).isPrefixOf p then
        if ("//".data).isPrefixOf p ∧ ¬ ("///".data).isPrefixOf p then 2
        else 1
      else 0
    let comps := splitSlash p
    let ncs := (comps.foldl (normStep (isl ≠ 0)) []).reverse
    let path := List.replicate isl '/' ++ intercalateSlash ncs
    if path = [] then ".".data else path

/-- Common-prefix length of two component lists, as `posixpath.relpath`
computes it. -/
def commonLen : List Name → List Name → Nat
  | a :: as, b :: bs => if a = b then commonLen as bs + 1 else 0
  | _, _ => 0

/-- Embedding of `posixpath.relpath(path, start)` for relative POSIX
arguments: the caller's working directory contributes the same prefix to
both sides and cancels, leaving the filtered component lists. -/
def relpath (path start : Name) : Name :=
  let pl := (splitSlash path).filter (fun s => s ≠ [])
  let sl := (splitSlash start).filter (fun s => s ≠ [])
  let i := commonLen sl pl
  let rel := List.replicate (sl.length - i) ("..".data) ++ pl.drop i
  if rel = [] then ".".data else intercalateSlash rel

/-- Embedding of `_resolve_target` from layout_ops.py (the identical
helper in slide_index.py): strip one slash of an absolute target, else
normalize the join with the base directory. -/
def resolve_target (base_dir target : Name) : Name :=
  if target.head? = some '/' then target.drop 1
  else normpath (join2 base_dir target)

/-- Embedding of `_rel_target` from layout_ops.py:
`posixpath.relpath(target_part, start=dirname(source_part))`. -/
def rel_target (source_part target_part : Name) : Name :=
  relpath target_part (dirname source_part)

/-- Lexicographic comparison of names by code point, the order Python
`sorted` uses on strings. -/
def leN : Name → Name → Bool
  | [], _ => true
  | _ :: _, [] => false
  | a :: as, b :: bs =>
    if a = b then leN as bs
    else decide (a < b)

/-- Ordered insertion for `sortNames`. -/
def insSorted (x : Name) : List Name → List Name
  | [] => [x]
  | y :: t => if leN x y then x :: y :: t else y :: insSorted x t

/-- Embedding of Python `sorted` on a list of names (ascending, and the
inputs in this development are duplicate-free, so stability is moot). -/
def sortNames (l : List Name) : List Name :=
  l.foldr insSorted []

/-! ### Slide enumeration: embedding of slide_index.py -/

/-- The presentation part name literal. -/
def presName : Name := "ppt/presentation.xml".data

/-- The presentation sidecar literal. -/
def presRelsName : Name := "ppt/_rels/presentation.xml.rels".data

/-- The slides-directory name filter literal. -/
def slidesPre : Name := "ppt/slides/slide".data

/-- The `.xml` suffix literal. -/
def xmlSuf : Name := ".xml".data

/-- Embedding of `_fallback_slide_parts`: a lexicographic scan of
slide-numbered parts. -/
def fallback_slide_parts (pkg : PPkg) : List Name :=
  sortNames ((list_parts pkg).filter
    (fun p => slidesPre.isPrefixOf p ∧ xmlSuf.isSuffixOf p))

/-- Embedding of `_read_rels` from slide_index.py: the id-keyed dict of
(type, target), built with Python-dict last-wins insertion; entries with a
falsy id are skipped, and a missing part yields the empty dict. -/
def read_rels_dict (pkg : PPkg) (rels_part : Name) :
    Except PErr (List (Name × (Name × Name))) :=
  if has_part pkg rels_part then
    (read_partE pkg rels_part).bind fun d =>
      match d with
      | PartData.relsD rels =>
        Except.ok (rels.foldl
          (fun acc rel =>
            if rel.id = [] then acc
            else dictInsert acc rel.id (rel.type, rel.target)) [])
      | _ => Except.error PErr.parseErr
  else
    Except.ok []

/-- The relationship-type suffix for slides. -/
def slideRelSuf : Name := "/slide".data

/-- Embedding of `slide_parts_in_order` from slide_index.py. -/
def slide_parts_in_order (pkg : PPkg) : Except PErr (List Name) :=
  if has_part pkg presName ∧ has_part pkg presRelsName then
    (read_partE pkg presName).bind fun d =>
      match d with
      | PartData.presD sldIds =>
        (read_rels_dict pkg presRelsName).bind fun rels =>
          let slide_parts := sldIds.filterMap (fun rid? =>
            match rid? with
            | none => none
            | some rid =>
              if rid = [] then none
              else
                match alookup rels rid with
                | none => none
                | some (rel_type, target) =>
                  if slideRelSuf.isSuffixOf rel_type then
                    some (resolve_target ("ppt".data) target)
                  else none)
          Except.ok (if slide_parts = [] then fallback_slide_parts pkg
            else slide_parts)
      | _ => Except.error PErr.parseErr
  else
    Except.ok (fallback_slide_parts pkg)

/-! ### Layout operations: embedding of layout_ops.py -/

/-- The slideLayout relationship type URL. -/
def SLIDE_LAYOUT_REL : Name :=
  "http://schemas.openxmlformats.org/officeDocument/2006/relationships/slideLayout".data

/-- The slideMaster relationship type URL. -/
def SLIDE_MASTER_REL : Name :=
  "http://schemas.openxmlformats.org/officeDocument/2006/relationships/slideMaster".data

/-- The slideLayout content type. -/
def SLIDE_LAYOUT_CONTENT_TYPE : Name :=
  "application/vnd.openxmlformats-officedocument.presentationml.slideLayout+xml".data

/-- The layouts directory filter literal. -/
def layoutsPre : Name := "ppt/slideLayouts/".data

/-- The masters directory filter literal. -/
def mastersPre : Name := "ppt/slideMasters/".data

/-- The `endswith("/slideLayout")` literal. -/
def layoutRelSuf : Name := "/slideLayout".data

/-- The `slideLayout` basename literal. -/
def slideLayoutBase : Name := "slideLayout".data

/-- Embedding of `_layout_parts`: sorted layout-directory xml parts. -/
def layout_parts (pkg : PPkg) : List Name :=
  sortNames ((list_parts pkg).filter
    (fun p => layoutsPre.isPrefixOf p ∧ xmlSuf.isSuffixOf p))

/-- Embedding of `_master_parts`: sorted master-directory xml parts. -/
def master_parts (pkg : PPkg) : List Name :=
  sortNames ((list_parts pkg).filter
    (fun p => mastersPre.isPrefixOf p ∧ xmlSuf.isSuffixOf p))

/-- Embedding of `_master_part_by_index` (1-based; `NotFound` when no
master exists, `OutOfRange` outside the bounds). -/
def master_part_by_index (pkg : PPkg) (index : Int) : Except PErr Name :=
  let masters := master_parts pkg
  if masters = [] then Except.error PErr.notFound
  else if index < 1 ∨ index > (masters.length : Int) then
    Except.error PErr.outOfRange
  else Except.ok (masters.getD (index - 1).toNat [])

/-- Embedding of `_first_layout_for_master`: the master's first slideLayout
relationship target, else the lexicographically first layout part, else
`NotFound`; a missing master sidecar raises `KeyError` unguarded. -/
def first_layout_for_master (pkg : PPkg) (master_part : Name) :
    Except PErr Name :=
  (read_partE pkg (rels_part_for master_part)).bind fun d =>
    (parse_relationships d).bind fun relationships =>
      match relationships.find? (fun rel => rel.type = SLIDE_LAYOUT_REL) with
      | some rel =>
        Except.ok (resolve_target (dirname master_part) rel.target)
      | none =>
        let layouts := layout_parts pkg
        if layouts = [] then Except.error PErr.notFound
        else Except.ok layouts.headI

/-- Set the target of the first relationship of exactly the slideLayout
type; report whether one was found (the loop with `break` in
`_set_slide_layout`). -/
def setFirstLayoutTarget : List Relationship → Name →
    (List Relationship × Bool)
  | [], _ => ([], false)
  | r :: t, tgt =>
    if r.type = SLIDE_LAYOUT_REL then ({ r with target := tgt } :: t, true)
    else
      let res := setFirstLayoutTarget t tgt
      (r :: res.1, res.2)

/-- Embedding of `_set_slide_layout`: rewrite the slide's existing
slideLayout relationship target, or append a fresh one; a slide without a
sidecar fails. -/
def set_slide_layout (pkg : PPkg) (slide_part layout_part : Name) :
    Except PErr PPkg :=
  if has_part pkg (rels_part_for slide_part) then
    (read_partE pkg (rels_part_for slide_part)).bind fun d =>
      (parse_relationships d).bind fun relationships =>
        let target := rel_target slide_part layout_part
        let res := setFirstLayoutTarget relationships target
        let final := if res.2 then res.1
          else relationships ++
            [Relationship.mk (next_rid (relationships.map (fun r => r.id)))
              SLIDE_LAYOUT_REL target none]
        Except.ok (write_part pkg (rels_part_for slide_part)
          (serialize_relationships final))
  else Except.error PErr.missingRels

/-- The `for number in slide_numbers` loop of `assign_slides_to_layout`.
Python mutates the package in place, so writes performed before an
exception survive it; the loop therefore returns the current package
state together with the error, if one was raised. -/
def assign_loop (slide_parts : List Name) (layout_part : Name) :
    PPkg → List Int → PPkg × Option PErr
  | pkg, [] => (pkg, none)
  | pkg, n :: rest =>
    if n < 1 ∨ n > (slide_parts.length : Int) then
      (pkg, some PErr.outOfRange)
    else
      match set_slide_layout pkg (slide_parts.getD (n - 1).toNat [])
          layout_part with
      | Except.ok pkg2 => assign_loop slide_parts layout_part pkg2 rest
      | Except.error e => (pkg, some e)

/-- Embedding of `assign_slides_to_layout`: the enumeration is computed
once, then each 1-based number is bounds-checked only as it is reached and
the slide's layout relationship rewritten. -/
def assign_slides_to_layout (pkg : PPkg) (slide_numbers : List Int)
    (layout_part : Name) : PPkg × Option PErr :=
  match slide_parts_in_order pkg with
  | Except.error e => (pkg, some e)
  | Except.ok slide_parts =>
    assign_loop slide_parts layout_part pkg slide_numbers

/-- The canonical layout part name `ppt/slideLayouts/slideLayout<n>.xml`. -/
def layoutPartName (n : Nat) : Name :=
  "ppt/slideLayouts/slideLayout".data ++ natDigits n ++ xmlSuf

/-- The numeric suffix of one layout part, as `_next_layout_part` extracts
it from the basename. -/
def layoutNumOf (part : Name) : Option Nat :=
  let nm := basename part
  if slideLayoutBase.isPrefixOf nm ∧ xmlSuf.isSuffixOf nm then
    let raw := removesuffix (dropPre nm slideLayoutBase) xmlSuf
    if isdigitName raw then some (parseNat raw) else none
  else none

/-- Embedding of `_next_layout_part`: one more than the maximum numeric
suffix among existing layout parts, 1 when none is numbered. -/
def next_layout_part (pkg : PPkg) : Name :=
  let numbers := (layout_parts pkg).filterMap layoutNumOf
  let next_index := if numbers = [] then 1 else numbers.foldl max 0 + 1
  layoutPartName next_index

/-- The `max_id` scan of `_insert_layout_id`: the largest digit-valued
`id` attribute in the layout-id list, 0 when none qualifies. -/
def maxLayoutId (lst : List SldLayoutId) : Nat :=
  lst.foldl
    (fun a e =>
      match e.idAttr with
      | some raw =>
        if raw ≠ [] ∧ isdigitName raw then max a (parseNat raw) else a
      | none => a) 0

/-- Embedding of `_insert_layout_id`: append one `p:sldLayoutId` entry to
the master's list (created when missing) with numeric id max+1, or 256
when no positive numeric id exists, bound to the given relationship id. -/
def insert_layout_id (master_part : Name) (pkg : PPkg) (rel_id : Name) :
    Except PErr PPkg :=
  (read_partE pkg master_part).bind fun d =>
    match d with
    | PartData.masterD m =>
      let lst := m.layoutIds.getD []
      let max_id := maxLayoutId lst
      let new_id := if max_id ≠ 0 then natDigits (max_id + 1)
        else natDigits 256
      Except.ok (write_part pkg master_part (PartData.masterD
        { layoutIds := some (lst ++ [SldLayoutId.mk (some new_id)
            (some rel_id)]),
          payload := m.payload }))
    | _ => Except.error PErr.parseErr

/-- Embedding of `_layout_relationships_from_slide`: the slide's
relationships filtered to ids referenced by embed/link/id attributes in
the slide document, plus a fresh slideMaster relationship. -/
def layout_relationships_from_slide (pkg : PPkg)
    (slide_part master_part layout_part : Name) :
    Except PErr (List Relationship) :=
  (read_partE pkg (rels_part_for slide_part)).bind fun d =>
    (parse_relationships d).bind fun slide_rels =>
      (read_partE pkg slide_part).bind fun sd =>
        match sd with
        | PartData.slideD sdoc =>
          let layout_rels := slide_rels.filter
            (fun rel => rel.id ∈ sdoc.embedIds)
          let master_target := rel_target layout_part master_part
          let master_id := next_rid (layout_rels.map (fun r => r.id))
          Except.ok (layout_rels ++
            [Relationship.mk master_id SLIDE_MASTER_REL master_target none])
        | _ => Except.error PErr.parseErr

/-- Embedding of `make_layout_from_slide`. The bounds check on the slide
number runs before any read or write; the cSld checks mirror the
`ValueError`s of the source (the parent lookup cannot fail since `p:cSld`
is a direct child of the root there). -/
def make_layout_from_slide (pkg : PPkg) (slide_number : Int) (name : Name)
    (master_index : Int) : Except PErr (Name × PPkg) :=
  (slide_parts_in_order pkg).bind fun slide_parts =>
    if slide_number < 1 ∨ slide_number > (slide_parts.length : Int) then
      Except.error PErr.outOfRange
    else
      (master_part_by_index pkg master_index).bind fun master_part =>
        (first_layout_for_master pkg master_part).bind fun template_layout =>
          let slide_part := slide_parts.getD (slide_number - 1).toNat []
          (read_partE pkg slide_part).bind fun sd0 =>
            (read_partE pkg template_layout).bind fun ld0 =>
              match sd0, ld0 with
              | PartData.slideD sdoc, PartData.layoutD ldoc =>
                match sdoc.cSld, ldoc.cSld with
                | some sc, some _ =>
                  let new_doc : LayoutDoc :=
                    { nameAttr := some name, cSld := some sc,
                      payload := ldoc.payload }
                  let new_layout_part := next_layout_part pkg
                  let pkg1 := write_part pkg new_layout_part
                    (PartData.layoutD new_doc)
                  (layout_relationships_from_slide pkg1 slide_part
                      master_part new_layout_part).bind fun layout_rels =>
                    let pkg2 := write_part pkg1
                      (rels_part_for new_layout_part)
                      (serialize_relationships layout_rels)
                    let master_rel_target :=
                      rel_target master_part new_layout_part
                    (ensure_relationship pkg2 master_part SLIDE_LAYOUT_REL
                        master_rel_target).bind fun rp =>
                      (insert_layout_id master_part rp.2 rp.1.id).bind
                        fun pkg3 =>
                        (ensure_override pkg3 ('/' :: new_layout_part)
                            SLIDE_LAYOUT_CONTENT_TYPE).bind fun op =>
                          Except.ok (new_layout_part, op.2)
                | _, _ => Except.error PErr.badXml
              | _, _ => Except.error PErr.parseErr

/-- The slide part of the C2 failing input. -/
def slide1Part : Name := "ppt/slides/slide1.xml".data

/-- Its sidecar name. -/
def slide1Rels : Name := "ppt/slides/_rels/slide1.xml.rels".data

/-- The C2 failing input: one slide whose sidecar assigns it layout 1,
and no presentation part, so enumeration falls back to the name scan. -/
def pkgC2 : PPkg :=
  { parts := [(slide1Part, PartData.blobD 0),
      (slide1Rels, PartData.relsD [Relationship.mk ("rId1".data)
        SLIDE_LAYOUT_REL ("../slideLayouts/slideLayout1.xml".data) none])],
    order := [slide1Part, slide1Rels] }

/-- The state `assign_slides_to_layout` leaves behind on the C2 failing
input: slide 1 was already rewritten to layout 2 when the invalid number
2 raised. -/
def pkgC2After : PPkg :=
  { parts := [(slide1Part, PartData.blobD 0),
      (slide1Rels, PartData.relsD [Relationship.mk ("rId1".data)
        SLIDE_LAYOUT_REL ("../slideLayouts/slideLayout2.xml".data) none])],
    order := [slide1Part, slide1Rels] }

/-- C2: the failing input evaluated. `assign_slides_to_layout` with the
number list `[1, 2]` on a one-slide package validates each number only as
the loop reaches it, so it first rewrites slide 1's layout relationship
(a write) and only then fails out-of-range on 2, leaving the package
changed — against the claimed zero-writes contract; the single-selector
`make_layout_from_slide` does validate its slide number before its first
write and leaves the package unchanged. -/
theorem C2_bounds_check_partial_write :
    assign_slides_to_layout pkgC2 [1, 2]
        ("ppt/slideLayouts/slideLayout2.xml".data) =
      (pkgC2After, some PErr.outOfRange) ∧
    pkgC2After ≠ pkgC2 ∧
    make_layout_from_slide pkgC2 2 ("X".data) 1 =
      Except.error PErr.outOfRange := by
  decide

theorem foldl_max_init_le (l : List Nat) (a : Nat) : a ≤ l.foldl max a := by
  induction l generalizing a with
  | nil => exact Nat.le_refl a
  | cons x t ih =>
    rw [List.foldl_cons]
    exact Nat.le_trans (Nat.le_max_left a x) (ih (max a x))

theorem le_foldl_max (l : List Nat) (a k : Nat) (h : k ∈ l) :
    k ≤ l.foldl max a := by
  induction l generalizing a with
  | nil => cases h
  | cons x t ih =>
    rw [List.foldl_cons]
    rcases List.mem_cons.1 h with h1 | h1
    · subst h1
      exact Nat.le_trans (Nat.le_max_right a k) (foldl_max_init_le t _)
    · exact ih _ h1

/-- C7: layout allocation in `make-layout-from-slide`. The new layout part
name is `slideLayout<N>.xml` with `N` one more than the maximum numeric
suffix among existing layout parts (gap-tolerant: every numbered layout's
suffix is strictly below `N`, so a number freed by deletion is not
reused), `N = 1` when no numbered layout exists; and the layout-id entry
appended to the master's ordered list carries numeric id
`(max existing digit id) + 1` when that maximum is at least 1, defaulting
to 256 when the list is empty or missing, bound to the given relationship
id. -/
theorem C7_layout_allocation (pkg : PPkg) (master_part rel_id : Name)
    (m : MasterDoc)
    (hread : read_part pkg master_part = some (PartData.masterD m)) :
    (((layout_parts pkg).filterMap layoutNumOf ≠ [] →
        next_layout_part pkg = layoutPartName
          (((layout_parts pkg).filterMap layoutNumOf).foldl max 0 + 1)) ∧
      ((layout_parts pkg).filterMap layoutNumOf = [] →
        next_layout_part pkg = layoutPartName 1) ∧
      (∀ part ∈ layout_parts pkg, ∀ k, layoutNumOf part = some k →
        k < ((layout_parts pkg).filterMap layoutNumOf).foldl max 0 + 1)) ∧
    ((m.layoutIds = none ∨ m.layoutIds = some [] →
        insert_layout_id master_part pkg rel_id =
          Except.ok (write_part pkg master_part (PartData.masterD
            { layoutIds := some [SldLayoutId.mk (some (natDigits 256))
                (some rel_id)],
              payload := m.payload }))) ∧
      (∀ lst, m.layoutIds = some lst → 1 ≤ maxLayoutId lst →
        insert_layout_id master_part pkg rel_id =
          Except.ok (write_part pkg master_part (PartData.masterD
            { layoutIds := some (lst ++ [SldLayoutId.mk
                (some (natDigits (maxLayoutId lst + 1))) (some rel_id)]),
              payload := m.payload })))) := by
  refine ⟨⟨?_, ?_, ?_⟩, ?_, ?_⟩
  · intro hne
    unfold next_layout_part
    dsimp only
    rw [if_neg hne]
  · intro hnil
    unfold next_layout_part
    dsimp only
    rw [hnil, if_pos rfl]
  · intro part hmem k hk
    have hin : k ∈ (layout_parts pkg).filterMap layoutNumOf :=
      List.mem_filterMap.2 ⟨part, hmem, hk⟩
    exact Nat.lt_succ_of_le (le_foldl_max _ 0 k hin)
  · intro hids
    have hlst : m.layoutIds.getD [] = [] := by
      rcases hids with h | h <;> rw [h] <;> rfl
    unfold insert_layout_id read_partE
    rw [hread]
    dsimp only [Except.bind]
    rw [hlst]
    rfl
  · intro lst hlst hmax
    have hne : maxLayoutId lst ≠ 0 := by omega
    unfold insert_layout_id read_partE
    rw [hread]
    dsimp only [Except.bind]
    rw [hlst]
    dsimp only [Option.getD]
    rw [if_pos hne]

/-- The C7 witness package: one master and two gapped layouts 1 and 7. -/
def pkgC7 : PPkg :=
  { parts := [(("ppt/slideMasters/slideMaster1.xml".data),
      PartData.masterD { layoutIds := some [SldLayoutId.mk
        (some ("256".data)) (some ("rId1".data))], payload := 0 }),
      (("ppt/slideLayouts/slideLayout1.xml".data), PartData.blobD 1),
      (("ppt/slideLayouts/slideLayout7.xml".data), PartData.blobD 2)],
    order := [("ppt/slideMasters/slideMaster1.xml".data),
      ("ppt/slideLayouts/slideLayout1.xml".data),
      ("ppt/slideLayouts/slideLayout7.xml".data)] }

/-- C7 witness: on the gapped package the allocator picks `slideLayout8`,
one past the maximum suffix 7. -/
theorem C7_layout_allocation_witness :
    next_layout_part pkgC7 = layoutPartName 8 := by
  have h := ((C7_layout_allocation pkgC7
      ("ppt/slideMasters/slideMaster1.xml".data) ("rId2".data)
      { layoutIds := some [SldLayoutId.mk (some ("256".data))
          (some ("rId1".data))], payload := 0 }
      (by decide)).1).1 (by decide)
  rw [h]
  decide

/-! ### Reindex map construction: `_master_layout_order` and
`_build_layout_reindex_map` -/

/-- Embedding of `_master_layout_order`: resolve each `p:sldLayoutId`
entry's `r:id` through the master's sidecar (a plain id-keyed dict with no
type filter), skipping entries whose id is absent or unresolvable and
targets that resolve to the empty name. -/
def master_layout_order (pkg : PPkg) (master_part : Name) :
    Except PErr (List Name) :=
  if has_part pkg (rels_part_for master_part) then
    (read_partE pkg (rels_part_for master_part)).bind fun d =>
      (parse_relationships d).bind fun rels =>
        let rel_map := rels.foldl
          (fun acc rel => dictInsert acc rel.id rel) []
        (read_partE pkg master_part).bind fun md =>
          match md with
          | PartData.masterD m =>
            match m.layoutIds with
            | none => Except.ok []
            | some lst =>
              Except.ok (lst.filterMap (fun node =>
                match node.rid with
                | none => none
                | some rid =>
                  match alookup rel_map rid with
                  | none => none
                  | some rel =>
                    let target := resolve_target (dirname master_part)
                      rel.target
                    if target = [] then none else some target))
          | _ => Except.error PErr.parseErr
  else Except.ok []

/-- Pair each element with its 1-based position. -/
def withIdx : Nat → List Name → List (Nat × Name)
  | _, [] => []
  | i, x :: t => (i, x) :: withIdx (i + 1) t

/-- The inner `for idx, layout_part in enumerate(order, start=1)` loop of
`_build_layout_reindex_map`: an already-mapped layout must keep its name
(else `Inconsistent`), and the mapping is (re)assigned in dict order. -/
def addLayoutMappings : List (Nat × Name) → List (Name × Name) →
    Except PErr (List (Name × Name))
  | [], mapping => Except.ok mapping
  | (idx, layout_part) :: rest, mapping =>
    match alookup mapping layout_part with
    | some old =>
      if old ≠ layoutPartName idx then Except.error PErr.inconsistent
      else addLayoutMappings rest
        (dictInsert mapping layout_part (layoutPartName idx))
    | none => addLayoutMappings rest
        (dictInsert mapping layout_part (layoutPartName idx))

/-- One master's contribution to the reindex map: skip a master whose
resolved order is empty, else number its order from 1. -/
def buildStep (pkg : PPkg) (mapping : List (Name × Name))
    (master_part : Name) : Except PErr (List (Name × Name)) :=
  (master_layout_order pkg master_part).bind fun order =>
    if order = [] then Except.ok mapping
    else addLayoutMappings (withIdx 1 order) mapping

/-- Embedding of `_build_layout_reindex_map`: walk the masters in sorted
order and number each master's resolved layout order from 1. -/
def build_layout_reindex_map (pkg : PPkg) :
    Except PErr (List (Name × Name)) :=
  if layout_parts pkg = [] then Except.ok []
  else (master_parts pkg).foldlM (buildStep pkg) []

theorem addLayoutMappings_preserve (pairs : List (Nat × Name))
    (mapping M2 : List (Name × Name)) (K : Name)
    (hK : ∀ q ∈ pairs, q.2 ≠ K)
    (h : addLayoutMappings pairs mapping = Except.ok M2) :
    alookup M2 K = alookup mapping K := by
  induction pairs generalizing mapping with
  | nil =>
    rw [addLayoutMappings] at h
    cases h
    rfl
  | cons q rest ih =>
    obtain ⟨idx, lp⟩ := q
    have hlp : lp ≠ K := hK (idx, lp) (List.mem_cons_self _ _)
    rw [addLayoutMappings] at h
    have hstep : ∀ M', addLayoutMappings rest
        (dictInsert mapping lp (layoutPartName idx)) = Except.ok M' →
        M' = M2 → alookup M2 K = alookup mapping K := by
      intro M' hM' hMM
      subst hMM
      rw [ih (dictInsert mapping lp (layoutPartName idx))
        (fun q hq => hK q (List.mem_cons_of_mem _ hq)) hM']
      exact alookup_dictInsert_ne _ _ _ _ hlp
    cases halk : alookup mapping lp with
    | some old =>
      rw [halk] at h
      dsimp only at h
      by_cases hold : old ≠ layoutPartName idx
      · rw [if_pos hold] at h
        cases h
      · rw [if_neg hold] at h
        exact hstep M2 h rfl
    | none =>
      rw [halk] at h
      dsimp only at h
      exact hstep M2 h rfl

theorem withIdx_snd_mem (t : List Name) (i : Nat) (q : Nat × Name)
    (h : q ∈ withIdx i t) : q.2 ∈ t := by
  induction t generalizing i with
  | nil => cases h
  | cons x s ih =>
    rw [withIdx] at h
    rcases List.mem_cons.1 h with h1 | h1
    · rw [h1]
      exact List.mem_cons_self x s
    · exact List.mem_cons_of_mem x (ih (i + 1) h1)

theorem addLayoutMappings_head (order : List Name) (K : Name)
    (tail : List Name) (mapping M2 : List (Name × Name))
    (horder : order = K :: tail)
    (hK : K ∉ tail)
    (h : addLayoutMappings (withIdx 1 order) mapping = Except.ok M2) :
    alookup M2 K = some (layoutPartName 1) := by
  subst horder
  rw [withIdx, addLayoutMappings] at h
  have htail : ∀ q ∈ withIdx 2 tail, q.2 ≠ K := by
    intro q hq hEq
    exact hK (hEq ▸ withIdx_snd_mem tail 2 q hq)
  have hfin : ∀ M', addLayoutMappings (withIdx 2 tail)
      (dictInsert mapping K (layoutPartName 1)) = Except.ok M' →
      M' = M2 → alookup M2 K = some (layoutPartName 1) := by
    intro M' hM' hMM
    subst hMM
    rw [addLayoutMappings_preserve _ _ _ K htail hM']
    exact alookup_dictInsert_self _ _ _
  cases halk : alookup mapping K with
  | some old =>
    rw [halk] at h
    dsimp only at h
    by_cases hold : old ≠ layoutPartName 1
    · rw [if_pos hold] at h
      cases h
    · rw [if_neg hold] at h
      exact hfin M2 h rfl
  | none =>
    rw [halk] at h
    dsimp only at h
    exact hfin M2 h rfl

theorem except_bind_error {ε α β : Type} (e : ε) (f : α → Except ε β) :
    (Except.error e : Except ε α) >>= f = Except.error e := rfl

theorem buildSteps_preserve (pkg : PPkg) (K : Name) (ms : List Name)
    (mapping M : List (Name × Name))
    (hrest : ∀ mr ∈ ms, ∀ o, master_layout_order pkg mr = Except.ok o →
      K ∉ o)
    (h : ms.foldlM (buildStep pkg) mapping = Except.ok M) :
    alookup M K = alookup mapping K := by
  induction ms generalizing mapping with
  | nil =>
    rw [List.foldlM_nil] at h
    cases h
    rfl
  | cons mr ms' ih =>
    rw [List.foldlM_cons] at h
    cases hb : buildStep pkg mapping mr with
    | error e =>
      rw [hb, except_bind_error] at h
      exact Except.noConfusion h
    | ok mid =>
      rw [hb, except_bind_ok] at h
      have hmid : alookup mid K = alookup mapping K := by
        unfold buildStep at hb
        cases horder : master_layout_order pkg mr with
        | error e =>
          rw [horder] at hb
          exact Except.noConfusion hb
        | ok o =>
          rw [horder] at hb
          dsimp only [Except.bind] at hb
          by_cases ho : o = []
          · rw [if_pos ho] at hb
            cases hb
            rfl
          · rw [if_neg ho] at hb
            have hKo : ∀ q ∈ withIdx 1 o, q.2 ≠ K := by
              intro q hq hEq
              exact hrest mr (List.mem_cons_self _ _) o horder
                (hEq ▸ withIdx_snd_mem o 1 q hq)
            exact addLayoutMappings_preserve _ _ _ K hKo hb
      rw [ih mid (fun q hq => hrest q (List.mem_cons_of_mem _ hq)) h, hmid]

/-- C1 (amended): `_build_layout_reindex_map` restarts its numbering at 1
for every master instead of continuing across masters: whenever the map is
built successfully on a package with at least two masters, the first
resolved layout of the second master is assigned the canonical name
`slideLayout1.xml` — not the number immediately after the last number used
by the first master. -/
theorem C1_reindex_numbering_restarts (pkg : PPkg)
    (M : List (Name × Name)) (m1 m2 : Name) (rest : List Name)
    (order1 : List Name) (K : Name) (tail : List Name)
    (hlay : layout_parts pkg ≠ [])
    (hmasters : master_parts pkg = m1 :: m2 :: rest)
    (_h1 : master_layout_order pkg m1 = Except.ok order1)
    (_h1ne : order1 ≠ [])
    (h2 : master_layout_order pkg m2 = Except.ok (K :: tail))
    (hKt : K ∉ tail)
    (hrest : ∀ mr ∈ rest, ∀ o, master_layout_order pkg mr = Except.ok o →
      K ∉ o)
    (hM : build_layout_reindex_map pkg = Except.ok M) :
    alookup M K = some (layoutPartName 1) := by
  unfold build_layout_reindex_map at hM
  rw [if_neg hlay, hmasters, List.foldlM_cons] at hM
  cases hb1 : buildStep pkg [] m1 with
  | error e =>
    rw [hb1, except_bind_error] at hM
    exact Except.noConfusion hM
  | ok M1 =>
    rw [hb1, except_bind_ok, List.foldlM_cons] at hM
    cases hb2 : buildStep pkg M1 m2 with
    | error e =>
      rw [hb2, except_bind_error] at hM
      exact Except.noConfusion hM
    | ok M2 =>
      rw [hb2, except_bind_ok] at hM
      have hM2K : alookup M2 K = some (layoutPartName 1) := by
        unfold buildStep at hb2
        rw [h2] at hb2
        dsimp only [Except.bind] at hb2
        rw [if_neg (by simp)] at hb2
        exact addLayoutMappings_head (K :: tail) K tail M1 M2 rfl hKt hb2
      rw [buildSteps_preserve pkg K rest M2 M hrest hM, hM2K]

/-- The first C1 master document: layout-id entries bound to rId1, rId2. -/
def m1DocC1 : MasterDoc where
  layoutIds := some [SldLayoutId.mk (some ("256".data)) (some ("rId1".data)),
    SldLayoutId.mk (some ("257".data)) (some ("rId2".data))]
  payload := 0

/-- The second C1 master document: one layout-id entry bound to rId1. -/
def m2DocC1 : MasterDoc where
  layoutIds := some [SldLayoutId.mk (some ("258".data)) (some ("rId1".data))]
  payload := 0

/-- The C1 package: two masters; the first references layouts 1 and 2, the
second references layout 3. -/
def pkgC1 : PPkg where
  parts := [
    (("ppt/slideMasters/slideMaster1.xml".data), PartData.masterD m1DocC1),
    (("ppt/slideMasters/_rels/slideMaster1.xml.rels".data),
      PartData.relsD [
        Relationship.mk ("rId1".data) SLIDE_LAYOUT_REL
          ("../slideLayouts/slideLayout1.xml".data) none,
        Relationship.mk ("rId2".data) SLIDE_LAYOUT_REL
          ("../slideLayouts/slideLayout2.xml".data) none]),
    (("ppt/slideMasters/slideMaster2.xml".data), PartData.masterD m2DocC1),
    (("ppt/slideMasters/_rels/slideMaster2.xml.rels".data),
      PartData.relsD [
        Relationship.mk ("rId1".data) SLIDE_LAYOUT_REL
          ("../slideLayouts/slideLayout3.xml".data) none]),
    (("ppt/slideLayouts/slideLayout1.xml".data), PartData.blobD 1),
    (("ppt/slideLayouts/slideLayout2.xml".data), PartData.blobD 2),
    (("ppt/slideLayouts/slideLayout3.xml".data), PartData.blobD 3)]
  order := [
    ("ppt/slideMasters/slideMaster1.xml".data),
    ("ppt/slideMasters/_rels/slideMaster1.xml.rels".data),
    ("ppt/slideMasters/slideMaster2.xml".data),
    ("ppt/slideMasters/_rels/slideMaster2.xml.rels".data),
    ("ppt/slideLayouts/slideLayout1.xml".data),
    ("ppt/slideLayouts/slideLayout2.xml".data),
    ("ppt/slideLayouts/slideLayout3.xml".data)]

/-- C1 counterexample: on a package with two masters whose layout-id lists
reference disjoint layouts (the first master's last assigned number is 2),
the reindex map assigns the second master's first layout the name
`slideLayout1.xml`, not `slideLayout3.xml` as the claimed cross-master
numbering continuation would demand. -/
theorem C1_reindex_numbering_counterexample :
    build_layout_reindex_map pkgC1 = Except.ok
      [(("ppt/slideLayouts/slideLayout1.xml".data), layoutPartName 1),
       (("ppt/slideLayouts/slideLayout2.xml".data), layoutPartName 2),
       (("ppt/slideLayouts/slideLayout3.xml".data), layoutPartName 1)] ∧
    layoutPartName 1 ≠ layoutPartName 3 := by
  decide

/-- C1 witness: the amended restart theorem applied to the two-master
package. -/
theorem C1_reindex_numbering_restarts_witness :
    alookup
      [(("ppt/slideLayouts/slideLayout1.xml".data), layoutPartName 1),
       (("ppt/slideLayouts/slideLayout2.xml".data), layoutPartName 2),
       (("ppt/slideLayouts/slideLayout3.xml".data), layoutPartName 1)]
      ("ppt/slideLayouts/slideLayout3.xml".data) =
      some (layoutPartName 1) :=
  C1_reindex_numbering_restarts pkgC1
    [(("ppt/slideLayouts/slideLayout1.xml".data), layoutPartName 1),
     (("ppt/slideLayouts/slideLayout2.xml".data), layoutPartName 2),
     (("ppt/slideLayouts/slideLayout3.xml".data), layoutPartName 1)]
    ("ppt/slideMasters/slideMaster1.xml".data)
    ("ppt/slideMasters/slideMaster2.xml".data) []
    [("ppt/slideLayouts/slideLayout1.xml".data),
     ("ppt/slideLayouts/slideLayout2.xml".data)]
    ("ppt/slideLayouts/slideLayout3.xml".data) []
    (by decide) (by decide) (by decide) (by decide) (by decide) (by decide)
    (fun mr hmr => absurd hmr (List.not_mem_nil mr))
    (by decide)

/-! ### Pruning: embedding of `prune_unused_layouts` and
`_remove_layout_from_masters` -/

/-- Embedding of `_slide_layout_part`: the first relationship of a
slideLayout-suffixed type, resolved; `none` when the sidecar is absent or
no such relationship exists. -/
def slide_layout_part (pkg : PPkg) (slide_part : Name) :
    Except PErr (Option Name) :=
  if has_part pkg (rels_part_for slide_part) then
    (read_partE pkg (rels_part_for slide_part)).bind fun d =>
      (parse_relationships d).bind fun relationships =>
        Except.ok ((relationships.find?
          (fun rel => layoutRelSuf.isSuffixOf rel.type)).map
          (fun rel => resolve_target (dirname slide_part) rel.target))
  else Except.ok none

/-- The layouts reachable from the slides, in slide order (membership is
what `prune_unused_layouts` consumes from its `used_layouts` set). -/
def used_layout_set (pkg : PPkg) : Except PErr (List Name) :=
  (slide_parts_in_order pkg).bind fun slide_parts =>
    slide_parts.foldlM
      (fun used slide_part =>
        (slide_layout_part pkg slide_part).bind fun l =>
          Except.ok (match l with
            | some layout_part => used ++ [layout_part]
            | none => used))
      []

/-- Whether a relationship of the master at `master_part` matches the
pruned layout: slideLayout-suffixed type and target resolving to it. -/
def relMatches (master_part layout_part : Name) (rel : Relationship) :
    Bool :=
  layoutRelSuf.isSuffixOf rel.type ∧
    resolve_target (dirname master_part) rel.target = layout_part

/-- One master's step of `_remove_layout_from_masters`: split the sidecar,
and when something was removed rewrite the sidecar and drop the matching
layout-id entries from the master document. -/
def masterRemoveStep (layout_part : Name) (st : Nat × PPkg)
    (master_part : Name) : Except PErr (Nat × PPkg) :=
  if has_part st.2 (rels_part_for master_part) then
    (read_partE st.2 (rels_part_for master_part)).bind fun d =>
      (parse_relationships d).bind fun relationships =>
        let keep_rels := relationships.filter
          (fun rel => ¬ relMatches master_part layout_part rel)
        let removed_ids := (relationships.filter
          (relMatches master_part layout_part)).map (fun r => r.id)
        if removed_ids = [] then Except.ok st
        else
          let pkgW := write_part st.2 (rels_part_for master_part)
            (serialize_relationships keep_rels)
          (read_partE pkgW master_part).bind fun md =>
            match md with
            | PartData.masterD m =>
              Except.ok (st.1 + 1, write_part pkgW master_part
                (PartData.masterD
                  { layoutIds := m.layoutIds.map (fun lst => lst.filter
                      (fun e =>
                        match e.rid with
                        | some r => ¬ r ∈ removed_ids
                        | none => true)),
                    payload := m.payload }))
            | _ => Except.error PErr.parseErr
  else Except.ok st

/-- Embedding of `_remove_layout_from_masters`: every master (not only
one) is visited. -/
def remove_layout_from_masters (pkg : PPkg) (layout_part : Name) :
    Except PErr (Nat × PPkg) :=
  (master_parts pkg).foldlM (masterRemoveStep layout_part) (0, pkg)

/-- One pruned layout's processing inside `prune_unused_layouts`: remove
its master references, delete its part, delete its sidecar when present,
and remove its content-type Override. -/
def pruneStep (st : PPkg × Nat) (layout : Name) :
    Except PErr (PPkg × Nat) :=
  (remove_layout_from_masters st.1 layout).bind fun mres =>
    let pkgA := delete_part mres.2 layout
    let pkgB := if has_part pkgA (rels_part_for layout) then
        delete_part pkgA (rels_part_for layout)
      else pkgA
    (remove_override pkgB layout).bind fun ro =>
      Except.ok (ro.2, st.2 + mres.1)

/-- The result record of `prune_unused_layouts`. -/
structure PruneLayoutsResult where
  removed_layouts : List Name
  unused_layouts : List Name
  masters_updated : Nat
deriving DecidableEq

/-- Embedding of `prune_unused_layouts`. -/
def prune_unused_layouts (pkg : PPkg) (keep_layouts : List Name) :
    Except PErr (PruneLayoutsResult × PPkg) :=
  (used_layout_set pkg).bind fun used =>
    let unused := (layout_parts pkg).filter
      (fun l => ¬ l ∈ used ∧ ¬ l ∈ keep_layouts)
    (unused.foldlM pruneStep (pkg, 0)).bind fun st =>
      Except.ok
        ({ removed_layouts := unused, unused_layouts := unused,
           masters_updated := st.2 }, st.1)

/-! ### Name disjointness and read/write framing lemmas -/

theorem strip_eq_self_of_normalized (p : Name) (h : NormalizedName p) :
    stripLeadingSlash p = p := by
  cases hp : p with
  | nil => rfl
  | cons c t =>
    have hc : c ≠ '/' := by
      intro hEq
      rcases h with h0 | hseg
      · rw [hp] at h0
        cases h0
      · apply hseg []
        · rw [hp, hEq, splitSlash_cons_slash]
          exact List.mem_cons_self _ _
        · rfl
    simp [stripLeadingSlash, hc]

theorem prefix_take (a x : Name) (h : a <+: x) : x.take a.length = a := by
  obtain ⟨t, rfl⟩ := h
  exact List.take_left a t

theorem ne_of_ne_prefixes (a b x y : Name) (ha : a <+: x) (hb : b <+: y)
    (hlen : a.length = b.length) (hab : a ≠ b) : x ≠ y := by
  intro hEq
  subst hEq
  apply hab
  rw [← prefix_take a x ha, ← prefix_take b x hb, hlen]

theorem getLast?_of_suffix (s q : Name) (h : s <:+ q) (hs : s ≠ []) :
    q.getLast? = s.getLast? := by
  obtain ⟨u, rfl⟩ := h
  exact getLast?_append_right u s hs

theorem suffix_join2 (a b : Name) : b <:+ join2 a b := by
  unfold join2
  split
  · exact List.suffix_refl b
  · split
    · exact List.suffix_append a b
    · exact List.IsSuffix.trans (List.suffix_cons '/' b)
        (List.suffix_append a ('/' :: b))

theorem rels_part_for_ends_rels (p : Name) :
    relsSuf <:+ rels_part_for p := by
  unfold rels_part_for
  dsimp only
  split
  · decide
  · exact List.IsSuffix.trans (List.suffix_append _ relsSuf)
      (suffix_join2 _ _)

theorem xml_ne_rels_part (q p : Name) (hq : xmlSuf.isSuffixOf q) :
    q ≠ rels_part_for p := by
  intro hEq
  have h1 : q.getLast? = some 'l' := by
    rw [getLast?_of_suffix xmlSuf q (List.isSuffixOf_iff_suffix.1 hq)
      (by decide)]
    decide
  have h2 : (rels_part_for p).getLast? = some 's' := by
    rw [getLast?_of_suffix relsSuf (rels_part_for p)
      (rels_part_for_ends_rels p) (by decide)]
    decide
  rw [hEq, h2] at h1
  cases h1

theorem layout_ne_master (x y : Name) (hx : layoutsPre.isPrefixOf x)
    (hy : mastersPre.isPrefixOf y) : x ≠ y :=
  ne_of_ne_prefixes layoutsPre mastersPre x y
    (List.isPrefixOf_iff_prefix.1 hx) (List.isPrefixOf_iff_prefix.1 hy)
    (by decide) (by decide)

theorem ppre_ne_ct (x : Name) (hx : ("p".data) <+: x) : x ≠ ctName := by
  refine ne_of_ne_prefixes ("p".data) ("[".data) x ctName hx ?_
    (by decide) (by decide)
  decide

theorem layout_ne_ct (x : Name) (hx : layoutsPre.isPrefixOf x) :
    x ≠ ctName :=
  ppre_ne_ct x (List.IsPrefix.trans (by decide)
    (List.isPrefixOf_iff_prefix.1 hx))

theorem master_ne_ct (x : Name) (hx : mastersPre.isPrefixOf x) :
    x ≠ ctName :=
  ppre_ne_ct x (List.IsPrefix.trans (by decide)
    (List.isPrefixOf_iff_prefix.1 hx))

theorem rels_part_ne_ct (p : Name) : rels_part_for p ≠ ctName := by
  intro hEq
  have h2 : (rels_part_for p).getLast? = some 's' := by
    rw [getLast?_of_suffix relsSuf (rels_part_for p)
      (rels_part_for_ends_rels p) (by decide)]
    decide
  rw [hEq] at h2
  revert h2
  decide

theorem read_write_other {α : Type} (pkg : Pkg α) (n m : Name) (d : α)
    (h : stripLeadingSlash m ≠ stripLeadingSlash n) :
    read_part (write_part pkg n d) m = read_part pkg m := by
  unfold read_part write_part
  dsimp only
  by_cases hp : (alookup pkg.parts (stripLeadingSlash n)).isSome
  · rw [if_pos hp]
    exact alookup_dictInsert_ne _ _ _ _ (Ne.symm h)
  · rw [if_neg hp]
    exact alookup_dictInsert_ne _ _ _ _ (Ne.symm h)

theorem alookup_filter_other {α : Type} (l : List (Name × α)) (k q : Name)
    (h : q ≠ k) :
    alookup (l.filter (fun e => ¬ e.1 = k)) q = alookup l q := by
  induction l with
  | nil => rfl
  | cons e t ih =>
    obtain ⟨k1, v1⟩ := e
    rw [List.filter_cons]
    by_cases hk : k1 = k
    · rw [if_neg (by simp [hk])]
      rw [alookup, if_neg (by rw [hk]; exact Ne.symm h)]
      exact ih
    · rw [if_pos (by simp [hk])]
      rw [alookup, alookup]
      by_cases hq : k1 = q
      · rw [if_pos hq, if_pos hq]
      · rw [if_neg hq, if_neg hq]
        exact ih

theorem read_delete_other {α : Type} (pkg : Pkg α) (n m : Name)
    (h : stripLeadingSlash m ≠ stripLeadingSlash n) :
    read_part (delete_part pkg n) m = read_part pkg m := by
  unfold read_part delete_part
  dsimp only
  exact alookup_filter_other _ _ _ h

theorem read_delete_self {α : Type} (pkg : Pkg α) (n : Name) :
    read_part (delete_part pkg n) n = none := by
  unfold read_part delete_part
  dsimp only
  exact alookup_filter_ne _ _

/-! ### Prune machinery: preconditions, invariant, and list lemmas -/

theorem except_bind_ok2 {ε α β : Type} (x : α) (f : α → Except ε β) :
    (Except.ok x : Except ε α).bind f = f x := rfl

theorem except_bind_error2 {ε α β : Type} (e : ε) (f : α → Except ε β) :
    (Except.error e : Except ε α).bind f = Except.error e := rfl

theorem has_part_eq_isSome_read {α : Type} (pkg : Pkg α) (n : Name) :
    has_part pkg n = (read_part pkg n).isSome := rfl

/-- Whether a relationship of the master at `master_part` is a slideLayout
relationship resolving into the set `S` of layout parts. -/
def relMatchesAny (master_part : Name) (S : List Name)
    (rel : Relationship) : Bool :=
  layoutRelSuf.isSuffixOf rel.type ∧
    resolve_target (dirname master_part) rel.target ∈ S

/-- The parsed sidecar relationships of `m`, `[]` when absent or foreign. -/
def sidecarRels (pkg : PPkg) (m : Name) : List Relationship :=
  match read_part pkg (rels_part_for m) with
  | some (PartData.relsD rl) => rl
  | _ => []

/-- The relationship ids of `m`'s sidecar matching a layout in `S` (the
union over `S` of the per-layout `removed_ids` sets of the source). -/
def removedIdsFor (pkg : PPkg) (m : Name) (S : List Name) : List Name :=
  ((sidecarRels pkg m).filter (relMatchesAny m S)).map (fun r => r.id)

/-- Whether a layout-id entry survives removal of the given rel ids. -/
def entryKeep (ids : List Name) (e : SldLayoutId) : Bool :=
  match e.rid with
  | some r => ¬ r ∈ ids
  | none => true

/-- Whether a content-type child survives Override removal for every
layout in `S`. -/
def ctKeepS (S : List Name) (e : CTEntry) : Bool :=
  match e with
  | CTEntry.ovr q _ => ¬ q ∈ S.map normalize_part_name
  | CTEntry.dflt _ _ => true

/-- Every relationship of the list is fixed by the serializer's
`TargetMode` normalization. -/
def relsNormedB (rl : List Relationship) : Bool :=
  rl.all (fun rel => normTargetMode rel = rel)

/-- A master's sidecar is absent or parses as a relationship list whose
entries the serializer round-trips. -/
def sidecarOkB (pkg : PPkg) (m : Name) : Bool :=
  match read_part pkg (rels_part_for m) with
  | none => true
  | some (PartData.relsD rl) => relsNormedB rl
  | some _ => false

/-- A master part stores a master document. -/
def masterOkB (pkg : PPkg) (m : Name) : Bool :=
  match read_part pkg m with
  | some (PartData.masterD _) => true
  | _ => false

/-- The content-type registry is absent or stores a registry document. -/
def ctOkB (pkg : PPkg) : Bool :=
  match read_part pkg ctName with
  | none => true
  | some (PartData.ctD _) => true
  | some _ => false

/-- The well-formedness preconditions on the pruned package: unique part
names, normalized part names, parseable master documents and sidecars,
and a parseable content-type registry. -/
def PrunePre (pkg : PPkg) : Prop :=
  (list_parts pkg).Nodup ∧
  (∀ p ∈ list_parts pkg, NormalizedName p) ∧
  (∀ m ∈ master_parts pkg, sidecarOkB pkg m = true ∧ masterOkB pkg m = true) ∧
  ctOkB pkg = true

instance (pkg : PPkg) : Decidable (PrunePre pkg) := by
  unfold PrunePre
  infer_instance

/-- The per-master clauses of the prune invariant: after processing the
layouts in `S`, the master's sidecar holds the original relationships
minus those matching a layout in `S`, and its layout-id entries are the
original ones minus those whose id is a removed relationship id. -/
def MClausesAt (pkg pkgi : PPkg) (S : List Name) (m : Name) : Prop :=
  (read_part pkg (rels_part_for m) = none →
     read_part pkgi (rels_part_for m) = none) ∧
  (∀ rl, read_part pkg (rels_part_for m) = some (PartData.relsD rl) →
     read_part pkgi (rels_part_for m) = some (PartData.relsD
       (rl.filter (fun rel => ¬ relMatchesAny m S rel)))) ∧
  (∀ doc, read_part pkg m = some (PartData.masterD doc) →
     read_part pkgi m = some (PartData.masterD
       { layoutIds := doc.layoutIds.map (fun lst =>
           lst.filter (entryKeep (removedIdsFor pkg m S))),
         payload := doc.payload }))

/-- The remaining clauses of the prune invariant: stable master list,
content-type registry filtered over `S`, processed layouts and their
sidecars gone, and every unrelated part untouched. -/
def RestClauses (pkg pkgi : PPkg) (S : List Name) : Prop :=
  master_parts pkgi = master_parts pkg ∧
  (read_part pkg ctName = none → read_part pkgi ctName = none) ∧
  (∀ cts, read_part pkg ctName = some (PartData.ctD cts) →
     read_part pkgi ctName = some (PartData.ctD (cts.filter (ctKeepS S)))) ∧
  (∀ x ∈ S, read_part pkgi x = none ∧
     read_part pkgi (rels_part_for x) = none) ∧
  (∀ q, NormalizedName q → ¬ q ∈ S → ¬ q ∈ S.map rels_part_for →
     (∀ m ∈ master_parts pkg, ¬ q = m ∧ ¬ q = rels_part_for m) →
     ¬ q = ctName →
     read_part pkgi q = read_part pkg q)

/-- The prune loop invariant after processing the layouts in `S`. -/
def PruneInv (pkg pkgi : PPkg) (S : List Name) : Prop :=
  RestClauses pkg pkgi S ∧ ∀ m ∈ master_parts pkg, MClausesAt pkg pkgi S m

theorem insSorted_perm (x : Name) (l : List Name) :
    (insSorted x l).Perm (x :: l) := by
  induction l with
  | nil => exact List.Perm.refl _
  | cons y t ih =>
    unfold insSorted
    by_cases h : leN x y = true
    · rw [if_pos h]
    · rw [if_neg h]
      exact ((ih.cons y).trans (List.Perm.swap x y t))

theorem sortNames_perm (l : List Name) : (sortNames l).Perm l := by
  induction l with
  | nil => exact List.Perm.refl _
  | cons x t ih =>
    exact (insSorted_perm x (t.foldr insSorted [])).trans (ih.cons x)

theorem sortNames_nodup (l : List Name) (h : l.Nodup) :
    (sortNames l).Nodup :=
  (sortNames_perm l).nodup_iff.2 h

theorem mem_layout_parts (pkg : PPkg) (x : Name) (h : x ∈ layout_parts pkg) :
    x ∈ list_parts pkg ∧ layoutsPre.isPrefixOf x = true ∧
      xmlSuf.isSuffixOf x = true := by
  unfold layout_parts at h
  rw [(sortNames_perm _).mem_iff] at h
  have h2 := List.mem_filter.1 h
  exact ⟨h2.1, (of_decide_eq_true h2.2).1, (of_decide_eq_true h2.2).2⟩

theorem mem_master_parts (pkg : PPkg) (x : Name) (h : x ∈ master_parts pkg) :
    x ∈ list_parts pkg ∧ mastersPre.isPrefixOf x = true ∧
      xmlSuf.isSuffixOf x = true := by
  unfold master_parts at h
  rw [(sortNames_perm _).mem_iff] at h
  have h2 := List.mem_filter.1 h
  exact ⟨h2.1, (of_decide_eq_true h2.2).1, (of_decide_eq_true h2.2).2⟩

theorem master_parts_nodup (pkg : PPkg) (h : (list_parts pkg).Nodup) :
    (master_parts pkg).Nodup :=
  sortNames_nodup _ (h.filter _)

theorem layout_parts_nodup (pkg : PPkg) (h : (list_parts pkg).Nodup) :
    (layout_parts pkg).Nodup :=
  sortNames_nodup _ (h.filter _)

theorem strip_ne_of_normalized (a b : Name) (ha : NormalizedName a)
    (hb : NormalizedName b) (h : ¬ a = b) :
    ¬ stripLeadingSlash a = stripLeadingSlash b := by
  rw [strip_eq_self_of_normalized a ha, strip_eq_self_of_normalized b hb]
  exact h

theorem rels_part_for_inj (a b : Name) (ha : NormalizedName a)
    (hb : NormalizedName b) (h : rels_part_for a = rels_part_for b) :
    a = b := by
  rw [← sidecar_roundtrip a ha, ← sidecar_roundtrip b hb, h]

theorem map_id_of_mem {β : Type} (l : List β) (f : β → β)
    (h : ∀ a ∈ l, f a = a) : l.map f = l := by
  induction l with
  | nil => rfl
  | cons a t ih =>
    rw [List.map_cons, h a (List.mem_cons_self a t),
      ih (fun b hb => h b (List.mem_cons_of_mem a hb))]

theorem alookup_filter_none {α : Type} (l : List (Name × α))
    (p : Name × α → Bool) (q : Name) (h : alookup l q = none) :
    alookup (l.filter p) q = none := by
  induction l with
  | nil => rfl
  | cons e t ih =>
    obtain ⟨k1, v1⟩ := e
    rw [alookup] at h
    by_cases hk : k1 = q
    · rw [if_pos hk] at h
      cases h
    · rw [if_neg hk] at h
      rw [List.filter_cons]
      by_cases hp : p (k1, v1) = true
      · rw [if_pos hp, alookup, if_neg hk]
        exact ih h
      · rw [if_neg hp]
        exact ih h

theorem read_delete_none {α : Type} (pkg : Pkg α) (n q : Name)
    (h : read_part pkg q = none) :
    read_part (delete_part pkg n) q = none := by
  unfold read_part delete_part
  dsimp only
  unfold read_part at h
  exact alookup_filter_none _ _ _ h

theorem list_parts_write_present {α : Type} (pkg : Pkg α) (n : Name) (d : α)
    (h : has_part pkg n = true) :
    list_parts (write_part pkg n d) = list_parts pkg := by
  unfold list_parts write_part
  dsimp only
  have h' : (alookup pkg.parts (stripLeadingSlash n)).isSome = true := h
  rw [if_pos h']
  exact dictInsert_map_fst_present _ _ _ h'

theorem master_parts_write_present (pkg : PPkg) (n : Name) (d : PartData)
    (h : has_part pkg n = true) :
    master_parts (write_part pkg n d) = master_parts pkg := by
  unfold master_parts
  rw [list_parts_write_present pkg n d h]

theorem filter_filter_ne_drop (names : List Name) (p : Name → Bool)
    (k : Name) (h : ∀ x, p x = true → ¬ x = k) :
    (names.filter (fun o => ¬ o = k)).filter p = names.filter p := by
  induction names with
  | nil => rfl
  | cons a t ih =>
    rw [List.filter_cons]
    by_cases hk : a = k
    · rw [if_neg (by simp [hk])]
      rw [ih, List.filter_cons]
      by_cases hp : p a = true
      · exact absurd hk (h a hp)
      · rw [if_neg hp]
    · rw [if_pos (by simp [hk])]
      rw [List.filter_cons, List.filter_cons]
      by_cases hp : p a = true
      · rw [if_pos hp, if_pos hp, ih]
      · rw [if_neg hp, if_neg hp, ih]

theorem list_parts_delete {α : Type} (pkg : Pkg α) (n : Name) :
    list_parts (delete_part pkg n) =
      (list_parts pkg).filter (fun o => ¬ o = stripLeadingSlash n) := by
  unfold list_parts delete_part
  dsimp only
  exact map_fst_filter_ne _ _

theorem master_parts_delete_other (pkg : PPkg) (n : Name)
    (h : ∀ x, mastersPre.isPrefixOf x = true → xmlSuf.isSuffixOf x = true →
      ¬ x = stripLeadingSlash n) :
    master_parts (delete_part pkg n) = master_parts pkg := by
  unfold master_parts
  rw [list_parts_delete]
  rw [filter_filter_ne_drop _ _ _ (fun x hx =>
    h x (of_decide_eq_true hx).1 (of_decide_eq_true hx).2)]

theorem rels_part_for_normalized (p : Name) (hn : NormalizedName p) :
    NormalizedName (rels_part_for p) := by
  by_cases hne : p = []
  · subst hne
    decide
  · rcases normalized_decomp p hn hne with hns | ⟨d, b, hdb, hb, hbne, hd, hdl, hdh⟩
    · rw [rels_part_for_single p hns hne]
      refine Or.inr (fun s hs => ?_)
      rw [splitSlash_append,
        show splitSlash relsSeg = [relsSeg] from by decide,
        splitSlash_no_slash _ (no_slash_append_relsSuf p hns)] at hs
      rcases List.mem_append.1 hs with hs1 | hs1
      · rw [List.mem_singleton] at hs1
        subst hs1
        decide
      · rw [List.mem_singleton] at hs1
        subst hs1
        intro hnil
        exact hne (List.append_eq_nil.1 hnil).1
    · subst hdb
      rw [rels_part_for_two d b hb hbne hd hdl hdh]
      refine Or.inr (fun s hs => ?_)
      rw [splitSlash_append, splitSlash_append,
        show splitSlash relsSeg = [relsSeg] from by decide,
        splitSlash_no_slash _ (no_slash_append_relsSuf b hb)] at hs
      rcases List.mem_append.1 hs with hs2 | hs2
      · rcases List.mem_append.1 hs2 with hs3 | hs3
        · have hseg := hn.resolve_left hne
          apply hseg
          rw [splitSlash_append]
          exact List.mem_append_left _ hs3
        · rw [List.mem_singleton] at hs3
          subst hs3
          decide
      · rw [List.mem_singleton] at hs2
        subst hs2
        intro hnil
        exact hbne (List.append_eq_nil.1 hnil).1

theorem relMatches_not_any (m l : Name) (S : List Name) (hlS : ¬ l ∈ S)
    (rel : Relationship) (h : relMatches m l rel = true) :
    relMatchesAny m S rel = false := by
  unfold relMatches at h
  have h' := of_decide_eq_true h
  unfold relMatchesAny
  apply decide_eq_false
  intro hc
  rw [h'.2] at hc
  exact hlS hc.2

theorem relMatchesAny_append (m l : Name) (S : List Name)
    (rel : Relationship) :
    relMatchesAny m (S ++ [l]) rel =
      (relMatchesAny m S rel || relMatches m l rel) := by
  unfold relMatchesAny relMatches
  by_cases hs : layoutRelSuf.isSuffixOf rel.type = true
  · by_cases ht : resolve_target (dirname m) rel.target ∈ S
    · simp [hs, ht]
    · by_cases hl2 : resolve_target (dirname m) rel.target = l
      · simp [hs, ht, hl2]
      · simp [hs, ht, hl2]
  · simp [hs]

theorem relMatchesAny_nil (m : Name) (rel : Relationship) :
    relMatchesAny m [] rel = false := by
  unfold relMatchesAny
  apply decide_eq_false
  intro hc
  exact (List.not_mem_nil _) hc.2

theorem filter_match_of_filter_not_any (m l : Name) (S : List Name)
    (hlS : ¬ l ∈ S) (rl : List Relationship) :
    (rl.filter (fun rel => ¬ relMatchesAny m S rel)).filter
      (relMatches m l) = rl.filter (relMatches m l) := by
  rw [List.filter_filter]
  refine List.filter_congr (fun a _ => ?_)
  by_cases h : relMatches m l a = true
  · rw [h, relMatches_not_any m l S hlS a h]
    rfl
  · have h' : relMatches m l a = false := by
      revert h
      cases relMatches m l a <;> simp
    rw [h']
    rfl

theorem filter_not_any_append (m l : Name) (S : List Name)
    (rl : List Relationship) :
    (rl.filter (fun rel => ¬ relMatchesAny m S rel)).filter
      (fun rel => ¬ relMatches m l rel) =
    rl.filter (fun rel => ¬ relMatchesAny m (S ++ [l]) rel) := by
  rw [List.filter_filter]
  refine List.filter_congr (fun a _ => ?_)
  rw [relMatchesAny_append]
  cases hA : relMatchesAny m S a <;> cases hM : relMatches m l a <;> rfl

theorem mem_map_filter_or {β γ : Type} (l : List β) (p q : β → Bool)
    (f : β → γ) (r : γ) :
    r ∈ (l.filter (fun x => p x || q x)).map f ↔
      (r ∈ (l.filter p).map f ∨ r ∈ (l.filter q).map f) := by
  simp only [List.mem_map, List.mem_filter, Bool.or_eq_true]
  constructor
  · rintro ⟨x, ⟨hx, hpq | hpq⟩, hf⟩
    · exact Or.inl ⟨x, ⟨hx, hpq⟩, hf⟩
    · exact Or.inr ⟨x, ⟨hx, hpq⟩, hf⟩
  · rintro (⟨x, ⟨hx, hp⟩, hf⟩ | ⟨x, ⟨hx, hq⟩, hf⟩)
    · exact ⟨x, ⟨hx, Or.inl hp⟩, hf⟩
    · exact ⟨x, ⟨hx, Or.inr hq⟩, hf⟩

theorem ctKeep_append (S : List Name) (l : Name) (cts : List CTEntry) :
    (cts.filter (ctKeepS S)).filter (fun e =>
      match e with
      | CTEntry.ovr q _ => ¬ q = normalize_part_name l
      | CTEntry.dflt _ _ => true) = cts.filter (ctKeepS (S ++ [l])) := by
  rw [List.filter_filter]
  refine List.filter_congr (fun e _ => ?_)
  cases e with
  | dflt a c => rfl
  | ovr q c =>
    by_cases h1 : q = normalize_part_name l
    · by_cases h2 : q ∈ S.map normalize_part_name
      · simp [ctKeepS, h1, h2, List.map_append]
      · simp [ctKeepS, h1, h2, List.map_append]
    · by_cases h2 : q ∈ S.map normalize_part_name
      · simp [ctKeepS, h1, h2, List.map_append]
      · simp [ctKeepS, h1, h2, List.map_append]

theorem MClausesAt_transfer (pkg pa pb : PPkg) (S2 : List Name) (m : Name)
    (h1 : read_part pb m = read_part pa m)
    (h2 : read_part pb (rels_part_for m) = read_part pa (rels_part_for m))
    (h : MClausesAt pkg pa S2 m) : MClausesAt pkg pb S2 m := by
  obtain ⟨ha, hb2, hc⟩ := h
  refine ⟨fun hn => ?_, fun rl hrl => ?_, fun doc hdoc => ?_⟩
  · rw [h2]
    exact ha hn
  · rw [h2]
    exact hb2 rl hrl
  · rw [h1]
    exact hc doc hdoc

theorem PruneInv_refl (pkg : PPkg) : PruneInv pkg pkg [] := by
  refine ⟨⟨rfl, fun h => h, fun cts h => ?_,
      fun x hx => absurd hx (List.not_mem_nil x),
      fun q _ _ _ _ _ => rfl⟩,
    fun m _ => ⟨fun h => h, fun rl hrl => ?_, fun doc hdoc => ?_⟩⟩
  · rw [List.filter_eq_self.2 ?_]
    · exact h
    · intro e _
      cases e with
      | dflt a c => rfl
      | ovr a c => simp [ctKeepS]
  · rw [show rl.filter (fun rel => ¬ relMatchesAny m [] rel) = rl from
      List.filter_eq_self.2 (fun a _ => by rw [relMatchesAny_nil]; rfl)]
    exact hrl
  · have hids : removedIdsFor pkg m [] = [] := by
      unfold removedIdsFor
      rw [List.filter_eq_nil_iff.2 ?_]
      · rfl
      · intro a _
        rw [relMatchesAny_nil]
        simp
    rw [hids]
    have hmap : doc.layoutIds.map (fun lst => lst.filter (entryKeep [])) =
        doc.layoutIds := by
      cases hLst : doc.layoutIds with
      | none => rfl
      | some lst =>
        rw [Option.map_some']
        congr 1
        refine List.filter_eq_self.2 (fun e _ => ?_)
        cases he : e.rid with
        | none => simp [entryKeep, he]
        | some r => simp [entryKeep, he]
    rw [hmap]
    exact hdoc

theorem masterRemoveStep_inv (pkg pkgi : PPkg) (S : List Name) (l m : Name)
    (cnt : Nat) (st2 : Nat × PPkg)
    (hpre : PrunePre pkg)
    (hlS : ¬ l ∈ S)
    (hm : m ∈ master_parts pkg)
    (hmc : MClausesAt pkg pkgi S m)
    (hstep : masterRemoveStep l (cnt, pkgi) m = Except.ok st2) :
    (∀ q, NormalizedName q → ¬ q = m → ¬ q = rels_part_for m →
       read_part st2.2 q = read_part pkgi q) ∧
    master_parts st2.2 = master_parts pkgi ∧
    MClausesAt pkg st2.2 (S ++ [l]) m := by
  obtain ⟨hnodup, hnorm, hmok, hctok⟩ := hpre
  have hmmem := mem_master_parts pkg m hm
  have hmN : NormalizedName m := hnorm m hmmem.1
  have hrN : NormalizedName (rels_part_for m) := rels_part_for_normalized m hmN
  have hmr : ¬ m = rels_part_for m := xml_ne_rels_part m m hmmem.2.2
  have hok := hmok m hm
  cases hread : read_part pkg (rels_part_for m) with
  | none =>
    have hseci : read_part pkgi (rels_part_for m) = none := hmc.1 hread
    have hhp : has_part pkgi (rels_part_for m) = false := by
      rw [has_part_eq_isSome_read, hseci]
      rfl
    unfold masterRemoveStep at hstep
    dsimp only at hstep
    rw [if_neg (show ¬ has_part pkgi (rels_part_for m) = true by
      rw [hhp]; exact Bool.false_ne_true)] at hstep
    have hst := Except.ok.inj hstep
    subst hst
    refine ⟨fun q _ _ _ => rfl, rfl, fun {_} => ?_, fun rl' hrl' => ?_,
      fun doc hdoc => ?_⟩
    · exact hseci
    · rw [hread] at hrl'
      cases hrl'
    · have hside : sidecarRels pkg m = [] := by
        unfold sidecarRels
        rw [hread]
      have hids : removedIdsFor pkg m (S ++ [l]) = removedIdsFor pkg m S := by
        unfold removedIdsFor
        rw [hside]
        rfl
      rw [hids]
      exact hmc.2.2 doc hdoc
  | some d =>
    cases d with
    | relsD rl =>
      have hnormed : ∀ rel ∈ rl, normTargetMode rel = rel := by
        have h1 := hok.1
        unfold sidecarOkB at h1
        rw [hread] at h1
        dsimp only at h1
        unfold relsNormedB at h1
        intro rel hrel
        exact of_decide_eq_true (List.all_eq_true.1 h1 rel hrel)
      have hsideRl : sidecarRels pkg m = rl := by
        unfold sidecarRels
        rw [hread]
      have hseci : read_part pkgi (rels_part_for m) =
          some (PartData.relsD
            (rl.filter (fun rel => ¬ relMatchesAny m S rel))) :=
        hmc.2.1 rl hread
      have hhp : has_part pkgi (rels_part_for m) = true := by
        rw [has_part_eq_isSome_read, hseci]
        rfl
      have hfil := filter_match_of_filter_not_any m l S hlS rl
      unfold masterRemoveStep at hstep
      dsimp only at hstep
      rw [if_pos hhp] at hstep
      rw [show read_partE pkgi (rels_part_for m) = Except.ok (PartData.relsD
          (rl.filter (fun rel => ¬ relMatchesAny m S rel))) from by
        unfold read_partE; rw [hseci], except_bind_ok2] at hstep
      rw [show parse_relationships (PartData.relsD
          (rl.filter (fun rel => ¬ relMatchesAny m S rel))) = Except.ok
          (rl.filter (fun rel => ¬ relMatchesAny m S rel)) from rfl,
        except_bind_ok2] at hstep
      by_cases hR : rl.filter (relMatches m l) = []
      · rw [hfil, hR, List.map_nil] at hstep
        rw [if_pos rfl] at hstep
        have hst := Except.ok.inj hstep
        subst hst
        have hnomatch : ∀ a ∈ rl, relMatches m l a = false := by
          intro a ha
          have := List.filter_eq_nil_iff.1 hR a ha
          revert this
          cases relMatches m l a <;> simp
        refine ⟨fun q _ _ _ => rfl, rfl, fun h0 => ?_, fun rl' hrl' => ?_,
          fun doc hdoc => ?_⟩
        · rw [h0] at hread
          cases hread
        · rw [hread] at hrl'
          injection hrl' with h1
          injection h1 with h2
          subst h2
          rw [← filter_not_any_append m l S rl,
            List.filter_eq_self.2 (fun a ha => ?_)]
          · exact hseci
          · have hamem := (List.mem_filter.1 ha).1
            rw [hnomatch a hamem]
            rfl
        · have hids : removedIdsFor pkg m (S ++ [l]) =
              removedIdsFor pkg m S := by
            unfold removedIdsFor
            rw [hsideRl]
            rw [List.filter_congr (fun a _ => relMatchesAny_append m l S a)]
            rw [List.filter_congr (fun a ha => by
              rw [hnomatch a ha, Bool.or_false])]
          rw [hids]
          exact hmc.2.2 doc hdoc
      · have hRne : ¬ ((rl.filter (fun rel =>
            ¬ relMatchesAny m S rel)).filter
              (relMatches m l)).map (fun r => r.id) = [] := by
          rw [hfil]
          intro h0
          exact hR (List.map_eq_nil_iff.1 h0)
        rw [if_neg hRne] at hstep
        have hok2 := hok.2
        unfold masterOkB at hok2
        cases hMd : read_part pkg m with
        | none =>
          rw [hMd] at hok2
          dsimp only at hok2
          exact Bool.noConfusion hok2
        | some dm =>
          cases dm with
          | masterD doc0 =>
            have hdoci : read_part pkgi m = some (PartData.masterD
                { layoutIds := doc0.layoutIds.map (fun lst =>
                    lst.filter (entryKeep (removedIdsFor pkg m S))),
                  payload := doc0.payload }) := hmc.2.2 doc0 hMd
            have hWread : read_part (write_part pkgi (rels_part_for m)
                (serialize_relationships ((rl.filter (fun rel =>
                  ¬ relMatchesAny m S rel)).filter
                    (fun rel => ¬ relMatches m l rel)))) m =
                read_part pkgi m :=
              read_write_other pkgi (rels_part_for m) m _
                (strip_ne_of_normalized m (rels_part_for m) hmN hrN hmr)
            rw [show read_partE (write_part pkgi (rels_part_for m)
                (serialize_relationships ((rl.filter (fun rel =>
                  ¬ relMatchesAny m S rel)).filter
                    (fun rel => ¬ relMatches m l rel)))) m = Except.ok
                (PartData.masterD
                  { layoutIds := doc0.layoutIds.map (fun lst =>
                      lst.filter (entryKeep (removedIdsFor pkg m S))),
                    payload := doc0.payload }) from by
              unfold read_partE; rw [hWread, hdoci], except_bind_ok2] at hstep
            dsimp only at hstep
            have hst := Except.ok.inj hstep
            subst hst
            have hWhas : has_part (write_part pkgi (rels_part_for m)
                (serialize_relationships ((rl.filter (fun rel =>
                  ¬ relMatchesAny m S rel)).filter
                    (fun rel => ¬ relMatches m l rel)))) m = true := by
              rw [has_part_eq_isSome_read, hWread, hdoci]
              rfl
            refine ⟨fun q hqN hqm hqr => ?_, ?_, fun h0 => ?_,
              fun rl' hrl' => ?_, fun doc hdoc => ?_⟩
            · show read_part (write_part _ m _) q = read_part pkgi q
              rw [read_write_other _ m q _
                (strip_ne_of_normalized q m hqN hmN hqm)]
              exact read_write_other pkgi (rels_part_for m) q _
                (strip_ne_of_normalized q (rels_part_for m) hqN hrN hqr)
            · show master_parts (write_part _ m _) = master_parts pkgi
              rw [master_parts_write_present _ m _ hWhas]
              exact master_parts_write_present _ (rels_part_for m) _ hhp
            · rw [h0] at hread
              cases hread
            · rw [hread] at hrl'
              injection hrl' with h1
              injection h1 with h2
              subst h2
              show read_part (write_part _ m _) (rels_part_for m) = _
              rw [read_write_other _ m (rels_part_for m) _
                (strip_ne_of_normalized (rels_part_for m) m hrN hmN
                  (fun hEq => hmr hEq.symm))]
              rw [read_write_self]
              unfold serialize_relationships
              rw [map_id_of_mem _ _ (fun a ha => hnormed a
                  (List.mem_filter.1 (List.mem_filter.1 ha).1).1),
                filter_not_any_append]
            · rw [hMd] at hdoc
              injection hdoc with h1
              injection h1 with h2
              subst h2
              show read_part (write_part _ m _) m = _
              rw [read_write_self]
              have hmemiff : ∀ r : Name, r ∈ removedIdsFor pkg m (S ++ [l]) ↔
                  (r ∈ removedIdsFor pkg m S ∨
                   r ∈ ((rl.filter (fun rel =>
                     ¬ relMatchesAny m S rel)).filter
                       (relMatches m l)).map (fun q2 => q2.id)) := by
                intro r
                unfold removedIdsFor
                rw [hsideRl, hfil]
                rw [List.filter_congr (fun a _ =>
                  relMatchesAny_append m l S a)]
                exact mem_map_filter_or rl _ _ _ r
              cases hL : doc0.layoutIds with
              | none => rfl
              | some lst =>
                simp only [Option.map_some']
                have hlist : (lst.filter
                    (entryKeep (removedIdsFor pkg m S))).filter
                    (fun e => match e.rid with
                      | some r => ¬ r ∈ (((rl.filter (fun rel =>
                          ¬ relMatchesAny m S rel)).filter
                            (relMatches m l)).map (fun r2 => r2.id))
                      | none => true) =
                    lst.filter (entryKeep (removedIdsFor pkg m (S ++ [l]))) := by
                  rw [List.filter_filter]
                  refine List.filter_congr (fun e _ => ?_)
                  cases he : e.rid with
                  | none => simp [entryKeep, he]
                  | some r =>
                    by_cases hA : r ∈ removedIdsFor pkg m S
                    · by_cases hB : r ∈ ((rl.filter (fun rel =>
                          ¬ relMatchesAny m S rel)).filter
                            (relMatches m l)).map (fun q2 => q2.id)
                      · simp [entryKeep, he, hA, hB, hmemiff]
                      · simp [entryKeep, he, hA, hB, hmemiff]
                    · by_cases hB : r ∈ ((rl.filter (fun rel =>
                          ¬ relMatchesAny m S rel)).filter
                            (relMatches m l)).map (fun q2 => q2.id)
                      · simp [entryKeep, he, hA, hB, hmemiff]
                      · simp [entryKeep, he, hA, hB, hmemiff]
                rw [hlist]
          | relsD x =>
            rw [hMd] at hok2
            dsimp only at hok2
            exact Bool.noConfusion hok2
          | presD x =>
            rw [hMd] at hok2
            dsimp only at hok2
            exact Bool.noConfusion hok2
          | slideD x =>
            rw [hMd] at hok2
            dsimp only at hok2
            exact Bool.noConfusion hok2
          | layoutD x =>
            rw [hMd] at hok2
            dsimp only at hok2
            exact Bool.noConfusion hok2
          | ctD x =>
            rw [hMd] at hok2
            dsimp only at hok2
            exact Bool.noConfusion hok2
          | blobD x =>
            rw [hMd] at hok2
            dsimp only at hok2
            exact Bool.noConfusion hok2
    | presD x =>
      have h1 := hok.1
      unfold sidecarOkB at h1
      rw [hread] at h1
      dsimp only at h1
      exact Bool.noConfusion h1
    | masterD x =>
      have h1 := hok.1
      unfold sidecarOkB at h1
      rw [hread] at h1
      dsimp only at h1
      exact Bool.noConfusion h1
    | slideD x =>
      have h1 := hok.1
      unfold sidecarOkB at h1
      rw [hread] at h1
      dsimp only at h1
      exact Bool.noConfusion h1
    | layoutD x =>
      have h1 := hok.1
      unfold sidecarOkB at h1
      rw [hread] at h1
      dsimp only at h1
      exact Bool.noConfusion h1
    | ctD x =>
      have h1 := hok.1
      unfold sidecarOkB at h1
      rw [hread] at h1
      dsimp only at h1
      exact Bool.noConfusion h1
    | blobD x =>
      have h1 := hok.1
      unfold sidecarOkB at h1
      rw [hread] at h1
      dsimp only at h1
      exact Bool.noConfusion h1

theorem mastersFold_inv (pkg : PPkg) (S : List Name) (l : Name)
    (hpre : PrunePre pkg) (hlS : ¬ l ∈ S)
    (hS : ∀ x ∈ S, x ∈ layout_parts pkg)
    (todo : List Name) :
    ∀ (done : List Name) (pkgi : PPkg) (cnt : Nat) (res : Nat × PPkg),
    done ++ todo = master_parts pkg →
    RestClauses pkg pkgi S →
    (∀ m ∈ done, MClausesAt pkg pkgi (S ++ [l]) m) →
    (∀ m ∈ todo, MClausesAt pkg pkgi S m) →
    todo.foldlM (masterRemoveStep l) (cnt, pkgi) = Except.ok res →
    RestClauses pkg res.2 S ∧
    (∀ m ∈ master_parts pkg, MClausesAt pkg res.2 (S ++ [l]) m) := by
  induction todo with
  | nil =>
    intro done pkgi cnt res hsplit hrest hdone _ hfold
    rw [List.foldlM_nil] at hfold
    have hres := Except.ok.inj hfold
    subst hres
    rw [List.append_nil] at hsplit
    exact ⟨hrest, fun m hm => hdone m (by rw [hsplit]; exact hm)⟩
  | cons m t ih =>
    intro done pkgi cnt res hsplit hrest hdone htodo hfold
    rw [List.foldlM_cons] at hfold
    cases hstep1 : masterRemoveStep l (cnt, pkgi) m with
    | error e =>
      rw [hstep1, except_bind_error] at hfold
      cases hfold
    | ok st1 =>
      rw [hstep1, except_bind_ok] at hfold
      have hmmem : m ∈ master_parts pkg := by
        rw [← hsplit]
        exact List.mem_append_right done (List.mem_cons_self m t)
      obtain ⟨hframe, hmp1, hmcNew⟩ :=
        masterRemoveStep_inv pkg pkgi S l m cnt st1 hpre hlS hmmem
          (htodo m (List.mem_cons_self m t)) hstep1
      have hnodupM : (master_parts pkg).Nodup := master_parts_nodup pkg hpre.1
      have hndsplit : (done ++ m :: t).Nodup := by
        rw [hsplit]
        exact hnodupM
      obtain ⟨hd1, hd2, hdis⟩ := List.nodup_append.1 hndsplit
      have hmnotdone : ¬ m ∈ done :=
        fun hmem => hdis hmem (List.mem_cons_self m t)
      have hmnott : ¬ m ∈ t := (List.nodup_cons.1 hd2).1
      have hnorm := hpre.2.1
      have hmemm := mem_master_parts pkg m hmmem
      have hmN : NormalizedName m := hnorm m hmemm.1
      have htrans : ∀ m2, m2 ∈ master_parts pkg → ¬ m2 = m →
          read_part st1.2 m2 = read_part pkgi m2 ∧
          read_part st1.2 (rels_part_for m2) =
            read_part pkgi (rels_part_for m2) := by
        intro m2 hm2 hne
        have hmem2 := mem_master_parts pkg m2 hm2
        have hm2N : NormalizedName m2 := hnorm m2 hmem2.1
        refine ⟨hframe m2 hm2N hne (xml_ne_rels_part m2 m hmem2.2.2),
          hframe (rels_part_for m2) (rels_part_for_normalized m2 hm2N)
            ?_ ?_⟩
        · exact fun hEq => (xml_ne_rels_part m m2 hmemm.2.2) hEq.symm
        · intro hEq
          exact hne (rels_part_for_inj m2 m hm2N hmN hEq)
      have hrest1 : RestClauses pkg st1.2 S := by
        obtain ⟨hmp, hctn, hcts, hdel, hfr⟩ := hrest
        have hctRead : read_part st1.2 ctName = read_part pkgi ctName :=
          hframe ctName (by decide)
            (fun hEq => (master_ne_ct m hmemm.2.1) hEq.symm)
            (fun hEq => (rels_part_ne_ct m) hEq.symm)
        refine ⟨by rw [hmp1]; exact hmp,
          fun h => by rw [hctRead]; exact hctn h,
          fun cts h => by rw [hctRead]; exact hcts cts h,
          fun x hx => ?_, fun q hqN hqS hqR hqM hqC => ?_⟩
        · have hxmem := mem_layout_parts pkg x (hS x hx)
          have hxN : NormalizedName x := hnorm x hxmem.1
          constructor
          · rw [hframe x hxN (layout_ne_master x m hxmem.2.1 hmemm.2.1)
              (xml_ne_rels_part x m hxmem.2.2)]
            exact (hdel x hx).1
          · rw [hframe (rels_part_for x) (rels_part_for_normalized x hxN)
              (fun hEq => (xml_ne_rels_part m x hmemm.2.2) hEq.symm)
              (fun hEq => (layout_ne_master x m hxmem.2.1 hmemm.2.1)
                (rels_part_for_inj x m hxN hmN hEq))]
            exact (hdel x hx).2
        · rw [hframe q hqN (hqM m hmmem).1 (hqM m hmmem).2]
          exact hfr q hqN hqS hqR hqM hqC
      have hdone1 : ∀ m2 ∈ done ++ [m],
          MClausesAt pkg st1.2 (S ++ [l]) m2 := by
        intro m2 hm2
        rcases List.mem_append.1 hm2 with h2 | h2
        · have hm2mem : m2 ∈ master_parts pkg := by
            rw [← hsplit]
            exact List.mem_append_left _ h2
          have hne : ¬ m2 = m := fun hEq => hmnotdone (hEq ▸ h2)
          have ht := htrans m2 hm2mem hne
          exact MClausesAt_transfer pkg pkgi st1.2 (S ++ [l]) m2 ht.1 ht.2
            (hdone m2 h2)
        · rw [List.mem_singleton] at h2
          subst h2
          exact hmcNew
      have htodo1 : ∀ m2 ∈ t, MClausesAt pkg st1.2 S m2 := by
        intro m2 h2
        have hm2mem : m2 ∈ master_parts pkg := by
          rw [← hsplit]
          exact List.mem_append_right _ (List.mem_cons_of_mem m h2)
        have hne : ¬ m2 = m := fun hEq => hmnott (hEq ▸ h2)
        have ht := htrans m2 hm2mem hne
        exact MClausesAt_transfer pkg pkgi st1.2 S m2 ht.1 ht.2
          (htodo m2 (List.mem_cons_of_mem m h2))
      refine ih (done ++ [m]) st1.2 st1.1 res ?_ hrest1 hdone1 htodo1 ?_
      · rw [List.append_assoc]
        exact hsplit
      · exact hfold

theorem pruneAssemble (pkg pkgM pkgB pkgF : PPkg) (S : List Name) (l : Name)
    (hpre : PrunePre pkg)
    (hl : l ∈ layout_parts pkg) (hlS : ¬ l ∈ S)
    (hS : ∀ x ∈ S, x ∈ layout_parts pkg)
    (hrestM : RestClauses pkg pkgM S)
    (hMs : ∀ m ∈ master_parts pkg, MClausesAt pkg pkgM (S ++ [l]) m)
    (hBl : read_part pkgB l = none)
    (hBr : read_part pkgB (rels_part_for l) = none)
    (hBother : ∀ q, NormalizedName q → ¬ q = l → ¬ q = rels_part_for l →
       read_part pkgB q = read_part pkgM q)
    (hBmp : master_parts pkgB = master_parts pkgM)
    (hFct_none : read_part pkg ctName = none → read_part pkgF ctName = none)
    (hFct_some : ∀ cts, read_part pkg ctName = some (PartData.ctD cts) →
       read_part pkgF ctName =
         some (PartData.ctD (cts.filter (ctKeepS (S ++ [l])))))
    (hFother : ∀ q, NormalizedName q → ¬ q = ctName →
       read_part pkgF q = read_part pkgB q)
    (hFmp : master_parts pkgF = master_parts pkgB) :
    PruneInv pkg pkgF (S ++ [l]) := by
  obtain ⟨hmp, _hctn, _hcts, hdel, hfr⟩ := hrestM
  have hnorm := hpre.2.1
  have hlmem := mem_layout_parts pkg l hl
  have hlN : NormalizedName l := hnorm l hlmem.1
  refine ⟨⟨(hFmp.trans hBmp).trans hmp, hFct_none, hFct_some,
    fun x hx => ?_, fun q hqN hqS hqR hqM hqC => ?_⟩,
    fun m hm => ?_⟩
  · rcases List.mem_append.1 hx with hx1 | hx1
    · have hxmem := mem_layout_parts pkg x (hS x hx1)
      have hxN : NormalizedName x := hnorm x hxmem.1
      have hxl : ¬ x = l := fun hEq => hlS (hEq ▸ hx1)
      constructor
      · rw [hFother x hxN (layout_ne_ct x hxmem.2.1),
          hBother x hxN hxl (xml_ne_rels_part x l hxmem.2.2)]
        exact (hdel x hx1).1
      · rw [hFother (rels_part_for x) (rels_part_for_normalized x hxN)
            (rels_part_ne_ct x),
          hBother (rels_part_for x) (rels_part_for_normalized x hxN)
            (fun hEq => (xml_ne_rels_part l x hlmem.2.2) hEq.symm)
            (fun hEq => hxl (rels_part_for_inj x l hxN hlN hEq))]
        exact (hdel x hx1).2
    · rw [List.mem_singleton] at hx1
      subst hx1
      constructor
      · rw [hFother x hlN (layout_ne_ct x hlmem.2.1)]
        exact hBl
      · rw [hFother (rels_part_for x) (rels_part_for_normalized x hlN)
          (rels_part_ne_ct x)]
        exact hBr
  · have hql : ¬ q = l := fun hEq => hqS (by
      rw [hEq]
      exact List.mem_append_right S (List.mem_singleton_self l))
    have hqr : ¬ q = rels_part_for l := fun hEq => hqR (by
      rw [List.map_append]
      refine List.mem_append_right _ ?_
      rw [List.map_singleton, List.mem_singleton]
      exact hEq)
    rw [hFother q hqN hqC, hBother q hqN hql hqr]
    exact hfr q hqN (fun h => hqS (List.mem_append_left _ h))
      (fun h => hqR (by rw [List.map_append]; exact List.mem_append_left _ h))
      hqM hqC
  · have hmmem := mem_master_parts pkg m hm
    have hmN : NormalizedName m := hnorm m hmmem.1
    have h1 : read_part pkgF m = read_part pkgM m := by
      rw [hFother m hmN (master_ne_ct m hmmem.2.1),
        hBother m hmN (fun hEq => (layout_ne_master l m hlmem.2.1
          hmmem.2.1) hEq.symm) (xml_ne_rels_part m l hmmem.2.2)]
    have h2 : read_part pkgF (rels_part_for m) =
        read_part pkgM (rels_part_for m) := by
      rw [hFother (rels_part_for m) (rels_part_for_normalized m hmN)
          (rels_part_ne_ct m),
        hBother (rels_part_for m) (rels_part_for_normalized m hmN)
          (fun hEq => (xml_ne_rels_part l m hlmem.2.2) hEq.symm)
          (fun hEq => (layout_ne_master l m hlmem.2.1 hmmem.2.1)
            (rels_part_for_inj m l hmN hlN hEq).symm)]
    exact MClausesAt_transfer pkg pkgM pkgF (S ++ [l]) m h1 h2 (hMs m hm)

theorem pruneTail_inv (pkg pkgM pkgB : PPkg) (S : List Name) (l : Name)
    (ro : Bool × PPkg)
    (hpre : PrunePre pkg)
    (hl : l ∈ layout_parts pkg) (hlS : ¬ l ∈ S)
    (hS : ∀ x ∈ S, x ∈ layout_parts pkg)
    (hrestM : RestClauses pkg pkgM S)
    (hMs : ∀ m ∈ master_parts pkg, MClausesAt pkg pkgM (S ++ [l]) m)
    (hBl : read_part pkgB l = none)
    (hBr : read_part pkgB (rels_part_for l) = none)
    (hBother : ∀ q, NormalizedName q → ¬ q = l → ¬ q = rels_part_for l →
       read_part pkgB q = read_part pkgM q)
    (hBmp : master_parts pkgB = master_parts pkgM)
    (hRO : remove_override pkgB l = Except.ok ro) :
    PruneInv pkg ro.2 (S ++ [l]) := by
  have hctok := hpre.2.2.2
  unfold ctOkB at hctok
  have hlmem := mem_layout_parts pkg l hl
  have hctne_l : ¬ (ctName : Name) = l :=
    fun hEq => (layout_ne_ct l hlmem.2.1) hEq.symm
  have hctne_r : ¬ (ctName : Name) = rels_part_for l :=
    fun hEq => (rels_part_ne_ct l) hEq.symm
  cases hctRead : read_part pkg ctName with
  | none =>
    have hMct : read_part pkgM ctName = none := hrestM.2.1 hctRead
    have hBct : read_part pkgB ctName = none := by
      rw [hBother ctName (by decide) hctne_l hctne_r]
      exact hMct
    have hw : has_part pkgB ctName = false := by
      rw [has_part_eq_isSome_read, hBct]
      rfl
    unfold remove_override at hRO
    rw [if_neg (show ¬ has_part pkgB ctName = true by
      rw [hw]; exact Bool.false_ne_true)] at hRO
    have hro := Except.ok.inj hRO
    subst hro
    exact pruneAssemble pkg pkgM pkgB pkgB S l hpre hl hlS hS hrestM hMs
      hBl hBr hBother hBmp (fun _ => hBct)
      (fun cts h => by rw [hctRead] at h; cases h)
      (fun q _ _ => rfl) rfl
  | some dct =>
    rw [hctRead] at hctok
    cases dct with
    | ctD cts =>
      have hMct : read_part pkgM ctName =
          some (PartData.ctD (cts.filter (ctKeepS S))) :=
        hrestM.2.2.1 cts hctRead
      have hBct : read_part pkgB ctName =
          some (PartData.ctD (cts.filter (ctKeepS S))) := by
        rw [hBother ctName (by decide) hctne_l hctne_r]
        exact hMct
      have hw : has_part pkgB ctName = true := by
        rw [has_part_eq_isSome_read, hBct]
        rfl
      unfold remove_override at hRO
      rw [if_pos hw] at hRO
      rw [show read_ct pkgB = Except.ok (cts.filter (ctKeepS S)) from by
        unfold read_ct read_partE
        rw [hBct]
        rfl, except_bind_ok] at hRO
      dsimp only at hRO
      by_cases hov : ct_has_override (cts.filter (ctKeepS S))
          (normalize_part_name l) = true
      · rw [if_pos hov] at hRO
        have hro := Except.ok.inj hRO
        subst hro
        refine pruneAssemble pkg pkgM pkgB _ S l hpre hl hlS hS hrestM hMs
          hBl hBr hBother hBmp ?_ ?_ ?_ ?_
        · intro h
          rw [hctRead] at h
          cases h
        · intro cts2 h
          rw [hctRead] at h
          injection h with h1
          injection h1 with h2
          subst h2
          show read_part (write_part pkgB ctName _) ctName = _
          rw [read_write_self, ctKeep_append]
        · intro q hqN hqC
          exact read_write_other pkgB ctName q _
            (strip_ne_of_normalized q ctName hqN (by decide) hqC)
        · exact master_parts_write_present pkgB ctName _ hw
      · rw [if_neg hov] at hRO
        have hro := Except.ok.inj hRO
        subst hro
        have hkeep : (cts.filter (ctKeepS S)).filter (fun e =>
            match e with
            | CTEntry.ovr q _ => ¬ q = normalize_part_name l
            | CTEntry.dflt _ _ => true) = cts.filter (ctKeepS S) := by
          refine List.filter_eq_self.2 (fun e he => ?_)
          cases e with
          | dflt a c => rfl
          | ovr qn c =>
            have hne : ¬ qn = normalize_part_name l := by
              intro hEq
              apply hov
              unfold ct_has_override
              exact List.any_eq_true.2 ⟨CTEntry.ovr qn c, he,
                decide_eq_true hEq⟩
            exact decide_eq_true hne
        refine pruneAssemble pkg pkgM pkgB pkgB S l hpre hl hlS hS hrestM
          hMs hBl hBr hBother hBmp ?_ ?_ (fun q _ _ => rfl) rfl
        · intro h
          rw [hctRead] at h
          cases h
        · intro cts2 h
          rw [hctRead] at h
          injection h with h1
          injection h1 with h2
          subst h2
          rw [hBct, ← ctKeep_append S l cts, hkeep]
    | relsD x =>
      dsimp only at hctok
      exact Bool.noConfusion hctok
    | presD x =>
      dsimp only at hctok
      exact Bool.noConfusion hctok
    | masterD x =>
      dsimp only at hctok
      exact Bool.noConfusion hctok
    | slideD x =>
      dsimp only at hctok
      exact Bool.noConfusion hctok
    | layoutD x =>
      dsimp only at hctok
      exact Bool.noConfusion hctok
    | blobD x =>
      dsimp only at hctok
      exact Bool.noConfusion hctok

theorem pruneStep_inv (pkg pkgi : PPkg) (S : List Name) (l : Name)
    (cnt : Nat) (res : PPkg × Nat)
    (hpre : PrunePre pkg)
    (hl : l ∈ layout_parts pkg) (hlS : ¬ l ∈ S)
    (hS : ∀ x ∈ S, x ∈ layout_parts pkg)
    (hinv : PruneInv pkg pkgi S)
    (hstep : pruneStep (pkgi, cnt) l = Except.ok res) :
    PruneInv pkg res.1 (S ++ [l]) := by
  obtain ⟨hrest, hmcs⟩ := hinv
  unfold pruneStep remove_layout_from_masters at hstep
  dsimp only at hstep
  rw [hrest.1] at hstep
  cases hfold : (master_parts pkg).foldlM (masterRemoveStep l) (0, pkgi) with
  | error e =>
    rw [hfold, except_bind_error2] at hstep
    cases hstep
  | ok mres =>
    rw [hfold, except_bind_ok2] at hstep
    obtain ⟨hrestM, hMs⟩ := mastersFold_inv pkg S l hpre hlS hS
      (master_parts pkg) [] pkgi 0 mres rfl hrest
      (fun m hm => absurd hm (List.not_mem_nil m)) hmcs hfold
    have hlmem := mem_layout_parts pkg l hl
    have hlN : NormalizedName l := hpre.2.1 l hlmem.1
    have hlrN := rels_part_for_normalized l hlN
    have hAl : read_part (delete_part mres.2 l) l = none :=
      read_delete_self mres.2 l
    have hAmp : master_parts (delete_part mres.2 l) =
        master_parts mres.2 :=
      master_parts_delete_other mres.2 l (fun x hx _ => by
        rw [strip_eq_self_of_normalized l hlN]
        exact fun hEq => (layout_ne_master l x hlmem.2.1 hx) hEq.symm)
    by_cases hhB : has_part (delete_part mres.2 l) (rels_part_for l) = true
    · rw [if_pos hhB] at hstep
      have hBl : read_part (delete_part (delete_part mres.2 l)
          (rels_part_for l)) l = none :=
        read_delete_none _ (rels_part_for l) l hAl
      have hBr : read_part (delete_part (delete_part mres.2 l)
          (rels_part_for l)) (rels_part_for l) = none :=
        read_delete_self _ _
      have hBother : ∀ q, NormalizedName q → ¬ q = l →
          ¬ q = rels_part_for l →
          read_part (delete_part (delete_part mres.2 l)
            (rels_part_for l)) q = read_part mres.2 q := by
        intro q hqN hql hqr
        rw [read_delete_other _ (rels_part_for l) q
          (strip_ne_of_normalized q (rels_part_for l) hqN hlrN hqr)]
        exact read_delete_other mres.2 l q
          (strip_ne_of_normalized q l hqN hlN hql)
      have hBmp : master_parts (delete_part (delete_part mres.2 l)
          (rels_part_for l)) = master_parts mres.2 := by
        rw [master_parts_delete_other _ (rels_part_for l) (fun x _ hx2 => by
          rw [strip_eq_self_of_normalized _ hlrN]
          exact xml_ne_rels_part x l hx2)]
        exact hAmp
      cases hRO : remove_override (delete_part (delete_part mres.2 l)
          (rels_part_for l)) l with
      | error e =>
        rw [hRO, except_bind_error2] at hstep
        cases hstep
      | ok ro =>
        rw [hRO, except_bind_ok2] at hstep
        have hres := Except.ok.inj hstep
        subst hres
        exact pruneTail_inv pkg mres.2 _ S l ro hpre hl hlS hS hrestM hMs
          hBl hBr hBother hBmp hRO
    · rw [if_neg hhB] at hstep
      have hBr : read_part (delete_part mres.2 l) (rels_part_for l) =
          none := by
        cases hx : read_part (delete_part mres.2 l) (rels_part_for l) with
        | none => rfl
        | some v =>
          exfalso
          apply hhB
          rw [has_part_eq_isSome_read, hx]
          rfl
      have hBother : ∀ q, NormalizedName q → ¬ q = l →
          ¬ q = rels_part_for l →
          read_part (delete_part mres.2 l) q = read_part mres.2 q := by
        intro q hqN hql _
        exact read_delete_other mres.2 l q
          (strip_ne_of_normalized q l hqN hlN hql)
      cases hRO : remove_override (delete_part mres.2 l) l with
      | error e =>
        rw [hRO, except_bind_error2] at hstep
        cases hstep
      | ok ro =>
        rw [hRO, except_bind_ok2] at hstep
        have hres := Except.ok.inj hstep
        subst hres
        exact pruneTail_inv pkg mres.2 _ S l ro hpre hl hlS hS hrestM hMs
          hAl hBr hBother hAmp hRO

theorem pruneFold_inv (pkg : PPkg) (hpre : PrunePre pkg) (rem : List Name) :
    ∀ (S : List Name) (pkgi : PPkg) (cnt : Nat) (res : PPkg × Nat),
    (∀ x ∈ rem, x ∈ layout_parts pkg) →
    (∀ x ∈ rem, ¬ x ∈ S) →
    rem.Nodup →
    (∀ x ∈ S, x ∈ layout_parts pkg) →
    PruneInv pkg pkgi S →
    rem.foldlM pruneStep (pkgi, cnt) = Except.ok res →
    PruneInv pkg res.1 (S ++ rem) := by
  induction rem with
  | nil =>
    intro S pkgi cnt res _ _ _ _ hinv hfold
    rw [List.foldlM_nil] at hfold
    have h := Except.ok.inj hfold
    subst h
    rw [List.append_nil]
    exact hinv
  | cons l t ih =>
    intro S pkgi cnt res hrem hremS hnd hs hinv hfold
    rw [List.foldlM_cons] at hfold
    cases h1 : pruneStep (pkgi, cnt) l with
    | error e =>
      rw [h1, except_bind_error] at hfold
      cases hfold
    | ok st1 =>
      rw [h1, except_bind_ok] at hfold
      have hinv1 := pruneStep_inv pkg pkgi S l cnt st1 hpre
        (hrem l (List.mem_cons_self l t)) (hremS l (List.mem_cons_self l t))
        hs hinv h1
      have hfin := ih (S ++ [l]) st1.1 st1.2 res
        (fun x hx => hrem x (List.mem_cons_of_mem l hx))
        (fun x hx hmem => by
          rcases List.mem_append.1 hmem with h2 | h2
          · exact hremS x (List.mem_cons_of_mem l hx) h2
          · rw [List.mem_singleton] at h2
            exact (List.nodup_cons.1 hnd).1 (h2 ▸ hx))
        (List.nodup_cons.1 hnd).2
        (fun x hx => by
          rcases List.mem_append.1 hx with h2 | h2
          · exact hs x h2
          · rw [List.mem_singleton] at h2
            subst h2
            exact hrem x (List.mem_cons_self x t))
        hinv1 hfold
      rw [List.append_assoc] at hfin
      exact hfin

theorem relMatches_any_of_mem (m l : Name) (U : List Name) (hlU : l ∈ U)
    (rel : Relationship) (h : relMatches m l rel = true) :
    relMatchesAny m U rel = true := by
  have h' := of_decide_eq_true h
  exact decide_eq_true ⟨h'.1, by rw [h'.2]; exact hlU⟩

theorem ct_has_override_filter_kept (U : List Name) (lk : Name)
    (hinj : ¬ normalize_part_name lk ∈ U.map normalize_part_name)
    (cts : List CTEntry) :
    ct_has_override (cts.filter (ctKeepS U)) (normalize_part_name lk) =
      ct_has_override cts (normalize_part_name lk) := by
  induction cts with
  | nil => rfl
  | cons e t ih =>
    cases e with
    | dflt a c =>
      rw [List.filter_cons]
      rw [if_pos (by rw [show ctKeepS U (CTEntry.dflt a c) = true from rfl])]
      unfold ct_has_override
      rw [List.any_cons, List.any_cons]
      unfold ct_has_override at ih
      rw [ih]
    | ovr q c =>
      rw [List.filter_cons]
      by_cases hkeep : ctKeepS U (CTEntry.ovr q c) = true
      · rw [if_pos hkeep]
        unfold ct_has_override
        rw [List.any_cons, List.any_cons]
        unfold ct_has_override at ih
        rw [ih]
      · rw [if_neg hkeep]
        have hqm : q ∈ U.map normalize_part_name := by
          by_contra hq
          exact hkeep (decide_eq_true hq)
        have hqne : ¬ q = normalize_part_name lk :=
          fun hEq => hinj (hEq ▸ hqm)
        unfold ct_has_override
        rw [List.any_cons]
        dsimp only
        rw [show (decide (q = normalize_part_name lk)) = false from
          decide_eq_false hqne]
        rw [Bool.false_or]
        unfold ct_has_override at ih
        rw [ih]

theorem ct_has_override_filter_removed (U : List Name) (l : Name)
    (hmem : normalize_part_name l ∈ U.map normalize_part_name)
    (cts : List CTEntry) :
    ct_has_override (cts.filter (ctKeepS U)) (normalize_part_name l) =
      false := by
  unfold ct_has_override
  rw [List.any_eq_false]
  intro e he
  have hkeep := (List.mem_filter.1 he).2
  cases e with
  | dflt a c => simp
  | ovr q c =>
    intro hq
    have hq2 := of_decide_eq_true hq
    unfold ctKeepS at hkeep
    exact (of_decide_eq_true hkeep) (hq2 ▸ hmem)

theorem has_override_final_removed (pkg pkg2 : PPkg) (U : List Name)
    (l : Name)
    (hct : ctOkB pkg = true)
    (hctn : read_part pkg ctName = none → read_part pkg2 ctName = none)
    (hcts : ∀ cts, read_part pkg ctName = some (PartData.ctD cts) →
       read_part pkg2 ctName = some (PartData.ctD (cts.filter (ctKeepS U))))
    (hlU : l ∈ U) :
    has_override pkg2 l = Except.ok false := by
  unfold ctOkB at hct
  cases hctRead : read_part pkg ctName with
  | none =>
    have h2 : read_part pkg2 ctName = none := hctn hctRead
    unfold has_override
    rw [if_neg (show ¬ has_part pkg2 ctName = true by
      rw [has_part_eq_isSome_read, h2]; exact Bool.false_ne_true)]
  | some dct =>
    rw [hctRead] at hct
    cases dct with
    | ctD cts =>
      have h2 := hcts cts hctRead
      unfold has_override
      rw [if_pos (show has_part pkg2 ctName = true by
        rw [has_part_eq_isSome_read, h2]; rfl)]
      rw [show read_ct pkg2 = Except.ok (cts.filter (ctKeepS U)) from by
        unfold read_ct read_partE
        rw [h2]
        rfl, except_bind_ok]
      rw [ct_has_override_filter_removed U l
        (List.mem_map_of_mem normalize_part_name hlU) cts]
    | relsD x => exact Bool.noConfusion hct
    | presD x => exact Bool.noConfusion hct
    | masterD x => exact Bool.noConfusion hct
    | slideD x => exact Bool.noConfusion hct
    | layoutD x => exact Bool.noConfusion hct
    | blobD x => exact Bool.noConfusion hct

theorem has_override_final_kept (pkg pkg2 : PPkg) (U : List Name)
    (lk : Name)
    (hct : ctOkB pkg = true)
    (hctn : read_part pkg ctName = none → read_part pkg2 ctName = none)
    (hcts : ∀ cts, read_part pkg ctName = some (PartData.ctD cts) →
       read_part pkg2 ctName = some (PartData.ctD (cts.filter (ctKeepS U))))
    (hinj : ¬ normalize_part_name lk ∈ U.map normalize_part_name) :
    has_override pkg2 lk = has_override pkg lk := by
  unfold ctOkB at hct
  cases hctRead : read_part pkg ctName with
  | none =>
    have h2 : read_part pkg2 ctName = none := hctn hctRead
    unfold has_override
    rw [if_neg (show ¬ has_part pkg2 ctName = true by
      rw [has_part_eq_isSome_read, h2]; exact Bool.false_ne_true)]
    rw [if_neg (show ¬ has_part pkg ctName = true by
      rw [has_part_eq_isSome_read, hctRead]; exact Bool.false_ne_true)]
  | some dct =>
    rw [hctRead] at hct
    cases dct with
    | ctD cts =>
      have h2 := hcts cts hctRead
      unfold has_override
      rw [if_pos (show has_part pkg2 ctName = true by
        rw [has_part_eq_isSome_read, h2]; rfl)]
      rw [if_pos (show has_part pkg ctName = true by
        rw [has_part_eq_isSome_read, hctRead]; rfl)]
      rw [show read_ct pkg2 = Except.ok (cts.filter (ctKeepS U)) from by
        unfold read_ct read_partE
        rw [h2]
        rfl, except_bind_ok]
      rw [show read_ct pkg = Except.ok cts from by
        unfold read_ct read_partE
        rw [hctRead]
        rfl, except_bind_ok]
      rw [ct_has_override_filter_kept U lk hinj cts]
    | relsD x => exact Bool.noConfusion hct
    | presD x => exact Bool.noConfusion hct
    | masterD x => exact Bool.noConfusion hct
    | slideD x => exact Bool.noConfusion hct
    | layoutD x => exact Bool.noConfusion hct
    | blobD x => exact Bool.noConfusion hct

theorem layout_head_ne_slash (x : Name)
    (hx : layoutsPre.isPrefixOf x = true) : x.head? ≠ some '/' := by
  obtain ⟨t, ht⟩ := List.isPrefixOf_iff_prefix.1 hx
  rw [← ht]
  intro h
  rw [show layoutsPre ++ t = 'p' :: (("pt/slideLayouts/".data) ++ t) from
    rfl] at h
  rw [List.head?_cons] at h
  cases h

theorem normalize_inj_heads (a b : Name) (ha : a.head? ≠ some '/')
    (hb : b.head? ≠ some '/')
    (h : normalize_part_name a = normalize_part_name b) : a = b := by
  unfold normalize_part_name at h
  rw [if_neg ha, if_neg hb] at h
  exact List.cons_injective h

theorem sidecarRels_of_read_none (pkg : PPkg) (m : Name)
    (h : read_part pkg (rels_part_for m) = none) :
    sidecarRels pkg m = [] := by
  unfold sidecarRels
  rw [h]

theorem sidecarRels_of_read_rels (pkg : PPkg) (m : Name)
    (rl : List Relationship)
    (h : read_part pkg (rels_part_for m) = some (PartData.relsD rl)) :
    sidecarRels pkg m = rl := by
  unfold sidecarRels
  rw [h]

/-- C8: `prune_unused_layouts` removes exactly the layout parts that are
not reachable from any slide's slideLayout relationship and not named in
the keep set. For each removed layout, its part and its relationship
sidecar are deleted, its content-type Override is removed, and every
master's matching slideLayout relationships and layout-id entries are
removed (the layout-id entries dropped are exactly those whose id is a
removed relationship id, across all masters). Every kept or reachable
layout part, its sidecar, its Override, and the masters' relationships to
it are left unchanged. -/
theorem C8_prune_removes_exactly_unused (pkg : PPkg)
    (keep used : List Name) (res : PruneLayoutsResult) (pkg2 : PPkg)
    (hpre : PrunePre pkg)
    (hused : used_layout_set pkg = Except.ok used)
    (hrun : prune_unused_layouts pkg keep = Except.ok (res, pkg2)) :
    res.removed_layouts = (layout_parts pkg).filter
      (fun l => ¬ l ∈ used ∧ ¬ l ∈ keep) ∧
    (∀ l ∈ res.removed_layouts,
       read_part pkg2 l = none ∧
       read_part pkg2 (rels_part_for l) = none ∧
       has_override pkg2 l = Except.ok false ∧
       (∀ m ∈ master_parts pkg,
          (sidecarRels pkg2 m).filter (relMatches m l) = [])) ∧
    (∀ m ∈ master_parts pkg, ∀ doc,
       read_part pkg m = some (PartData.masterD doc) →
       read_part pkg2 m = some (PartData.masterD
         { layoutIds := doc.layoutIds.map (fun lst =>
             lst.filter (entryKeep
               (removedIdsFor pkg m res.removed_layouts))),
           payload := doc.payload })) ∧
    (∀ lk ∈ layout_parts pkg, ¬ lk ∈ res.removed_layouts →
       read_part pkg2 lk = read_part pkg lk ∧
       read_part pkg2 (rels_part_for lk) =
         read_part pkg (rels_part_for lk) ∧
       has_override pkg2 lk = has_override pkg lk ∧
       (∀ m ∈ master_parts pkg,
          (sidecarRels pkg2 m).filter (relMatches m lk) =
            (sidecarRels pkg m).filter (relMatches m lk))) := by
  unfold prune_unused_layouts at hrun
  rw [hused, except_bind_ok2] at hrun
  dsimp only at hrun
  cases hfold : ((layout_parts pkg).filter
      (fun l => ¬ l ∈ used ∧ ¬ l ∈ keep)).foldlM pruneStep (pkg, 0) with
  | error e =>
    rw [hfold, except_bind_error2] at hrun
    cases hrun
  | ok st =>
    rw [hfold, except_bind_ok2] at hrun
    have h := Except.ok.inj hrun
    injection h with h1 h2
    subst h1
    subst h2
    have hU : ∀ x ∈ (layout_parts pkg).filter
        (fun l => ¬ l ∈ used ∧ ¬ l ∈ keep), x ∈ layout_parts pkg :=
      fun x hx => (List.mem_filter.1 hx).1
    have hinv := pruneFold_inv pkg hpre _ [] pkg 0 st hU
      (fun x _ h0 => absurd h0 (List.not_mem_nil x))
      ((layout_parts_nodup pkg hpre.1).filter _)
      (fun x hx => absurd hx (List.not_mem_nil x))
      (PruneInv_refl pkg) hfold
    obtain ⟨⟨hmp, hctn, hcts, hdel, hfr⟩, hmcs⟩ := hinv
    refine ⟨rfl, fun l hl => ?_, fun m hm doc hdoc => ?_,
      fun lk hlk hlkU => ?_⟩
    · refine ⟨(hdel l hl).1, (hdel l hl).2,
        has_override_final_removed pkg st.1 _ l hpre.2.2.2 hctn hcts hl,
        fun m hm => ?_⟩
      have hok := (hpre.2.2.1 m hm).1
      unfold sidecarOkB at hok
      cases hsc : read_part pkg (rels_part_for m) with
      | none =>
        rw [sidecarRels_of_read_none st.1 m ((hmcs m hm).1 hsc),
          List.filter_nil]
      | some d =>
        rw [hsc] at hok
        cases d with
        | relsD rl =>
          rw [sidecarRels_of_read_rels st.1 m _ ((hmcs m hm).2.1 rl hsc)]
          refine List.filter_eq_nil_iff.2 (fun a ha hmatch => ?_)
          have hnoU := of_decide_eq_true (List.mem_filter.1 ha).2
          exact hnoU (relMatches_any_of_mem m l _ hl a hmatch)
        | presD x =>
          dsimp only at hok
          exact Bool.noConfusion hok
        | masterD x =>
          dsimp only at hok
          exact Bool.noConfusion hok
        | slideD x =>
          dsimp only at hok
          exact Bool.noConfusion hok
        | layoutD x =>
          dsimp only at hok
          exact Bool.noConfusion hok
        | ctD x =>
          dsimp only at hok
          exact Bool.noConfusion hok
        | blobD x =>
          dsimp only at hok
          exact Bool.noConfusion hok
    · exact (hmcs m hm).2.2 doc hdoc
    · have hlkmem := mem_layout_parts pkg lk hlk
      have hlkN : NormalizedName lk := hpre.2.1 lk hlkmem.1
      have hlkrN := rels_part_for_normalized lk hlkN
      refine ⟨?_, ?_, ?_, fun m hm => ?_⟩
      · refine hfr lk hlkN hlkU ?_ ?_ (layout_ne_ct lk hlkmem.2.1)
        · intro hmem2
          obtain ⟨x, _hx, hEq⟩ := List.mem_map.1 hmem2
          exact (xml_ne_rels_part lk x hlkmem.2.2) hEq.symm
        · intro m hm
          have hmm := mem_master_parts pkg m hm
          exact ⟨layout_ne_master lk m hlkmem.2.1 hmm.2.1,
            xml_ne_rels_part lk m hlkmem.2.2⟩
      · refine hfr (rels_part_for lk) hlkrN ?_ ?_ ?_ (rels_part_ne_ct lk)
        · intro hmem2
          have hxm := mem_layout_parts pkg _ (hU _ hmem2)
          exact (xml_ne_rels_part (rels_part_for lk) lk hxm.2.2) rfl
        · intro hmem2
          obtain ⟨x, hx, hEq⟩ := List.mem_map.1 hmem2
          have hxmem := mem_layout_parts pkg x (hU x hx)
          have hxN : NormalizedName x := hpre.2.1 x hxmem.1
          have hEq2 : x = lk := rels_part_for_inj x lk hxN hlkN hEq
          exact hlkU (hEq2 ▸ hx)
        · intro m hm
          have hmm := mem_master_parts pkg m hm
          refine ⟨fun hEq => (xml_ne_rels_part m lk hmm.2.2) hEq.symm,
            fun hEq => (layout_ne_master lk m hlkmem.2.1 hmm.2.1)
              (rels_part_for_inj lk m hlkN (hpre.2.1 m hmm.1) hEq)⟩
      · refine has_override_final_kept pkg st.1 _ lk hpre.2.2.2 hctn hcts ?_
        intro hmem2
        obtain ⟨x, hx, hEq⟩ := List.mem_map.1 hmem2
        have hxmem := mem_layout_parts pkg x (hU x hx)
        have hEq2 : x = lk := normalize_inj_heads x lk
          (layout_head_ne_slash x hxmem.2.1)
          (layout_head_ne_slash lk hlkmem.2.1) hEq
        exact hlkU (hEq2 ▸ hx)
      · have hok := (hpre.2.2.1 m hm).1
        unfold sidecarOkB at hok
        cases hsc : read_part pkg (rels_part_for m) with
        | none =>
          rw [sidecarRels_of_read_none st.1 m ((hmcs m hm).1 hsc),
            sidecarRels_of_read_none pkg m hsc]
        | some d =>
          rw [hsc] at hok
          cases d with
          | relsD rl =>
            rw [sidecarRels_of_read_rels st.1 m _ ((hmcs m hm).2.1 rl hsc),
              sidecarRels_of_read_rels pkg m rl hsc]
            exact filter_match_of_filter_not_any m lk _ hlkU rl
          | presD x =>
            dsimp only at hok
            exact Bool.noConfusion hok
          | masterD x =>
            dsimp only at hok
            exact Bool.noConfusion hok
          | slideD x =>
            dsimp only at hok
            exact Bool.noConfusion hok
          | layoutD x =>
            dsimp only at hok
            exact Bool.noConfusion hok
          | ctD x =>
            dsimp only at hok
            exact Bool.noConfusion hok
          | blobD x =>
            dsimp only at hok
            exact Bool.noConfusion hok

/-- The slide part of the C8 witness package. -/
def slideC8 : Name := "ppt/slides/slide1.xml".data

/-- The reachable layout of the C8 witness package. -/
def layout1C8 : Name := "ppt/slideLayouts/slideLayout1.xml".data

/-- The unreachable layout of the C8 witness package. -/
def layout2C8 : Name := "ppt/slideLayouts/slideLayout2.xml".data

/-- The master of the C8 witness package. -/
def master1C8 : Name := "ppt/slideMasters/slideMaster1.xml".data

/-- A concrete package with one slide using layout 1, one master
referencing layouts 1 and 2, and Overrides for both layouts. -/
def pkgC8 : PPkg where
  parts := [
    (ctName, PartData.ctD [
      CTEntry.ovr ("/ppt/slideLayouts/slideLayout1.xml".data)
        SLIDE_LAYOUT_CONTENT_TYPE,
      CTEntry.ovr ("/ppt/slideLayouts/slideLayout2.xml".data)
        SLIDE_LAYOUT_CONTENT_TYPE]),
    (slideC8, PartData.slideD ⟨some 0, []⟩),
    (("ppt/slides/_rels/slide1.xml.rels".data), PartData.relsD
      [⟨("rId1".data), SLIDE_LAYOUT_REL,
        ("../slideLayouts/slideLayout1.xml".data), none⟩]),
    (master1C8, PartData.masterD ⟨some [
      ⟨some ("2147483649".data), some ("rId1".data)⟩,
      ⟨some ("2147483650".data), some ("rId2".data)⟩], 0⟩),
    (("ppt/slideMasters/_rels/slideMaster1.xml.rels".data), PartData.relsD
      [⟨("rId1".data), SLIDE_LAYOUT_REL,
        ("../slideLayouts/slideLayout1.xml".data), none⟩,
       ⟨("rId2".data), SLIDE_LAYOUT_REL,
        ("../slideLayouts/slideLayout2.xml".data), none⟩]),
    (layout1C8, PartData.layoutD ⟨some ("L1".data), some 0, 0⟩),
    (layout2C8, PartData.layoutD ⟨some ("L2".data), some 0, 0⟩),
    (("ppt/slideLayouts/_rels/slideLayout2.xml.rels".data), PartData.relsD
      [⟨("rId1".data), SLIDE_MASTER_REL,
        ("../slideMasters/slideMaster1.xml".data), none⟩])]
  order := [ctName, slideC8, ("ppt/slides/_rels/slide1.xml.rels".data),
    master1C8, ("ppt/slideMasters/_rels/slideMaster1.xml.rels".data),
    layout1C8, layout2C8,
    ("ppt/slideLayouts/_rels/slideLayout2.xml.rels".data)]

/-- The used-layout set computed for `pkgC8`. -/
def usedC8 : List Name := [layout1C8]

/-- The result record of pruning `pkgC8`. -/
def resC8 : PruneLayoutsResult :=
  match prune_unused_layouts pkgC8 [] with
  | Except.ok (r, _) => r
  | Except.error _ => ⟨[], [], 0⟩

/-- The package after pruning `pkgC8`. -/
def pkg2C8 : PPkg :=
  match prune_unused_layouts pkgC8 [] with
  | Except.ok (_, p) => p
  | Except.error _ => pkgC8

theorem C8_prune_removes_exactly_unused_witness :
    PrunePre pkgC8 ∧
    resC8.removed_layouts = [layout2C8] ∧
    read_part pkg2C8 layout2C8 = none ∧
    read_part pkg2C8 (rels_part_for layout2C8) = none ∧
    has_override pkg2C8 layout2C8 = Except.ok false ∧
    (sidecarRels pkg2C8 master1C8).filter
      (relMatches master1C8 layout2C8) = [] ∧
    read_part pkg2C8 layout1C8 = read_part pkgC8 layout1C8 ∧
    has_override pkg2C8 layout1C8 = has_override pkgC8 layout1C8 := by
  have h := C8_prune_removes_exactly_unused pkgC8 [] usedC8 resC8 pkg2C8
    (by decide) (by decide) (by decide)
  refine ⟨by decide, h.1.trans (by decide), ?_, ?_, ?_, ?_, ?_, ?_⟩
  · exact (h.2.1 layout2C8 (by decide)).1
  · exact (h.2.1 layout2C8 (by decide)).2.1
  · exact (h.2.1 layout2C8 (by decide)).2.2.1
  · exact (h.2.1 layout2C8 (by decide)).2.2.2 master1C8 (by decide)
  · exact (h.2.2.2 layout1C8 (by decide) (by decide)).1
  · exact (h.2.2.2 layout1C8 (by decide) (by decide)).2.2.1

/-! ### Reindexing: embedding of `reindex_layouts` and its phases -/

/-- The temporary part name `ppt/slideLayouts/_tmpLayout<n>.xml`. -/
def tmpLayoutName (n : Nat) : Name :=
  ("ppt/slideLayouts/_tmpLayout".data) ++ natDigits n ++ (".xml".data)

/-- The `while pkg.has_part(temp) or temp in temp_mapping.values()` search
of `_rename_layout_parts`, fuelled (the fuel passed by the caller bounds
the blocked counters, so exhaustion is unreachable on the runs proved
below). -/
def findTemp (pkg : PPkg) (vals : List Name) :
    Nat → Nat → Except PErr (Nat × Name)
  | 0, _ => Except.error PErr.notFound
  | fuel + 1, counter =>
    let temp := tmpLayoutName counter
    if has_part pkg temp ∨ temp ∈ vals then
      findTemp pkg vals fuel (counter + 1)
    else Except.ok (counter, temp)

/-- The first loop of `_rename_layout_parts`: pick a fresh temporary name
for every genuinely renamed layout, in mapping order. -/
def buildTempMapping (pkg : PPkg) :
    List (Name × Name) → Nat → List (Name × Name) →
    Except PErr (List (Name × Name))
  | [], _, temp_mapping => Except.ok temp_mapping
  | (old, new) :: rest, counter, temp_mapping =>
    if old = new then buildTempMapping pkg rest counter temp_mapping
    else
      (findTemp pkg (temp_mapping.map (fun e => e.2))
          (pkg.parts.length + temp_mapping.length + 2) counter).bind
        fun ct =>
          buildTempMapping pkg rest (ct.1 + 1)
            (dictInsert temp_mapping old ct.2)

/-- The second loop of `_rename_layout_parts`: move each renamed layout
and its sidecar to its temporary name and drop its Override. -/
def phaseAStep (st : PPkg) (e : Name × Name) : Except PErr PPkg :=
  (read_partE st e.1).bind fun d =>
    let pkg2 := delete_part (write_part st e.2 d) e.1
    (if has_part pkg2 (rels_part_for e.1) then
      (read_partE pkg2 (rels_part_for e.1)).bind fun dr =>
        Except.ok (delete_part
          (write_part pkg2 (rels_part_for e.2) dr) (rels_part_for e.1))
     else Except.ok pkg2).bind fun pkg3 =>
      (remove_override pkg3 e.1).bind fun ro => Except.ok ro.2

/-- The third loop of `_rename_layout_parts`: move each temporary to its
final name (or just ensure the Override for an identity rename). -/
def phaseBStep (temp_mapping : List (Name × Name)) (st : PPkg)
    (e : Name × Name) : Except PErr PPkg :=
  if e.1 = e.2 then
    (ensure_override st e.2 SLIDE_LAYOUT_CONTENT_TYPE).bind fun eo =>
      Except.ok eo.2
  else
    match alookup temp_mapping e.1 with
    | none => Except.error PErr.keyErr
    | some temp =>
      (read_partE st temp).bind fun d =>
        let pkg1 := delete_part (write_part st e.2 d) temp
        (if has_part pkg1 (rels_part_for temp) then
          (read_partE pkg1 (rels_part_for temp)).bind fun dr =>
            Except.ok (delete_part
              (write_part pkg1 (rels_part_for e.2) dr) (rels_part_for temp))
         else Except.ok pkg1).bind fun pkg2 =>
          (ensure_override pkg2 e.2 SLIDE_LAYOUT_CONTENT_TYPE).bind fun eo =>
            Except.ok eo.2

/-- Embedding of `_rename_layout_parts`. -/
def rename_layout_parts (pkg : PPkg) (mapping : List (Name × Name)) :
    Except PErr PPkg :=
  if mapping = [] then Except.ok pkg
  else
    (buildTempMapping pkg mapping 1 []).bind fun temp_mapping =>
      (temp_mapping.foldlM phaseAStep pkg).bind fun pkgA =>
        mapping.foldlM (phaseBStep temp_mapping) pkgA

/-- One slide's step of `_update_slide_layout_relationships`: rewrite every
slideLayout relationship whose resolved target is a mapping key, and write
the sidecar back whenever one matched. -/
def updateSlideStep (mapping : List (Name × Name)) (st : PPkg × Nat)
    (slide_part : Name) : Except PErr (PPkg × Nat) :=
  if has_part st.1 (rels_part_for slide_part) then
    (read_partE st.1 (rels_part_for slide_part)).bind fun d =>
      (parse_relationships d).bind fun rels =>
        let upd := rels.map (fun rel =>
          if layoutRelSuf.isSuffixOf rel.type then
            match alookup mapping
                (resolve_target (dirname slide_part) rel.target) with
            | some new => { rel with target := rel_target slide_part new }
            | none => rel
          else rel)
        let changed := rels.any (fun rel =>
          layoutRelSuf.isSuffixOf rel.type ∧
            (alookup mapping
              (resolve_target (dirname slide_part) rel.target)).isSome)
        if changed then
          Except.ok (write_part st.1 (rels_part_for slide_part)
            (serialize_relationships upd), st.2 + 1)
        else Except.ok st
  else Except.ok st

/-- Embedding of `_update_slide_layout_relationships`. -/
def update_slide_layout_relationships (pkg : PPkg)
    (mapping : List (Name × Name)) : Except PErr (Nat × PPkg) :=
  (slide_parts_in_order pkg).bind fun slides =>
    (slides.foldlM (updateSlideStep mapping) (pkg, 0)).bind fun st =>
      Except.ok (st.2, st.1)

/-- The `while f"rId{next_idx}" in used_ids` search, fuelled by the size
of the used set plus one (a free index always exists in that range). -/
def findFreeIdx (used : List Name) : Nat → Nat → Nat
  | 0, i => i
  | fuel + 1, i => if ridName i ∈ used then findFreeIdx used fuel (i + 1)
    else i

/-- The new contiguous slideLayout relationships of one master, skipping
ids already used by non-layout relationships. -/
def buildNewLayoutRels (master_part : Name)
    (mapping : List (Name × Name)) :
    List Name → List Name → Nat → List Relationship
  | [], _, _ => []
  | l :: rest, used, next_idx =>
    let new_part := match alookup mapping l with
      | some v => v
      | none => l
    let i := findFreeIdx used (used.length + 1) next_idx
    Relationship.mk (ridName i) SLIDE_LAYOUT_REL
        (rel_target master_part new_part) none ::
      buildNewLayoutRels master_part mapping rest
        (used ++ [ridName i]) (i + 1)

/-- The `zip(layout_list.findall(...), new_layout_rels)` id rewrite: the
trailing nodes of the longer side keep their attributes. -/
def zipSetIds : List SldLayoutId → List Relationship → List SldLayoutId
  | [], _ => []
  | lst, [] => lst
  | e :: t, r :: rr => { e with rid := some r.id } :: zipSetIds t rr

/-- One master's step of `_reindex_master_layouts`. -/
def reindexMasterStep (mapping : List (Name × Name)) (st : PPkg × Nat)
    (master_part : Name) : Except PErr (PPkg × Nat) :=
  (master_layout_order st.1 master_part).bind fun order =>
    if order = [] then Except.ok st
    else
      (if has_part st.1 (rels_part_for master_part) then
        (read_partE st.1 (rels_part_for master_part)).bind
          parse_relationships
       else Except.ok []).bind fun rels =>
        let non_layout := rels.filter
          (fun rel => ¬ layoutRelSuf.isSuffixOf rel.type)
        let new_layout_rels := buildNewLayoutRels master_part mapping order
          (non_layout.map (fun r => r.id)) 1
        let pkgW := write_part st.1 (rels_part_for master_part)
          (serialize_relationships (non_layout ++ new_layout_rels))
        (read_partE pkgW master_part).bind fun md =>
          match md with
          | PartData.masterD m =>
            Except.ok (write_part pkgW master_part (PartData.masterD
              { layoutIds := m.layoutIds.map (fun lst =>
                  zipSetIds lst new_layout_rels),
                payload := m.payload }), st.2 + 1)
          | _ => Except.error PErr.parseErr

/-- Embedding of `_reindex_master_layouts`. -/
def reindex_master_layouts (pkg : PPkg) (mapping : List (Name × Name)) :
    Except PErr (Nat × PPkg) :=
  ((master_parts pkg).foldlM (reindexMasterStep mapping) (pkg, 0)).bind
    fun st => Except.ok (st.2, st.1)

/-- The result record of `reindex_layouts`. -/
structure ReindexLayoutsResult where
  layout_mapping : List (Name × Name)
  masters_updated : Nat
  slides_updated : Nat
deriving DecidableEq

/-- Embedding of `reindex_layouts`: build the map, and unless it is empty
rename the parts, update the slides, and rewrite the masters. -/
def reindex_layouts (pkg : PPkg) :
    Except PErr (ReindexLayoutsResult × PPkg) :=
  (build_layout_reindex_map pkg).bind fun mapping =>
    if mapping = [] then Except.ok (⟨[], 0, 0⟩, pkg)
    else
      (rename_layout_parts pkg mapping).bind fun pkgR =>
        (update_slide_layout_relationships pkgR mapping).bind fun su =>
          (reindex_master_layouts su.2 mapping).bind fun mu =>
            Except.ok (⟨mapping, mu.1, su.1⟩, mu.2)

/-- The slide part of the C9 packages. -/
def slideC9 : Name := "ppt/slides/slide1.xml".data

/-- The slide sidecar of the C9 packages. -/
def slideRelsC9 : Name := "ppt/slides/_rels/slide1.xml.rels".data

/-- Layout 1 of the C9 scenario. -/
def layout1C9 : Name := "ppt/slideLayouts/slideLayout1.xml".data

/-- The canonical second layout name of the C9 scenario. -/
def layout2C9 : Name := "ppt/slideLayouts/slideLayout2.xml".data

/-- Layout 7 of the C9 scenario. -/
def layout7C9 : Name := "ppt/slideLayouts/slideLayout7.xml".data

/-- The master of the C9 packages. -/
def masterC9 : Name := "ppt/slideMasters/slideMaster1.xml".data

/-- The master sidecar of the C9 packages. -/
def masterRelsC9 : Name := "ppt/slideMasters/_rels/slideMaster1.xml.rels".data

/-- The spec scenario package: layouts `slideLayout1.xml` and
`slideLayout7.xml` referenced in that order by one master, and one slide
referencing `slideLayout7.xml`. -/
def pkgC9 : PPkg where
  parts := [
    (ctName, PartData.ctD [
      CTEntry.ovr ("/ppt/slideLayouts/slideLayout1.xml".data)
        SLIDE_LAYOUT_CONTENT_TYPE,
      CTEntry.ovr ("/ppt/slideLayouts/slideLayout7.xml".data)
        SLIDE_LAYOUT_CONTENT_TYPE]),
    (slideC9, PartData.slideD ⟨some 0, []⟩),
    (slideRelsC9, PartData.relsD
      [⟨("rId1".data), SLIDE_LAYOUT_REL,
        ("../slideLayouts/slideLayout7.xml".data), none⟩]),
    (masterC9, PartData.masterD ⟨some [
      ⟨some ("2147483649".data), some ("rId1".data)⟩,
      ⟨some ("2147483650".data), some ("rId2".data)⟩], 0⟩),
    (masterRelsC9, PartData.relsD
      [⟨("rId1".data), SLIDE_LAYOUT_REL,
        ("../slideLayouts/slideLayout1.xml".data), none⟩,
       ⟨("rId2".data), SLIDE_LAYOUT_REL,
        ("../slideLayouts/slideLayout7.xml".data), none⟩]),
    (layout1C9, PartData.layoutD ⟨some ("L1".data), some 0, 1⟩),
    (("ppt/slideLayouts/_rels/slideLayout1.xml.rels".data), PartData.relsD
      [⟨("rId1".data), SLIDE_MASTER_REL,
        ("../slideMasters/slideMaster1.xml".data), none⟩]),
    (layout7C9, PartData.layoutD ⟨some ("L7".data), some 0, 7⟩),
    (("ppt/slideLayouts/_rels/slideLayout7.xml.rels".data), PartData.relsD
      [⟨("rId1".data), SLIDE_MASTER_REL,
        ("../slideMasters/slideMaster1.xml".data), none⟩])]
  order := [ctName, slideC9, slideRelsC9, masterC9, masterRelsC9,
    layout1C9, ("ppt/slideLayouts/_rels/slideLayout1.xml.rels".data),
    layout7C9, ("ppt/slideLayouts/_rels/slideLayout7.xml.rels".data)]

/-- The first run's result record on `pkgC9`. -/
def res1C9 : ReindexLayoutsResult :=
  match reindex_layouts pkgC9 with
  | Except.ok (r, _) => r
  | Except.error _ => ⟨[], 0, 0⟩

/-- The package after the first reindex of `pkgC9`. -/
def pkg1C9 : PPkg :=
  match reindex_layouts pkgC9 with
  | Except.ok (_, p) => p
  | Except.error _ => pkgC9

/-- The second run's result record on `pkg1C9`. -/
def res2C9 : ReindexLayoutsResult :=
  match reindex_layouts pkg1C9 with
  | Except.ok (r, _) => r
  | Except.error _ => ⟨[], 0, 0⟩

/-- C9 (amended): on the spec's scenario — layouts `slideLayout1.xml` and
`slideLayout7.xml` referenced in that order by one master, one slide
referencing `slideLayout7.xml` — `reindex_layouts` renames
`slideLayout7.xml` to `slideLayout2.xml` (part and sidecar move, the old
name disappears), updates the referencing slide's relationship target,
rewrites the master's layout relationships to the contiguous ids `rId1`,
`rId2`, moves the content-type Override from layout 7 to layout 2, and a
second invocation immediately after completes and returns the identical
package. The universal idempotence half of the claim is refuted
separately. -/
theorem C9_reindex_scenario_canonicalizes :
    reindex_layouts pkgC9 = Except.ok (res1C9, pkg1C9) ∧
    res1C9.layout_mapping =
      [(layout1C9, layout1C9), (layout7C9, layout2C9)] ∧
    read_part pkg1C9 layout7C9 = none ∧
    read_part pkg1C9 layout2C9 = read_part pkgC9 layout7C9 ∧
    read_part pkg1C9
        (("ppt/slideLayouts/_rels/slideLayout2.xml.rels".data)) =
      read_part pkgC9
        (("ppt/slideLayouts/_rels/slideLayout7.xml.rels".data)) ∧
    read_part pkg1C9 slideRelsC9 = some (PartData.relsD
      [⟨("rId1".data), SLIDE_LAYOUT_REL,
        ("../slideLayouts/slideLayout2.xml".data), none⟩]) ∧
    read_part pkg1C9 masterRelsC9 = some (PartData.relsD
      [⟨ridName 1, SLIDE_LAYOUT_REL,
        ("../slideLayouts/slideLayout1.xml".data), none⟩,
       ⟨ridName 2, SLIDE_LAYOUT_REL,
        ("../slideLayouts/slideLayout2.xml".data), none⟩]) ∧
    has_override pkg1C9 layout2C9 = Except.ok true ∧
    has_override pkg1C9 layout7C9 = Except.ok false ∧
    reindex_layouts pkg1C9 = Except.ok (res2C9, pkg1C9) := by
  decide

/-- The non-canonically named layout of the C9 counterexample. -/
def layoutAC9 : Name := "ppt/slideLayouts/layoutA.xml".data

/-- The C9 counterexample package: the master references
`layoutA.xml` (so the first run renames it to `slideLayout1.xml`), and the
slide references `slideLayout1.xml` through an absolute target that the
first run does not rewrite because that name is not yet a mapping key. -/
def pkgC9x : PPkg where
  parts := [
    (ctName, PartData.ctD [
      CTEntry.ovr ("/ppt/slideLayouts/layoutA.xml".data)
        SLIDE_LAYOUT_CONTENT_TYPE]),
    (slideC9, PartData.slideD ⟨some 0, []⟩),
    (slideRelsC9, PartData.relsD
      [⟨("rId1".data), SLIDE_LAYOUT_REL,
        ("/ppt/slideLayouts/slideLayout1.xml".data), none⟩]),
    (masterC9, PartData.masterD ⟨some [
      ⟨some ("2147483649".data), some ("rId1".data)⟩], 0⟩),
    (masterRelsC9, PartData.relsD
      [⟨("rId1".data), SLIDE_LAYOUT_REL,
        ("../slideLayouts/layoutA.xml".data), none⟩]),
    (layoutAC9, PartData.layoutD ⟨some ("LA".data), some 0, 1⟩)]
  order := [ctName, slideC9, slideRelsC9, masterC9, masterRelsC9,
    layoutAC9]

/-- The first run's result record on `pkgC9x`. -/
def res1C9x : ReindexLayoutsResult :=
  match reindex_layouts pkgC9x with
  | Except.ok (r, _) => r
  | Except.error _ => ⟨[], 0, 0⟩

/-- The package after the first reindex of `pkgC9x`. -/
def pkg1C9x : PPkg :=
  match reindex_layouts pkgC9x with
  | Except.ok (_, p) => p
  | Except.error _ => pkgC9x

/-- The second run's result record on `pkg1C9x`. -/
def res2C9x : ReindexLayoutsResult :=
  match reindex_layouts pkg1C9x with
  | Except.ok (r, _) => r
  | Except.error _ => ⟨[], 0, 0⟩

/-- The package after the second reindex. -/
def pkg2C9x : PPkg :=
  match reindex_layouts pkg1C9x with
  | Except.ok (_, p) => p
  | Except.error _ => pkg1C9x

/-- C9 counterexample: the claim says a second invocation right after a
completed one changes no part, but on `pkgC9x` the first run completes
(renaming `layoutA.xml` to `slideLayout1.xml` and leaving the slide's
absolute target alone, as it is not a mapping key), and the second run
also completes yet rewrites the slide's sidecar: the target
`/ppt/slideLayouts/slideLayout1.xml` now resolves to a mapping key and is
replaced by the relative `../slideLayouts/slideLayout1.xml`, so the
packages differ. -/
theorem C9_reindex_idempotence_counterexample :
    reindex_layouts pkgC9x = Except.ok (res1C9x, pkg1C9x) ∧
    reindex_layouts pkg1C9x = Except.ok (res2C9x, pkg2C9x) ∧
    ¬ pkg2C9x = pkg1C9x ∧
    read_part pkg1C9x slideRelsC9 = some (PartData.relsD
      [⟨("rId1".data), SLIDE_LAYOUT_REL,
        ("/ppt/slideLayouts/slideLayout1.xml".data), none⟩]) ∧
    read_part pkg2C9x slideRelsC9 = some (PartData.relsD
      [⟨("rId1".data), SLIDE_LAYOUT_REL,
        ("../slideLayouts/slideLayout1.xml".data), none⟩]) := by
  decide
